import Mathlib

/-!
# MADNESS parallel runtime: futures, dependency tracking and the task queue

A shallow embedding of `madness/world/array.h` (`Stack`), `madness/world/worlddep.h`
(`CallbackInterface`, `DependencyInterface`), `madness/world/worldfut.h`
(`FutureImpl`, `Future`), `madness/world/worldtask.h` (`WorldTaskQueue`),
`madness/world/atomicint.h` (`AtomicInt`) and of `LBTree::verify_partition` of
`lib/mra/loadbal.cc`.

Objects live in a heap addressed by natural numbers; a `shared_ptr` is an address,
a null pointer is `none`.  Every operation is a function from a world to an outcome
and a new world.  A failed `MADNESS_ASSERT` is the outcome `violation`, returned with
the world as it was when the assertion fired.  Virtual calls (`notify`) and the
recursion of `set` through chained futures are bounded by a depth budget; running out
of budget is the outcome `timeout`.
-/

namespace madness

/-- Rank of a process. -/
abbrev ProcessID := Nat

/-- Address of an object on the heap. -/
abbrev Addr := Nat

/-- How a call ends: normally, by a failed `MADNESS_ASSERT`, by dereferencing a null
pointer, or because the depth budget of the model was used up. -/
inductive Outcome where
  | ok
  | violation
  | undefined
  | timeout
  deriving DecidableEq, Repr

/-! ## `Stack<T,N>` (array.h) -/

/-- The fixed-size stack of array.h.  `elems` lists the live entries from the top
down: `t[n-1], ..., t[0]`; `n` is its length. -/
structure Stack (α : Type) (N : Nat) where
  elems : List α
  deriving DecidableEq, Repr

namespace Stack

variable {α : Type} {N : Nat}

/-- Embeds `Stack() : n(0)`. -/
def mk0 : Stack α N := ⟨[]⟩

/-- Embeds `size()`: returns `n`. -/
def size (s : Stack α N) : Nat := s.elems.length

/-- Embeds `empty()`: `n == 0`. -/
def empty (s : Stack α N) : Bool := s.size == 0

/-- Embeds `push(value)`: `MADNESS_ASSERT(n < N); t[n++] = value`.  `none` is the failed assertion. -/
def push (s : Stack α N) (value : α) : Option (Stack α N) :=
  if s.size < N then some ⟨value :: s.elems⟩ else none

/-- Embeds `front()`: `MADNESS_ASSERT(n > 0); return t[n-1]`. -/
def front (s : Stack α N) : Option α := s.elems.head?

/-- Embeds `top()`: same as `front()`. -/
def top (s : Stack α N) : Option α := s.front

/-- Embeds `pop()`: `MADNESS_ASSERT(n > 0); return t[--n]`; the stack after the call. -/
def pop (s : Stack α N) : Option (Stack α N) :=
  match s.elems with
  | [] => none
  | _ :: rest => some ⟨rest⟩

/-- Embeds `clear()`: `n = 0`. -/
def clear (_s : Stack α N) : Stack α N := ⟨[]⟩

end Stack

/-! ## Callbacks (worlddep.h) -/

/-- The objects deriving from `CallbackInterface` that the runtime registers.
`user id` is a callback supplied by client code: its `notify()` is recorded in the
trace of the world.  `dep d` is the `DependencyInterface` at address `d` (a task, or a
future of a vector of futures).  `submit t` is the submit callback of task `t`.
`taskq` is the `WorldTaskQueue` itself. -/
inductive Callback where
  | user (id : Nat)
  | dep (d : Addr)
  | submit (t : Addr)
  | taskq
  deriving DecidableEq, Repr

/-- Embeds `DependencyInterface::MAXCALLBACKS`. -/
def DependencyInterface.MAXCALLBACKS : Nat := 8

/-- State of a `DependencyInterface`: `ndepend` and `callbacks`. -/
structure DependencyInterface where
  ndepend : Int
  callbacks : Stack Callback DependencyInterface.MAXCALLBACKS
  deriving DecidableEq, Repr

/-! ## Futures (worldfut.h) -/

/-- A `RemoteReference<FutureImpl<T>>`: the owning process and the identity of the
implementation object there. -/
structure RemoteReference where
  owner : ProcessID
  handle : Addr
  deriving DecidableEq, Repr

/-- Embeds `FutureImpl::MAXCALLBACKS`, the capacity of `assignments`. -/
def FutureImpl.MAXCALLBACKS : Nat := 4

/-- State of a `FutureImpl<T>`.  `callbacks` is a `std::stack` over a vector, listed
from the top down. -/
structure FutureImpl (T : Type) where
  callbacks : List Callback
  assignments : Stack Addr FutureImpl.MAXCALLBACKS
  assigned : Bool
  remote_ref : Option RemoteReference
  t : T

/-- A `Future<T>` handle: `f` is the pointer to the implementation (null is `none`),
`value` the buffer holding a `T` when the future was built from a value. -/
structure Future (T : Type) where
  f : Option Addr
  value : Option T

/-! ## `AtomicInt` (atomicint.h) -/

/-- Value of a 32-bit two's complement `int` holding the integer `x` modulo `2^32`. -/
def wrap32 (x : Int) : Int := (x + 2 ^ 31) % 2 ^ 32 - 2 ^ 31

/-- An `AtomicInt`: the `volatile int value`. -/
structure AtomicInt where
  value : Int
  deriving DecidableEq, Repr

/-- Embeds `AtomicInt::exchange_and_add(i)`: adds `i` to the counter and returns the value it
had before; the result of the call and the counter afterwards. -/
def AtomicInt.exchange_and_add (a : AtomicInt) (i : Int) : Int × AtomicInt :=
  (a.value, ⟨wrap32 (a.value + i)⟩)

/-- Embeds `AtomicInt::operator int()`: the value of the counter. -/
def AtomicInt.load (a : AtomicInt) : Int := a.value

/-- Embeds `AtomicInt::operator++(int)`: `return exchange_and_add(1)`. -/
def AtomicInt.post_inc (a : AtomicInt) : Int × AtomicInt := a.exchange_and_add 1

/-- Embeds `AtomicInt::operator--(int)`: `return exchange_and_add(-1)`. -/
def AtomicInt.post_dec (a : AtomicInt) : Int × AtomicInt := a.exchange_and_add (-1)

/-- Embeds `AtomicInt::operator=(int other)`: `value = other`; the argument is an `int`. -/
def AtomicInt.assign (_a : AtomicInt) (other : Int) : AtomicInt := ⟨other⟩

/-- Embeds `AtomicInt::operator+=(value)`: `return exchange_and_add(value) + value`, an `int`;
the result of the call and the counter afterwards. -/
def AtomicInt.add_assign (a : AtomicInt) (value : Int) : Int × AtomicInt :=
  (wrap32 ((a.exchange_and_add value).1 + value), (a.exchange_and_add value).2)

/-- An active message handed to `world.am.send`: the handler and its arguments.
`set_handler` carries a remote reference and a value; `spawn_remote_task_handler` carries
the `TaskHandlerInfo` (remote reference of the result future, function, attributes) and
the values of the arguments. -/
inductive AmArg (T : Type) where
  | set_handler (ref : RemoteReference) (value : T)
  | spawn_remote_task_handler (ref : RemoteReference) (func : Nat) (attr : Nat)
      (args : List T)

/-- An argument handed to `add`: a plain value or a future. -/
inductive TaskArg (T : Type) where
  | value (v : T)
  | future (h : Future T)

/-- Modelled from the spec: what a `TaskFn` holds besides its dependency tracker
(`taskfn.h` is not part of the sources): the result future, the function (by its
identity), the bound arguments and the attributes. -/
structure TaskFn (T : Type) where
  result : Future T
  func : Nat
  args : List (TaskArg T)
  attr : Nat

/-- The state of one process. -/
structure World (T : Type) where
  futs : Addr → FutureImpl T
  deps : Addr → DependencyInterface
  trace : List Nat
  ready : List Addr
  nregistered : AtomicInt
  sent : List (ProcessID × AmArg T)
  tasks : Addr → Option (TaskFn T)

variable {T : Type}

/-- Overwrite the `FutureImpl` at address `a`. -/
def World.setFut (w : World T) (a : Addr) (o : FutureImpl T) : World T :=
  { w with futs := Function.update w.futs a o }

/-- Overwrite the `DependencyInterface` at address `d`. -/
def World.setDep (w : World T) (d : Addr) (o : DependencyInterface) : World T :=
  { w with deps := Function.update w.deps d o }

/-- Modelled from the spec: `ThreadPool::add` (worldthread.h is not part of the sources)
pushes the task onto the FIFO ready queue of the local worker pool. -/
def ThreadPool.add (t : Addr) (w : World T) : World T :=
  { w with ready := w.ready ++ [t] }

/-- Modelled from the spec: `world.am.send(owner, handler, arg)` (the transport is not
part of the sources) hands one message to the transport and returns. -/
def World.am_send (w : World T) (owner : ProcessID) (arg : AmArg T) : World T :=
  { w with sent := w.sent ++ [(owner, arg)] }

mutual

/-- The virtual call `CallbackInterface::notify()`.
`DependencyInterface::notify() {dec();}`, `WorldTaskQueue::notify() { nregistered--; }`;
the submit callback of a task hands the task to `ThreadPool::add` (modelled from the
spec, `TaskInterface` is not part of the sources). -/
def CallbackInterface.notify : Nat → Callback → World T → Outcome × World T
  | 0, _, w => (.timeout, w)
  | _ + 1, .user id, w => (.ok, { w with trace := w.trace ++ [id] })
  | n + 1, .dep d, w => DependencyInterface.dec n d w
  | _ + 1, .submit t, w => (.ok, ThreadPool.add t w)
  | _ + 1, .taskq, w => (.ok, { w with nregistered := w.nregistered.post_dec.2 })

/-- Embeds `DependencyInterface::do_callbacks(cb)`:
`while (!cb.empty()) { cb.front()->notify(); cb.pop(); }` on the caller's local copy. -/
def DependencyInterface.do_callbacks :
    Nat → Stack Callback DependencyInterface.MAXCALLBACKS → World T → Outcome × World T
  | 0, _, w => (.timeout, w)
  | n + 1, cb, w =>
    if cb.empty then (.ok, w)
    else
      match cb.front, cb.pop with
      | some c, some rest =>
        match CallbackInterface.notify n c w with
        | (.ok, w1) => DependencyInterface.do_callbacks n rest w1
        | r => r
      | _, _ => (.violation, w)

/-- Embeds `DependencyInterface::dec()`: `if (--ndepend == 0) { cb = callbacks; callbacks.clear(); }`
under the lock, then `do_callbacks(cb)`. -/
def DependencyInterface.dec : Nat → Addr → World T → Outcome × World T
  | 0, _, w => (.timeout, w)
  | n + 1, d, w =>
    let o := w.deps d
    let nd := o.ndepend - 1
    if nd = 0 then
      DependencyInterface.do_callbacks n o.callbacks
        (w.setDep d { ndepend := nd, callbacks := o.callbacks.clear })
    else
      DependencyInterface.do_callbacks n Stack.mk0
        (w.setDep d { ndepend := nd, callbacks := o.callbacks })

end

/-- Embeds `DependencyInterface::ndep()`. -/
def DependencyInterface.ndep (w : World T) (d : Addr) : Int := (w.deps d).ndepend

/-- Embeds `DependencyInterface::probe()`: `ndep() == 0`. -/
def DependencyInterface.probe (w : World T) (d : Addr) : Bool :=
  DependencyInterface.ndep w d == 0

/-- Embeds `DependencyInterface::inc()`: `ndepend++` under the lock.  The member is a
`volatile int`: the increment of `INT_MAX` wraps to `INT_MIN`. -/
def DependencyInterface.inc (d : Addr) (w : World T) : Outcome × World T :=
  (.ok, w.setDep d { w.deps d with ndepend := wrap32 ((w.deps d).ndepend + 1) })

/-- Embeds `DependencyInterface::register_callback(callback)`: push the callback, and if
`probe()` take the whole list and clear the member; then `do_callbacks(cb)`. -/
def DependencyInterface.register_callback (fuel : Nat) (d : Addr) (callback : Callback)
    (w : World T) : Outcome × World T :=
  match (w.deps d).callbacks.push callback with
  | none => (.violation, w)
  | some pushed =>
    let w1 := w.setDep d { w.deps d with callbacks := pushed }
    if DependencyInterface.probe w1 d then
      DependencyInterface.do_callbacks fuel pushed
        (w1.setDep d { w1.deps d with callbacks := pushed.clear })
    else
      DependencyInterface.do_callbacks fuel Stack.mk0 w1

mutual

/-- Embeds `FutureImpl::set(value)`: with a remote reference the value is sent to the owner
(which, following the spec, consumes the reference) and `set_assigned(value)` is called;
otherwise `set_assigned((t = value))`: the store into `t` is evaluated as the argument,
before `set_assigned` is entered. -/
def FutureImpl.set : Nat → Addr → T → World T → Outcome × World T
  | 0, _, _, w => (.timeout, w)
  | n + 1, a, value, w =>
    match (w.futs a).remote_ref with
    | some ref =>
      FutureImpl.set_assigned n a value
        ((w.am_send ref.owner (.set_handler ref value)).setFut a
          { w.futs a with remote_ref := none })
    | none =>
      FutureImpl.set_assigned n a value (w.setFut a { w.futs a with t := value })

/-- Embeds `FutureImpl::set_assigned(value)`: `MADNESS_ASSERT(!assigned); assigned = true;`
then the loop over `assignments` and the loop over `callbacks`. -/
def FutureImpl.set_assigned : Nat → Addr → T → World T → Outcome × World T
  | 0, _, _, w => (.timeout, w)
  | n + 1, a, value, w =>
    if (w.futs a).assigned then (.violation, w)
    else
      match FutureImpl.set_assigned_as n a value
          (w.setFut a { w.futs a with assigned := true }) with
      | (.ok, w1) => FutureImpl.set_assigned_cb n a w1
      | r => r

/-- First loop of `set_assigned`:
`while (!as.empty()) { MADNESS_ASSERT(as.front()); as.top()->set(value); as.pop(); }`
where `as` refers to the member `assignments`. -/
def FutureImpl.set_assigned_as : Nat → Addr → T → World T → Outcome × World T
  | 0, _, _, w => (.timeout, w)
  | n + 1, a, value, w =>
    if (w.futs a).assignments.empty then (.ok, w)
    else
      match (w.futs a).assignments.top with
      | none => (.violation, w)
      | some x =>
        match FutureImpl.set n x value w with
        | (.ok, w1) =>
          match (w1.futs a).assignments.pop with
          | none => (.violation, w1)
          | some rest =>
            FutureImpl.set_assigned_as n a value
              (w1.setFut a { w1.futs a with assignments := rest })
        | r => r

/-- Second loop of `set_assigned`:
`while (!cb.empty()) { MADNESS_ASSERT(cb.top()); cb.top()->notify(); cb.pop(); }`
where `cb` refers to the member `callbacks`. -/
def FutureImpl.set_assigned_cb : Nat → Addr → World T → Outcome × World T
  | 0, _, w => (.timeout, w)
  | n + 1, a, w =>
    match (w.futs a).callbacks with
    | [] => (.ok, w)
    | c :: _ =>
      match CallbackInterface.notify n c w with
      | (.ok, w1) =>
        FutureImpl.set_assigned_cb n a
          (w1.setFut a { w1.futs a with callbacks := (w1.futs a).callbacks.tail })
      | r => r

end

/-- Embeds `FutureImpl::add_to_assignments(f)`: `if (assigned) f->set(t); else assignments.push(f)`. -/
def FutureImpl.add_to_assignments (fuel : Nat) (a : Addr) (f : Addr) (w : World T) :
    Outcome × World T :=
  if (w.futs a).assigned then FutureImpl.set fuel f (w.futs a).t w
  else
    match (w.futs a).assignments.push f with
    | none => (.violation, w)
    | some pushed => (.ok, w.setFut a { w.futs a with assignments := pushed })

/-- Embeds `FutureImpl::probe()`: returns `assigned`. -/
def FutureImpl.probe (w : World T) (a : Addr) : Bool := (w.futs a).assigned

/-- Embeds `FutureImpl::register_callback(callback)`:
`if (assigned) callback->notify(); else callbacks.push(callback)`. -/
def FutureImpl.register_callback (fuel : Nat) (a : Addr) (callback : Callback) (w : World T) :
    Outcome × World T :=
  if (w.futs a).assigned then CallbackInterface.notify fuel callback w
  else (.ok, w.setFut a { w.futs a with callbacks := callback :: (w.futs a).callbacks })

/-- What a call of `get()` does: return a reference to a value, fail an assertion, or
wait in `World::await` for `probe()` to become true. -/
inductive GetResult (T : Type) where
  | value (v : T)
  | violation
  | waits
  deriving DecidableEq, Repr

/-- Embeds `FutureImpl::get()`: `MADNESS_ASSERT(!remote_ref); World::await(probe); return t`.
`World::await` is not part of the sources; following the spec it returns once `probe()`
is true and keeps the caller waiting until then. -/
def FutureImpl.get (w : World T) (a : Addr) : GetResult T :=
  match (w.futs a).remote_ref with
  | some _ => .violation
  | none => if FutureImpl.probe w a then .value (w.futs a).t else .waits

/-- Embeds `Future::probe()`: `f ? f->probe() : bool(value)`. -/
def Future.probe (w : World T) (h : Future T) : Bool :=
  match h.f with
  | some a => FutureImpl.probe w a
  | none => h.value.isSome

/-- Embeds `Future::get()`: `MADNESS_ASSERT(f || value); return (f ? f->get() : *value)`.
The world is handed back as it was: the call changes nothing. -/
def Future.get (h : Future T) (w : World T) : GetResult T × World T :=
  match h.f, h.value with
  | some a, _ => (FutureImpl.get w a, w)
  | none, some v => (.value v, w)
  | none, none => (.violation, w)

/-- Embeds `Future::set(const T& value)`: `MADNESS_ASSERT(f); ff->set(value)`. -/
def Future.set (fuel : Nat) (h : Future T) (value : T) (w : World T) : Outcome × World T :=
  match h.f with
  | none => (.violation, w)
  | some a => FutureImpl.set fuel a value w

/-- Embeds `Future::set(const Future<T>& other)`: `A.set(B)` links `A` to `B`.
`MADNESS_ASSERT(f)`; when `f != other.f`: `MADNESS_ASSERT(!f->probe())`, then
`set(other.get())` if `other.probe()`, else `of->add_to_assignments(ff)`.  A null
`other.f` is dereferenced on that last path (`undefined`).  The value of `other.get()`
is there whenever `other.probe()` holds, so the branch `waits` is never taken. -/
def Future.set_future (fuel : Nat) (h : Future T) (other : Future T) (w : World T) :
    Outcome × World T :=
  match h.f with
  | none => (.violation, w)
  | some a =>
    if h.f ≠ other.f then
      if FutureImpl.probe w a then (.violation, w)
      else if Future.probe w other then
        match (Future.get other w).1 with
        | .value v => Future.set fuel h v w
        | .violation => (.violation, w)
        | .waits => (.timeout, w)
      else
        match other.f with
        | none => (.undefined, w)
        | some b => FutureImpl.add_to_assignments fuel b a w
    else (.ok, w)

/-- Embeds `Future::register_callback(callback)`:
`if (probe()) callback->notify(); else { MADNESS_ASSERT(f); f->register_callback(callback); }`. -/
def Future.register_callback (fuel : Nat) (h : Future T) (callback : Callback) (w : World T) :
    Outcome × World T :=
  if Future.probe w h then CallbackInterface.notify fuel callback w
  else
    match h.f with
    | none => (.violation, w)
    | some a => FutureImpl.register_callback fuel a callback w

/-! ## The task queue (worldtask.h) -/

/-- Modelled from the spec: `TaskInterface::register_submit_callback()` (`TaskInterface`
is not part of the sources) registers the submit callback of the task on the task's own
dependency tracker; a task is addressed by its `DependencyInterface`. -/
def TaskInterface.register_submit_callback (fuel : Nat) (t : Addr) (w : World T) :
    Outcome × World T :=
  DependencyInterface.register_callback fuel t (.submit t) w

/-- Embeds `WorldTaskQueue::add(TaskInterface* t)`: `nregistered++`, then the task is handed to
`ThreadPool::add` if `t->ndep() == 0` and otherwise `t->register_submit_callback()`. -/
def WorldTaskQueue.add (fuel : Nat) (t : Addr) (w : World T) : Outcome × World T :=
  let w1 : World T := { w with nregistered := w.nregistered.post_inc.2 }
  if DependencyInterface.ndep w1 t = 0 then (.ok, ThreadPool.add t w1)
  else TaskInterface.register_submit_callback fuel t w1

/-- Modelled from the spec: the dependency check of a task argument (`taskfn.h` is not
part of the sources): for an argument that is a future and not yet assigned, call
`inc()` on the tracker of the task once and register the task as a callback on the
argument. -/
def TaskInterface.check_dependency (fuel : Nat) (t : Addr) (arg : Future T) (w : World T) :
    Outcome × World T :=
  if Future.probe w arg then (.ok, w)
  else
    match DependencyInterface.inc t w with
    | (.ok, w1) => Future.register_callback fuel arg (.dep t) w1
    | r => r

/-- Embeds `WorldTaskQueue::size()`: `size_t size() const { return nregistered; }`.  The
counter is read as an `int` and converted to the unsigned 64-bit `size_t`: a counter that
is not negative reads as it is, and a negative `int` `k` reads `2^64 + k` (`wrap32` leaves
an `int` as it is). -/
def WorldTaskQueue.size (w : World T) : Int :=
  if 0 ≤ w.nregistered.load then w.nregistered.load
  else 2 ^ 64 + wrap32 w.nregistered.load

/-- Modelled from the spec: a range (`worldrange.h` is not part of the sources) supports
`size()`, a configured chunk size, iteration over its elements and splitting into two
sub-ranges. -/
structure Range (α : Type) where
  items : List α
  chunksize : Nat

/-- Modelled from the spec: `Range::size()`. -/
def Range.size {α : Type} (r : Range α) : Nat := r.items.length

/-- Modelled from the spec: `Range::get_chunksize()`. -/
def Range.get_chunksize {α : Type} (r : Range α) : Nat := r.chunksize

/-- Modelled from the spec: the splitting constructor `rangeT right(left, Split())`
leaves the first elements in `left` and moves the rest to `right`, both keeping the chunk
size.  Where the cut falls is not fixed by the spec: `cut n` is the number of elements
that stay in the left part of a range of `n` elements. -/
def Range.split {α : Type} (cut : Nat → Nat) (r : Range α) : Range α × Range α :=
  (⟨r.items.take (cut r.size), r.chunksize⟩, ⟨r.items.drop (cut r.size), r.chunksize⟩)

/-- Embeds `WorldTaskQueue::sum(left, right, op)`: `return op(left,right)`. -/
def WorldTaskQueue.sum {R : Type} (left right : R) (op : R → R → R) : R := op left right

/-- Embeds `WorldTaskQueue::reduce(range, op)`, as the value its result future resolves to.
`zero` is `resultT()`, `opit` is `op(it)` and `op` is `op(left, right)`.  A leaf folds
`sum = op(sum, op(it))` over its elements; above the chunk size the range is split, both
halves are reduced by tasks and a third task combines them with `sum`.  The first
argument bounds the depth of the splitting. -/
def WorldTaskQueue.reduce {α R : Type} (cut : Nat → Nat) (zero : R) (opit : α → R)
    (op : R → R → R) : Nat → Range α → Option R
  | 0, _ => none
  | n + 1, range =>
    if range.size ≤ range.get_chunksize then
      some (range.items.foldl (fun sum it => op sum (opit it)) zero)
    else
      match WorldTaskQueue.reduce cut zero opit op n (range.split cut).1,
          WorldTaskQueue.reduce cut zero opit op n (range.split cut).2 with
      | some leftsum, some rightsum => some (WorldTaskQueue.sum leftsum rightsum op)
      | _, _ => none

/-- Calls `get()` on the same future `n` times in a row and collects the results. -/
def Future.get_times (h : Future T) : Nat → World T → List (GetResult T) × World T
  | 0, w => ([], w)
  | n + 1, w =>
    let r := Future.get h w
    let rs := Future.get_times h n r.2
    (r.1 :: rs.1, rs.2)

/-- A world in which no future is assigned, no dependency is pending, nothing is queued
and nothing has been sent; `t0` is the default-constructed `T`. -/
def World.init (t0 : T) : World T where
  futs := fun _ => ⟨[], Stack.mk0, false, none, t0⟩
  deps := fun _ => ⟨0, Stack.mk0⟩
  trace := []
  ready := []
  nregistered := ⟨0⟩
  sent := []
  tasks := fun _ => none

/-- Embeds `DependencyInterface(int ndep = 0) : ndepend(ndep)`: a new tracker at address `d`. -/
def DependencyInterface.ctor (d : Addr) (ndep : Int) (w : World T) : World T :=
  w.setDep d { ndepend := ndep, callbacks := Stack.mk0 }

/-- Embeds `FutureImpl()`: a new local unassigned implementation object at address `a`; `t0` is
the default-constructed `T`. -/
def FutureImpl.ctor (a : Addr) (t0 : T) (w : World T) : World T :=
  w.setFut a { callbacks := [], assignments := Stack.mk0, assigned := false,
               remote_ref := none, t := t0 }

/-- Embeds `Future()`: makes an unassigned future, `f(new FutureImpl<T>()), value(NULL)`; `a` is
the address returned by `new`. -/
def Future.ctor (a : Addr) (t0 : T) (w : World T) : Future T × World T :=
  (⟨some a, none⟩, FutureImpl.ctor a t0 w)

/-- Embeds `Future(const T& t)`: makes an assigned future, `f(), value(new(buffer) T(t))`. -/
def Future.ctor_value (t : T) : Future T := ⟨none, some t⟩

/-- Calls `dec()` on the tracker at `d` the given number of times, stopping at the first
call that does not return normally. -/
def DependencyInterface.dec_times (fuel : Nat) (d : Addr) : Nat → World T → Outcome × World T
  | 0, w => (.ok, w)
  | k + 1, w =>
    match DependencyInterface.dec fuel d w with
    | (.ok, w1) => DependencyInterface.dec_times fuel d k w1
    | r => r

/-- Calls `register_callback` on the tracker at `d` for each callback of the list, in the
order of the list, stopping at the first call that does not return normally. -/
def DependencyInterface.register_all (fuel : Nat) (d : Addr) :
    List Callback → World T → Outcome × World T
  | [], w => (.ok, w)
  | c :: cs, w =>
    match DependencyInterface.register_callback fuel d c w with
    | (.ok, w1) => DependencyInterface.register_all fuel d cs w1
    | r => r

/-- The future at `x` is assigned, holds `v` in its own storage and carries no remote
reference. -/
def Resolved (v : T) (x : Addr) (w : World T) : Prop :=
  (w.futs x).assigned = true ∧ (w.futs x).t = v ∧ (w.futs x).remote_ref = none

/-- The future at `x` is local and unassigned and has no callback and no chained future
registered: the state `FutureImpl()` leaves it in. -/
def Fresh (x : Addr) (w : World T) : Prop :=
  (w.futs x).assigned = false ∧ (w.futs x).remote_ref = none ∧
    (w.futs x).callbacks = [] ∧ (w.futs x).assignments = Stack.mk0

/-- Builds a chain of links: for the list `f_n, ..., f_1, f_0` it calls
`f_(n-1).set(f_n)`, then `f_(n-2).set(f_(n-1))`, down to `f_0.set(f_1)`, stopping at the
first call that does not return normally. -/
def Future.link_chain (fuel : Nat) : List Addr → World T → Outcome × World T
  | x :: y :: rest, w =>
    match Future.set_future fuel ⟨some y, none⟩ ⟨some x, none⟩ w with
    | (.ok, w1) => Future.link_chain fuel (y :: rest) w1
    | r => r
  | _, w => (.ok, w)

/-- The state of a chain `f_n, ..., f_0` of local unassigned futures after linking: each
future but the last has exactly its successor in `assignments`, and no callbacks. -/
def Linked : List Addr → World T → Prop
  | [], _ => True
  | [x], w => Fresh x w
  | x :: y :: rest, w =>
    ((w.futs x).assigned = false ∧ (w.futs x).remote_ref = none ∧
      (w.futs x).callbacks = [] ∧ (w.futs x).assignments = ⟨[y]⟩) ∧ Linked (y :: rest) w

/-- Assigns the futures of the list one after the other, in the order of the list, the
future at `a` getting the value `vs a`; stops at the first `set` that does not return
normally. -/
def Future.set_all (fuel : Nat) (vs : Addr → T) : List Addr → World T → Outcome × World T
  | [], w => (.ok, w)
  | a :: rest, w =>
    match Future.set fuel ⟨some a, none⟩ (vs a) w with
    | (.ok, w1) => Future.set_all fuel vs rest w1
    | r => r

/-- The future at `a` is an unassigned local argument of the task `d`: the task is the
one callback registered on it and no future is chained to it. -/
def AwaitedBy (d : Addr) (a : Addr) (w : World T) : Prop :=
  (w.futs a).assigned = false ∧ (w.futs a).remote_ref = none ∧
    (w.futs a).assignments = Stack.mk0 ∧ (w.futs a).callbacks = [Callback.dep d]

/-- Between the worlds `w` and `w1` the future at `z` was left alone, or it went from
unassigned to assigned. -/
def Touched (w w1 : World T) (z : Addr) : Prop :=
  w1.futs z = w.futs z ∨ ((w.futs z).assigned = false ∧ (w1.futs z).assigned = true)

/-- A chain `f_n, ..., f_0` of local futures in which every future that is still
unassigned has its successor among the futures chained to it. -/
def Chained : List Addr → World T → Prop
  | [], _ => True
  | [x], w => (w.futs x).remote_ref = none
  | x :: y :: rest, w =>
    (w.futs x).remote_ref = none ∧
      ((w.futs x).assigned = false → y ∈ (w.futs x).assignments.elems) ∧
      Chained (y :: rest) w

/-- A task at address 5 with two new futures, at addresses 0 and 1, as its arguments,
before it is added to the queue. -/
def twoArgumentTask : World Nat :=
  (TaskInterface.check_dependency 1 5 ⟨some 1, none⟩
    (TaskInterface.check_dependency 1 5 ⟨some 0, none⟩
      (DependencyInterface.ctor 5 0
        (FutureImpl.ctor 1 0 (FutureImpl.ctor 0 0 (World.init 0))))).2).2

/-- Calls `register_callback` on the future `h` for each callback of the list, in the
order of the list, stopping at the first call that does not return normally. -/
def Future.register_all (fuel : Nat) (h : Future T) :
    List Callback → World T → Outcome × World T
  | [], w => (.ok, w)
  | c :: cs, w =>
    match Future.register_callback fuel h c w with
    | (.ok, w1) => Future.register_all fuel h cs w1
    | r => r

/-- The constructor `DependencyInterface(int ndep = 0) : ndepend(ndep) {}` as a call: its
body is empty and no assertion guards `ndep`, so it returns normally with the tracker
that `ctor` builds. -/
def DependencyInterface.construct (d : Addr) (ndep : Int) (w : World T) : Outcome × World T :=
  (.ok, DependencyInterface.ctor d ndep w)

/-- The destructor `~DependencyInterface()`: with `MADNESS_ASSERTIONS_THROW` defined,
`if (ndepend != 0) error(...)`, otherwise `MADNESS_ASSERT(ndepend == 0)`.  The function
`error` is not part of the sources; it is the fatal error and, like the failed assertion,
ends the call with `violation`. -/
def DependencyInterface.dtor (assertions_throw : Bool) (d : Addr) (w : World T) :
    Outcome × World T :=
  if assertions_throw then
    if (w.deps d).ndepend ≠ 0 then (.violation, w) else (.ok, w)
  else
    if (w.deps d).ndepend = 0 then (.ok, w) else (.violation, w)

/-- The calls a client makes on one tracker. -/
inductive DepOp where
  | inc
  | dec
  | register_callback (c : Callback)
  deriving DecidableEq, Repr

/-- Performs one call on the tracker at `d`. -/
def DependencyInterface.call (fuel : Nat) (d : Addr) : DepOp → World T → Outcome × World T
  | .inc, w => DependencyInterface.inc d w
  | .dec, w => DependencyInterface.dec fuel d w
  | .register_callback c, w => DependencyInterface.register_callback fuel d c w

/-- Performs a sequence of calls on the tracker at `d` and lists the world after each
call; a call that does not return normally leaves the world it had reached. -/
def DependencyInterface.run (fuel : Nat) (d : Addr) : List DepOp → World T → List (World T)
  | [], _ => []
  | op :: ops, w =>
    (DependencyInterface.call fuel d op w).2 ::
      DependencyInterface.run fuel d ops (DependencyInterface.call fuel d op w).2

/-- Embeds `Future::remote_ref(world)`: `MADNESS_ASSERT(!probe())`, then the remote
reference the implementation already holds, if any, else `RemoteReference(world, f)`:
a reference owned by this process (`me`) to the implementation object. -/
def Future.remote_ref (me : ProcessID) (h : Future T) (w : World T) :
    Outcome × Option RemoteReference :=
  if Future.probe w h then (.violation, none)
  else
    match h.f with
    | none => (.undefined, none)
    | some a =>
      match (w.futs a).remote_ref with
      | some ref => (.ok, some ref)
      | none => (.ok, some ⟨me, a⟩)

/-- Embeds `FutureImpl(const RemoteReference& remote_ref)`: a new unassigned
implementation object at address `a` wrapping a remote future. -/
def FutureImpl.ctor_remote (a : Addr) (t0 : T) (ref : RemoteReference) (w : World T) :
    World T :=
  w.setFut a { callbacks := [], assignments := Stack.mk0, assigned := false,
               remote_ref := some ref, t := t0 }

/-- Embeds `Future(const remote_refT& remote_ref)`:
`f(remote_ref.is_local() ? remote_ref.get_shared() : new FutureImpl<T>(remote_ref))`.
Following the spec a reference is local on the process that owns it; `b` is the address
returned by `new`. -/
def Future.ctor_remote (me : ProcessID) (b : Addr) (t0 : T) (ref : RemoteReference)
    (w : World T) : Future T × World T :=
  if ref.owner = me then (⟨some ref.handle, none⟩, w)
  else (⟨some b, none⟩, FutureImpl.ctor_remote b t0 ref w)

/-- Embeds `FutureImpl::set_handler(arg)`, the handler of the set message on the process
that owns the reference: `pimpl = ref.get()`; if `pimpl->remote_ref`, the value is sent on
to that owner and `pimpl->set_assigned(value)`; else the value is read into `pimpl->t`
and `pimpl->set_assigned(pimpl->t)`. -/
def FutureImpl.set_handler (fuel : Nat) (arg : AmArg T) (w : World T) : Outcome × World T :=
  match arg with
  | .set_handler ref value =>
    match (w.futs ref.handle).remote_ref with
    | some rr =>
      FutureImpl.set_assigned fuel ref.handle value
        ((w.am_send rr.owner (.set_handler rr value)).setFut ref.handle
          { w.futs ref.handle with remote_ref := none })
    | none =>
      FutureImpl.set_assigned fuel ref.handle value
        (w.setFut ref.handle { w.futs ref.handle with t := value })
  | .spawn_remote_task_handler _ _ _ _ => (.undefined, w)

/-- Modelled from the spec: the dependency checks a `TaskFn` constructor makes, one per
argument, in the order of the arguments. -/
def TaskFn.check_dependencies (fuel : Nat) (t : Addr) :
    List (TaskArg T) → World T → Outcome × World T
  | [], w => (.ok, w)
  | .value _ :: rest, w => TaskFn.check_dependencies fuel t rest w
  | .future h :: rest, w =>
    match TaskInterface.check_dependency fuel t h w with
    | (.ok, w1) => TaskFn.check_dependencies fuel t rest w1
    | r => r

/-- Modelled from the spec: the `TaskFn` constructor (`taskfn.h` is not part of the
sources) makes the task node at address `t` with a tracker counting no dependency yet,
wrapping the function and the arguments, and then checks the arguments. -/
def TaskFn.ctor (fuel : Nat) (t : Addr) (task : TaskFn T) (w : World T) : Outcome × World T :=
  TaskFn.check_dependencies fuel t task.args
    { DependencyInterface.ctor t 0 w with tasks := Function.update w.tasks t (some task) }

/-- Embeds `WorldTaskQueue::add(TaskFn* t)`:
`futureT res(t->result()); add(static_cast<TaskInterface*>(t)); return res;`. -/
def WorldTaskQueue.add_task (fuel : Nat) (t : Addr) (w : World T) :
    Outcome × Option (Future T) × World T :=
  match w.tasks t with
  | none => (.undefined, none, w)
  | some task =>
    match WorldTaskQueue.add fuel t w with
    | (.ok, w1) => (.ok, some task.result, w1)
    | (o, w1) => (o, none, w1)

/-- Embeds the local `WorldTaskQueue::add(fn, a1, ..., attr)`:
`return add(new taskT(typename taskT::futureT(), fn, a1, ..., attr))`.  The addresses `r`
and `t` are those of the new result future and of the new task. -/
def WorldTaskQueue.add_fn (fuel : Nat) (r t : Addr) (t0 : T) (func : Nat)
    (args : List (TaskArg T)) (attr : Nat) (w : World T) :
    Outcome × Option (Future T) × World T :=
  match TaskFn.ctor fuel t ⟨(Future.ctor r t0 w).1, func, args, attr⟩ (Future.ctor r t0 w).2 with
  | (.ok, w1) => WorldTaskQueue.add_task fuel t w1
  | (o, w1) => (o, none, w1)

/-- Embeds `WorldTaskQueue::am_arg`: for a future, `MADNESS_ASSERT(f.probe()); return f.get()`;
for anything else the argument itself.  `none` is a failed assertion. -/
def WorldTaskQueue.am_arg (w : World T) : TaskArg T → Option T
  | .value v => some v
  | .future h =>
    if Future.probe w h then
      match (Future.get h w).1 with
      | .value v => some v
      | _ => none
    else none

/-- The arguments of `send_task` at a call `send_task(dest, fn, am_arg(a1), am_arg(a2), ...)`:
every `am_arg(a_i)` is evaluated before `send_task` is entered. -/
def WorldTaskQueue.am_args (w : World T) : List (TaskArg T) → Option (List T)
  | [] => some []
  | a :: rest =>
    match WorldTaskQueue.am_arg w a with
    | none => none
    | some v =>
      match WorldTaskQueue.am_args w rest with
      | none => none
      | some vs => some (v :: vs)

/-- Embeds `WorldTaskQueue::send_task(where, fn, a1, ..., attr)`: make the result future,
send the spawn message with its remote reference, the function, the attributes and the
argument values to `where`, and return the result future. -/
def WorldTaskQueue.send_task (me : ProcessID) (r : Addr) (t0 : T) (dest : ProcessID)
    (func : Nat) (vals : List T) (attr : Nat) (w : World T) :
    Outcome × Option (Future T) × World T :=
  match Future.remote_ref me (Future.ctor r t0 w).1 (Future.ctor r t0 w).2 with
  | (.ok, some ref) =>
    (.ok, some (Future.ctor r t0 w).1,
      (Future.ctor r t0 w).2.am_send dest (.spawn_remote_task_handler ref func attr vals))
  | (o, _) => (o, none, (Future.ctor r t0 w).2)

/-- Embeds `WorldTaskQueue::add(dest, fn, a1, ..., attr)`:
`if (dest == me) return add(fn, a1, ..., attr); else return send_task<taskT>(dest, fn,
am_arg(a1), ..., attr);`, where `me` is the rank of this process. -/
def WorldTaskQueue.add_dest (fuel : Nat) (me : ProcessID) (r t : Addr) (t0 : T)
    (dest : ProcessID) (func : Nat) (args : List (TaskArg T)) (attr : Nat) (w : World T) :
    Outcome × Option (Future T) × World T :=
  if dest = me then WorldTaskQueue.add_fn fuel r t t0 func args attr w
  else
    match WorldTaskQueue.am_args w args with
    | none => (.violation, none, w)
    | some vals => WorldTaskQueue.send_task me r t0 dest func vals attr w

/-! ## Sequences of calls on the task queue -/

/-- One call on a `WorldTaskQueue`: the local `add` of the task at an address, or the
notification of the queue by a task that has completed (`WorldTaskQueue::notify`). -/
inductive QueueOp where
  | add (t : Addr)
  | complete
  deriving DecidableEq, Repr

/-- One call on the task queue. -/
def WorldTaskQueue.call (fuel : Nat) : QueueOp → World T → Outcome × World T
  | .add t, w => WorldTaskQueue.add fuel t w
  | .complete, w => CallbackInterface.notify fuel .taskq w

/-- A sequence of calls on the task queue, each made in the world the one before left;
the world after the last call. -/
def WorldTaskQueue.run (fuel : Nat) : List QueueOp → World T → World T
  | [], w => w
  | op :: rest, w => WorldTaskQueue.run fuel rest (WorldTaskQueue.call fuel op w).2

/-- The calls of `add` in a sequence. -/
def QueueOp.adds (ops : List QueueOp) : Nat := (ops.filter (· ≠ QueueOp.complete)).length

/-- The completions in a sequence. -/
def QueueOp.completions (ops : List QueueOp) : Nat := ops.count QueueOp.complete

/-! ## `for_each` (worldtask.h) -/

/-- Embeds `ForEachTask::run`, for one task and for the tasks it spawns: the statuses
handed to `root_.complete`, one per task.
`while (range_.size() > range_.get_chunksize())` moves the right part of `range_` to a new
leaf task and goes on with the left part; then the task counts the elements on which
`op_` returns true (`if (op_(it)) ++status`) and calls `root_.complete(status)`.  The
first argument bounds the depth of the splitting. -/
def ForEachTask.run {α : Type} (cut : Nat → Nat) (op : α → Bool) :
    Nat → Range α → Option (List Int)
  | 0, _ => none
  | n + 1, range =>
    if range.size > range.get_chunksize then
      match ForEachTask.run cut op n (range.split cut).2,
          ForEachTask.run cut op n (range.split cut).1 with
      | some leaf, some rest => some (rest ++ leaf)
      | _, _ => none
    else
      some [range.items.foldl (fun (status : Int) it => if op it then status + 1 else status) 0]

/-- Embeds the constructor of `ForEachRootTask`, as far as `status_` goes:
`status_ = - (range.size())`, the value converted to `int`. -/
def ForEachRootTask.ctor {α : Type} (range : Range α) : AtomicInt :=
  AtomicInt.assign ⟨0⟩ (wrap32 (-(range.size : Int)))

/-- Embeds `ForEachRootTask::complete(status)`, as far as `status_` goes: `status_ += status`
(the call then notifies the tracker of the root task). -/
def ForEachRootTask.complete (status_ : AtomicInt) (status : Int) : AtomicInt :=
  (status_.add_assign status).2

/-- Embeds `ForEachRootTask::run`: `completion_status_.set(status_ == 0)`; the value the
result future is set to. -/
def ForEachRootTask.run (status_ : AtomicInt) : Bool := status_.load == 0

/-- The value the root task sets when the tasks have called `complete` with the given
statuses, in the order given. -/
def ForEachRootTask.result {α : Type} (range : Range α) (completions : List Int) : Bool :=
  ForEachRootTask.run (completions.foldl ForEachRootTask.complete (ForEachRootTask.ctor range))

/-- Embeds `WorldTaskQueue::for_each(range, op)`, as the value its result future resolves
to: the root task is made, the tasks run and call `complete`, then the root task runs. -/
def WorldTaskQueue.for_each {α : Type} (cut : Nat → Nat) (op : α → Bool) (fuel : Nat)
    (range : Range α) : Option Bool :=
  match ForEachTask.run cut op fuel range with
  | some statuses => some (ForEachRootTask.result range statuses)
  | none => none

/-! ## `fence` (worldtask.h) -/

/-- Embeds `WorldTaskQueue::ProbeAllDone::operator()`: `return (tq->nregistered == 0)`. -/
def WorldTaskQueue.ProbeAllDone (w : World T) : Bool := w.nregistered.load == 0

/-- Modelled from the spec: `ThreadPool::await(probe, dowork)` (worldthread.h is not part
of the sources) returns once `probe()` is true and until then lets the calling thread run
ready work.  What one round of the wait does to the world (tasks run, by this thread or
by others, tasks added, tasks completed) is `work`, which may end in an exception.  The
first argument bounds the number of rounds. -/
def ThreadPool.await (probe : World T → Bool) (work : World T → Outcome × World T) :
    Nat → World T → Outcome × World T
  | 0, w => (.timeout, w)
  | n + 1, w =>
    if probe w then (.ok, w)
    else
      match work w with
      | (.ok, w1) => ThreadPool.await probe work n w1
      | r => r

/-- Embeds `WorldTaskQueue::fence()`: `ThreadPool::await(ProbeAllDone(this), true)`; an
exception is reported and thrown on. -/
def WorldTaskQueue.fence (work : World T → Outcome × World T) (fuel : Nat) (w : World T) :
    Outcome × World T :=
  ThreadPool.await WorldTaskQueue.ProbeAllDone work fuel w

/-- The world after the given number of rounds of work, if each of them returned
normally. -/
def ThreadPool.rounds (work : World T → Outcome × World T) : Nat → World T → Option (World T)
  | 0, w => some w
  | k + 1, w =>
    match work w with
    | (.ok, w1) => ThreadPool.rounds work k w1
    | _ => none

/-! ## Locks held while callbacks run -/

/-- The object whose `Spinlock` base is locked by a `ScopedMutex<Spinlock>`: a `FutureImpl`
or a `DependencyInterface`, by its address. -/
inductive LockId where
  | fut (a : Addr)
  | dep (d : Addr)
  deriving DecidableEq, Repr

/-- What a run does with locks and callbacks: a `ScopedMutex` takes the lock of an object,
the scope of a `ScopedMutex` ends (also when an exception leaves it), or a member function
of the object `caller`, or of a handle of it, calls `notify()` on a callback (`none`: the
caller is a `Future` handle without an implementation object, so there is no lock). -/
inductive LockEvent where
  | acquire (o : LockId)
  | release (o : LockId)
  | notify (caller : Option LockId) (c : Callback)
  deriving Repr

mutual

/-- What the virtual call `CallbackInterface::notify()` does with locks and callbacks: for
a tracker what `dec()` does; client callbacks, submit callbacks and the task queue take no
lock of a future or of a tracker. -/
def CallbackInterface.notify_events : Nat → Callback → World T → List LockEvent
  | 0, _, _ => []
  | n + 1, .dep d, w => DependencyInterface.dec_events n d w
  | _ + 1, .user _, _ => []
  | _ + 1, .submit _, _ => []
  | _ + 1, .taskq, _ => []

/-- What `DependencyInterface::do_callbacks(cb)` of the tracker at `d` does with locks and
callbacks: it takes no lock, and calls `notify()` on the front of `cb` until `cb` is
empty. -/
def DependencyInterface.do_callbacks_events :
    Nat → Addr → Stack Callback DependencyInterface.MAXCALLBACKS → World T → List LockEvent
  | 0, _, _, _ => []
  | n + 1, d, cb, w =>
    if cb.empty then []
    else
      match cb.front, cb.pop with
      | some c, some rest =>
        .notify (some (.dep d)) c ::
          (CallbackInterface.notify_events n c w ++
            match CallbackInterface.notify n c w with
            | (.ok, w1) => DependencyInterface.do_callbacks_events n d rest w1
            | _ => [])
      | _, _ => []

/-- What `DependencyInterface::dec()` does with locks and callbacks:
`{ ScopedMutex<Spinlock> obolus(this); if (--ndepend == 0) {...} }` and, after the closing
brace, `do_callbacks(cb)`. -/
def DependencyInterface.dec_events : Nat → Addr → World T → List LockEvent
  | 0, _, _ => []
  | n + 1, d, w =>
    let o := w.deps d
    let nd := o.ndepend - 1
    .acquire (.dep d) :: .release (.dep d) ::
      (if nd = 0 then
        DependencyInterface.do_callbacks_events n d o.callbacks
          (w.setDep d { ndepend := nd, callbacks := o.callbacks.clear })
      else
        DependencyInterface.do_callbacks_events n d Stack.mk0
          (w.setDep d { ndepend := nd, callbacks := o.callbacks }))

end

/-- What `DependencyInterface::register_callback(callback)` does with locks and callbacks:
the push (and its assertion), the test of `probe()` and the copy are inside the scope of
`ScopedMutex<Spinlock> obolus(this)`, and `do_callbacks(cb)` follows the closing brace. -/
def DependencyInterface.register_callback_events (fuel : Nat) (d : Addr) (callback : Callback)
    (w : World T) : List LockEvent :=
  match (w.deps d).callbacks.push callback with
  | none => [.acquire (.dep d), .release (.dep d)]
  | some pushed =>
    let w1 := w.setDep d { w.deps d with callbacks := pushed }
    .acquire (.dep d) :: .release (.dep d) ::
      (if DependencyInterface.probe w1 d then
        DependencyInterface.do_callbacks_events fuel d pushed
          (w1.setDep d { w1.deps d with callbacks := pushed.clear })
      else
        DependencyInterface.do_callbacks_events fuel d Stack.mk0 w1)

mutual

/-- What `FutureImpl::set(value)` does with locks and callbacks:
`ScopedMutex<Spinlock> fred(this);` is the first statement and its scope is the body of
the function, so `set_assigned` runs inside it. -/
def FutureImpl.set_events : Nat → Addr → T → World T → List LockEvent
  | 0, _, _, _ => []
  | n + 1, a, value, w =>
    match (w.futs a).remote_ref with
    | some ref =>
      .acquire (.fut a) ::
        (FutureImpl.set_assigned_events n a value
          ((w.am_send ref.owner (.set_handler ref value)).setFut a
            { w.futs a with remote_ref := none }) ++ [.release (.fut a)])
    | none =>
      .acquire (.fut a) ::
        (FutureImpl.set_assigned_events n a value (w.setFut a { w.futs a with t := value })
          ++ [.release (.fut a)])

/-- What `FutureImpl::set_assigned(value)` does with locks and callbacks: it takes no lock
itself ("assume that the caller either has the lock or is sure that we are single
threaded") and runs its two loops. -/
def FutureImpl.set_assigned_events : Nat → Addr → T → World T → List LockEvent
  | 0, _, _, _ => []
  | n + 1, a, value, w =>
    if (w.futs a).assigned then []
    else
      FutureImpl.set_assigned_as_events n a value
          (w.setFut a { w.futs a with assigned := true }) ++
        match FutureImpl.set_assigned_as n a value
            (w.setFut a { w.futs a with assigned := true }) with
        | (.ok, w1) => FutureImpl.set_assigned_cb_events n a w1
        | _ => []

/-- What the first loop of `set_assigned` does with locks and callbacks: `as.top()->set(value)`
for every chained future. -/
def FutureImpl.set_assigned_as_events : Nat → Addr → T → World T → List LockEvent
  | 0, _, _, _ => []
  | n + 1, a, value, w =>
    if (w.futs a).assignments.empty then []
    else
      match (w.futs a).assignments.top with
      | none => []
      | some x =>
        FutureImpl.set_events n x value w ++
          match FutureImpl.set n x value w with
          | (.ok, w1) =>
            match (w1.futs a).assignments.pop with
            | none => []
            | some rest =>
              FutureImpl.set_assigned_as_events n a value
                (w1.setFut a { w1.futs a with assignments := rest })
          | _ => []

/-- What the second loop of `set_assigned` does with locks and callbacks:
`cb.top()->notify()` for every registered callback. -/
def FutureImpl.set_assigned_cb_events : Nat → Addr → World T → List LockEvent
  | 0, _, _ => []
  | n + 1, a, w =>
    match (w.futs a).callbacks with
    | [] => []
    | c :: _ =>
      .notify (some (.fut a)) c ::
        (CallbackInterface.notify_events n c w ++
          match CallbackInterface.notify n c w with
          | (.ok, w1) =>
            FutureImpl.set_assigned_cb_events n a
              (w1.setFut a { w1.futs a with callbacks := (w1.futs a).callbacks.tail })
          | _ => [])

end

/-- What `FutureImpl::register_callback(callback)` does with locks and callbacks:
`ScopedMutex<Spinlock> fred(this); if (assigned) callback->notify(); else ...push(callback);`. -/
def FutureImpl.register_callback_events (fuel : Nat) (a : Addr) (callback : Callback)
    (w : World T) : List LockEvent :=
  .acquire (.fut a) ::
    ((if (w.futs a).assigned then
        .notify (some (.fut a)) callback :: CallbackInterface.notify_events fuel callback w
      else []) ++ [.release (.fut a)])

/-- What `Future::set(const T& value)` does with locks and callbacks: `ff->set(value)`. -/
def Future.set_events (fuel : Nat) (h : Future T) (value : T) (w : World T) : List LockEvent :=
  match h.f with
  | none => []
  | some a => FutureImpl.set_events fuel a value w

/-- What `Future::register_callback(callback)` does with locks and callbacks:
`if (probe()) callback->notify(); else { MADNESS_ASSERT(f); f->register_callback(callback); }`;
the handle takes no lock. -/
def Future.register_callback_events (fuel : Nat) (h : Future T) (callback : Callback)
    (w : World T) : List LockEvent :=
  if Future.probe w h then
    .notify (h.f.map LockId.fut) callback :: CallbackInterface.notify_events fuel callback w
  else
    match h.f with
    | none => []
    | some a => FutureImpl.register_callback_events fuel a callback w

/-- For every `notify()` the object `o` calls in a run, in order: whether the lock of `o`
is held at that moment.  The first argument says whether it is held when the run
starts. -/
def LockEvent.heldAtNotify (o : LockId) : Bool → List LockEvent → List Bool
  | _, [] => []
  | held, .acquire p :: es => LockEvent.heldAtNotify o (if p = o then true else held) es
  | held, .release p :: es => LockEvent.heldAtNotify o (if p = o then false else held) es
  | held, .notify p _ :: es =>
    if p = some o then held :: LockEvent.heldAtNotify o held es
    else LockEvent.heldAtNotify o held es

/-- Whether the lock of `o` is held when a run ends. -/
def LockEvent.heldAfter (o : LockId) : Bool → List LockEvent → Bool
  | held, [] => held
  | held, .acquire p :: es => LockEvent.heldAfter o (if p = o then true else held) es
  | held, .release p :: es => LockEvent.heldAfter o (if p = o then false else held) es
  | held, .notify _ _ :: es => LockEvent.heldAfter o held es

/-- An event that concerns no future: a lock of a tracker, or a call of `notify()` by a
tracker. -/
def LockEvent.ofTracker : LockEvent → Bool
  | .acquire (.dep _) => true
  | .release (.dep _) => true
  | .notify (some (.dep _)) _ => true
  | _ => false

/-! ## Copies of futures, chains of assignments, sequences of calls on futures -/

/-- Embeds `AtomicInt::dec_and_test()`: `return ((*this)-- == 1)`; the result of the call
and the counter afterwards. -/
def AtomicInt.dec_and_test (a : AtomicInt) : Bool × AtomicInt :=
  (a.post_dec.1 == 1, a.post_dec.2)

/-- Embeds `Future::is_default_initialized()`: `return ! (f || value)`. -/
def Future.is_default_initialized (h : Future T) : Bool := !(h.f.isSome || h.value.isSome)

/-- Embeds `Future::default_initializer()`: `return Future<T>(dddd())`, the private
constructor `f(), value(NULL)`. -/
def Future.default_initializer : Future T := ⟨none, none⟩

/-- Embeds the copy constructor `Future(const Future<T>& other)`: `f(other.f)`, `value` a
copy of `*other.value` if there is one, and
`if (other.is_default_initialized()) f.reset(new FutureImpl<T>())`; `b` is the address
that `new` returns. -/
def Future.copy (other : Future T) (b : Addr) (t0 : T) (w : World T) : Future T × World T :=
  if other.is_default_initialized then (⟨some b, other.value⟩, FutureImpl.ctor b t0 w)
  else (⟨other.f, other.value⟩, w)

/-- Embeds `Future::operator=(const Future<T>& other)`:
`if (this != &other) { MADNESS_ASSERT(!probe()); if (f && other.value) set(other); else f = other.f; }`.
`same` says whether `other` is this very object; the result is the outcome, the handle
`*this` after the call and the world. -/
def Future.assign (fuel : Nat) (same : Bool) (h other : Future T) (w : World T) :
    Outcome × Future T × World T :=
  if same then (.ok, h, w)
  else if Future.probe w h then (.violation, h, w)
  else if h.f.isSome && other.value.isSome then
    ((Future.set_future fuel h other w).1, h, (Future.set_future fuel h other w).2)
  else (.ok, { h with f := other.f }, w)

/-- Embeds `future_vector_factory(n)`:
`return std::vector< Future<T> >(n, Future<T>::default_initializer())`; the vector
copy-constructs each of its `n` elements from the default initializer.  The list holds
the addresses that the `n` calls of `new` return. -/
def future_vector_factory (t0 : T) : List Addr → World T → List (Future T) × World T
  | [], w => ([], w)
  | b :: rest, w =>
    ((Future.copy Future.default_initializer b t0 w).1 ::
        (future_vector_factory t0 rest (Future.copy Future.default_initializer b t0 w).2).1,
      (future_vector_factory t0 rest (Future.copy Future.default_initializer b t0 w).2).2)

/-- Links each future of the list to `b`, `x.set(b)` in the order of the list, stopping
at the first call that does not return normally. -/
def Future.link_all (fuel : Nat) (b : Future T) : List (Future T) → World T → Outcome × World T
  | [], w => (.ok, w)
  | x :: rest, w =>
    match Future.set_future fuel x b w with
    | (.ok, w1) => Future.link_all fuel b rest w1
    | r => r

/-- The calls a client makes on futures: `h.set(v)`, the link `h.set(other)`,
`h.register_callback(c)`, `h.get()` and the copy construction of a new handle from `h`
(`b` is the address `new` returns if the copy constructor allocates). -/
inductive FutureOp (T : Type) where
  | set (h : Future T) (v : T)
  | set_future (h other : Future T)
  | register_callback (h : Future T) (c : Callback)
  | get (h : Future T)
  | copy (h : Future T) (b : Addr)

/-- Performs one call on a future; `get()` and the copy constructor return normally or
fail an assertion without changing anything a future holds, but for the allocation the
copy of a default-initialized future makes. -/
def Future.call (fuel : Nat) (t0 : T) : FutureOp T → World T → Outcome × World T
  | .set h v, w => Future.set fuel h v w
  | .set_future h other, w => Future.set_future fuel h other w
  | .register_callback h c, w => Future.register_callback fuel h c w
  | .get h, w =>
    match (Future.get h w).1 with
    | .value _ => (.ok, w)
    | .violation => (.violation, w)
    | .waits => (.timeout, w)
  | .copy h b, w => (.ok, (Future.copy h b t0 w).2)

/-- Performs a sequence of calls on futures, each in the world the call before left (a
call that does not return normally leaves the world it had reached); the world after the
last call. -/
def Future.exec (fuel : Nat) (t0 : T) : List (FutureOp T) → World T → World T
  | [], w => w
  | op :: ops, w => Future.exec fuel t0 ops (Future.call fuel t0 op w).2

/-! ## Trackers that are notified by futures -/

/-- No tracker of the world has the tracker at `d` among its queued callbacks: no
notification on a tracker calls `dec()` on `d`. -/
def DependencyInterface.NotQueued (d : Addr) (w : World T) : Prop :=
  ∀ e, ∀ c ∈ (w.deps e).callbacks.elems, c ≠ Callback.dep d

/-- Along the sequence of calls, `dec()` is only called while the count is positive,
`inc()` only while the count is below `INT_MAX`, and the tracker is never registered as
its own callback. -/
def DependencyInterface.DecGuarded (fuel : Nat) (d : Addr) : List DepOp → World T → Prop
  | [], _ => True
  | op :: ops, w =>
    (op = DepOp.dec → 0 < (w.deps d).ndepend) ∧
      (op = DepOp.inc → (w.deps d).ndepend < 2 ^ 31 - 1) ∧
      op ≠ DepOp.register_callback (Callback.dep d) ∧
      DependencyInterface.DecGuarded fuel d ops (DependencyInterface.call fuel d op w).2

/-- The copy of a vector of futures, element by element with the copy constructor;
`alloc i` is the address `new` returns if the copy of element `i` allocates. -/
def Future.copy_vector (alloc : Nat → Addr) (t0 : T) :
    Nat → List (Future T) → World T → List (Future T) × World T
  | _, [], w => ([], w)
  | i, h :: rest, w =>
    ((Future.copy h (alloc i) t0 w).1 ::
        (Future.copy_vector alloc t0 (i + 1) rest (Future.copy h (alloc i) t0 w).2).1,
      (Future.copy_vector alloc t0 (i + 1) rest (Future.copy h (alloc i) t0 w).2).2)

/-- The body of the constructor of `Future< std::vector< Future<T> > >`:
`for (int i=0; i<(int)v.size(); ++i) this->v[i].register_callback(this);`, where `this` is
the tracker at `d`; an exception leaves the loop. -/
def FutureVector.register_elements (fuel : Nat) (d : Addr) :
    List (Future T) → World T → Outcome × World T
  | [], w => (.ok, w)
  | h :: rest, w =>
    match Future.register_callback fuel h (.dep d) w with
    | (.ok, w1) => FutureVector.register_elements fuel d rest w1
    | r => r

/-- Embeds `Future< std::vector< Future<T> > >::Future(const vectorT& v)`:
`DependencyInterface(v.size()), v(v)` and the loop that registers the new object on every
element of its copy of the vector.  `d` is the address of the new object; the result is
the outcome, the member `v` and the world. -/
def FutureVector.ctor (fuel : Nat) (d : Addr) (alloc : Nat → Addr) (t0 : T)
    (v : List (Future T)) (w : World T) : Outcome × List (Future T) × World T :=
  ((FutureVector.register_elements fuel d
      (Future.copy_vector alloc t0 0 v (DependencyInterface.ctor d (wrap32 v.length) w)).1
      (Future.copy_vector alloc t0 0 v (DependencyInterface.ctor d (wrap32 v.length) w)).2).1,
    (Future.copy_vector alloc t0 0 v (DependencyInterface.ctor d (wrap32 v.length) w)).1,
    (FutureVector.register_elements fuel d
      (Future.copy_vector alloc t0 0 v (DependencyInterface.ctor d (wrap32 v.length) w)).1
      (Future.copy_vector alloc t0 0 v (DependencyInterface.ctor d (wrap32 v.length) w)).2).2)

/-- Embeds `Future< std::vector< Future<T> > >::probe()`: false at the first element whose
`probe()` is false, true if there is none. -/
def FutureVector.probe (w : World T) (v : List (Future T)) : Bool :=
  v.all (fun h => Future.probe w h)

/-- The state of one `for_each`: the world (the tracker of the root task lives at the
address of the root task), the member `status_` of the root task, and the `ForEachTask`
objects that have been created and have not yet called `complete`, each with its address
and its member `range_`. -/
structure ForEachState (α T : Type) where
  w : World T
  status_ : AtomicInt
  live : List (Addr × Range α)

/-- Embeds the constructor `ForEachTask(range, op, root)`: `TaskInterface(0, hipri)`, a
tracker with no dependency at the address `t` of the new task, and `root_.inc()`. -/
def ForEachTask.ctor {α : Type} (root t : Addr) (range : Range α) (s : ForEachState α T) :
    ForEachState α T :=
  { s with
    w := (DependencyInterface.inc root (DependencyInterface.ctor t 0 s.w)).2
    live := s.live ++ [(t, range)] }

/-- Embeds `root_.world().taskq.add(leaf)` on the state. -/
def ForEachState.add {α : Type} (fuel : Nat) (t : Addr) (s : ForEachState α T) :
    Outcome × ForEachState α T :=
  ((WorldTaskQueue.add fuel t s.w).1, { s with w := (WorldTaskQueue.add fuel t s.w).2 })

/-- Embeds the constructor `ForEachRootTask(world, range, op)`: `TaskInterface(0, hipri)`,
`status_ = - (range.size())`, and
`world_.taskq.add(new ForEachTask<rangeT,opT>(range, op, *this))`; `root` and `first` are
the addresses of the root task and of the first task. -/
def ForEachRootTask.construct {α : Type} (fuel : Nat) (root first : Addr) (range : Range α)
    (w : World T) : Outcome × ForEachState α T :=
  ForEachState.add fuel first
    (ForEachTask.ctor root first range
      ⟨DependencyInterface.ctor root 0 w, ForEachRootTask.ctor range, []⟩)

/-- Embeds `ForEachRootTask::complete(status)` on the state: `status_ += status;` and
`DependencyInterface::notify();`, which is `dec()` on the tracker of the root task. -/
def ForEachState.complete {α : Type} (fuel : Nat) (root : Addr) (status : Int)
    (s : ForEachState α T) : Outcome × ForEachState α T :=
  ((DependencyInterface.dec fuel root s.w).1,
    { s with
      status_ := ForEachRootTask.complete s.status_ status
      w := (DependencyInterface.dec fuel root s.w).2 })

/-- One step of `ForEachTask::run` for the `i`-th task of the list: while
`range_.size() > range_.get_chunksize()` the task keeps the left part, makes a new task
for the right part (at the address `leaf`) and adds it to the queue; then it counts the
elements on which `op_` returns true, calls `root_.complete(status)` and is done. -/
def ForEachTask.step {α : Type} (fuel : Nat) (root : Addr) (cut : Nat → Nat) (op : α → Bool)
    (i : Nat) (leaf : Addr) (s : ForEachState α T) : Outcome × ForEachState α T :=
  match s.live.get? i with
  | none => (.ok, s)
  | some (t, range) =>
    if range.size > range.get_chunksize then
      ForEachState.add fuel leaf
        (ForEachTask.ctor root leaf (range.split cut).2
          { s with live := s.live.set i (t, (range.split cut).1) })
    else
      ForEachState.complete fuel root
        (range.items.foldl (fun (status : Int) it => if op it then status + 1 else status) 0)
        { s with live := s.live.eraseIdx i }

/-- What happens next in a `for_each`: the `i`-th task of the list takes its next step (on
whatever thread runs it), or `for_each` reaches its statement `add(for_each_root)`. -/
inductive ForEachStep where
  | run (i : Nat) (leaf : Addr)
  | add_root
  deriving DecidableEq, Repr

/-- Performs one step. -/
def ForEachState.call {α : Type} (fuel : Nat) (root : Addr) (cut : Nat → Nat) (op : α → Bool) :
    ForEachStep → ForEachState α T → Outcome × ForEachState α T
  | .run i leaf, s => ForEachTask.step fuel root cut op i leaf s
  | .add_root, s => ForEachState.add fuel root s

/-- Performs a sequence of steps; the state after the last one. -/
def ForEachState.exec {α : Type} (fuel : Nat) (root : Addr) (cut : Nat → Nat) (op : α → Bool) :
    List ForEachStep → ForEachState α T → ForEachState α T
  | [], s => s
  | st :: rest, s =>
    ForEachState.exec fuel root cut op rest (ForEachState.call fuel root cut op st s).2

/-- The tracker of the root task counts the tasks that have not completed; the root task
is not in the ready queue while `add(for_each_root)` has not been called or a task has
not completed, its submit callback is queued exactly while it waits for tasks, and it is
in the ready queue once when all that is over. -/
def ForEachState.Tracked {α : Type} (root : Addr) (added : Bool) (s : ForEachState α T) :
    Prop :=
  (s.w.deps root).ndepend = (s.live.length : Int) ∧
    (added = false → s.w.ready.count root = 0 ∧ (s.w.deps root).callbacks = ⟨[]⟩) ∧
    (added = true → s.live ≠ [] →
      s.w.ready.count root = 0 ∧ (s.w.deps root).callbacks = ⟨[Callback.submit root]⟩) ∧
    (added = true → s.live = [] →
      s.w.ready.count root = 1 ∧ (s.w.deps root).callbacks = ⟨[]⟩)

/-! ### Load balancing: `LBTree::verify_partition` (loadbal.cc) -/

/-- Modelled from the spec: what `verify_partition` uses of the key type `Key<D>` (`key.h`
is not part of the sources): `level()`, `parent(j)`, the ancestor `j` levels up, and the
order `operator<` that `std::map` sorts its keys by.  `operator==` is the equality of
`K`. -/
structure KeyOps (K : Type) where
  level : K → Nat
  parent : K → Nat → K
  lt : K → K → Bool

/-- Modelled from the spec: the keys of a one-dimensional tree (`Key<1>`): the level `n`
and the translation `l`; the root is `Key(0, 0)` and the children of `Key(n, l)` are
`Key(n+1, 2l)` and `Key(n+1, 2l+1)`. -/
structure Key where
  n : Nat
  l : Nat
  deriving DecidableEq, Repr

/-- Modelled from the spec: `Key::level()`. -/
def Key.level (k : Key) : Nat := k.n

/-- Modelled from the spec: `Key::parent(generation)`: the ancestor `generation` levels
up. -/
def Key.parent (k : Key) (generation : Nat) : Key :=
  ⟨k.n - generation, k.l / 2 ^ generation⟩

/-- Modelled from the spec: a strict total order of the keys, by level and then by
translation. -/
def Key.lt (a b : Key) : Bool :=
  decide (a.n < b.n) || (a.n == b.n && decide (a.l < b.l))

/-- The operations of the one-dimensional keys. -/
def Key.ops : KeyOps Key := ⟨Key.level, Key.parent, Key.lt⟩

/-! ## Theorems -/

section Tracker

@[simp] theorem Stack.empty_mk0 {α : Type} {N : Nat} : (Stack.mk0 : Stack α N).empty = true := rfl

@[simp] theorem Stack.empty_nil {α : Type} {N : Nat} : (⟨[]⟩ : Stack α N).empty = true := rfl

@[simp] theorem Stack.empty_cons {α : Type} {N : Nat} (x : α) (xs : List α) :
    (⟨x :: xs⟩ : Stack α N).empty = false := rfl

@[simp] theorem Stack.front_cons {α : Type} {N : Nat} (x : α) (xs : List α) :
    (⟨x :: xs⟩ : Stack α N).front = some x := rfl

@[simp] theorem Stack.top_cons {α : Type} {N : Nat} (x : α) (xs : List α) :
    (⟨x :: xs⟩ : Stack α N).top = some x := rfl

@[simp] theorem Stack.pop_cons {α : Type} {N : Nat} (x : α) (xs : List α) :
    (⟨x :: xs⟩ : Stack α N).pop = some ⟨xs⟩ := rfl

@[simp] theorem Stack.clear_eq {α : Type} {N : Nat} (s : Stack α N) : s.clear = ⟨[]⟩ := rfl

theorem do_callbacks_empty (n : Nat) (w : World T) :
    DependencyInterface.do_callbacks (n + 1) Stack.mk0 w = (.ok, w) := by
  simp [DependencyInterface.do_callbacks]

theorem do_callbacks_nil (n : Nat) (w : World T) :
    DependencyInterface.do_callbacks (n + 1) ⟨[]⟩ w = (.ok, w) := by
  simp [DependencyInterface.do_callbacks]

theorem do_callbacks_cons (n : Nat) (c : Callback) (cs : List Callback) (w : World T) :
    DependencyInterface.do_callbacks (n + 1) ⟨c :: cs⟩ w
      = match CallbackInterface.notify n c w with
        | (.ok, w1) => DependencyInterface.do_callbacks n ⟨cs⟩ w1
        | r => r := by
  rw [DependencyInterface.do_callbacks]
  simp

theorem notify_user (n : Nat) (id : Nat) (w : World T) :
    CallbackInterface.notify (n + 1) (.user id) w
      = (.ok, { w with trace := w.trace ++ [id] }) := by
  simp [CallbackInterface.notify]

/-- A local list of user callbacks is notified from the top down. -/
theorem do_callbacks_users (hs : List Nat) :
    ∀ (n : Nat) (w : World T), hs.length + 1 ≤ n →
      DependencyInterface.do_callbacks n ⟨hs.map Callback.user⟩ w
        = (.ok, { w with trace := w.trace ++ hs }) := by
  induction hs with
  | nil =>
    intro n w hn
    obtain ⟨m, rfl⟩ : ∃ m, n = m + 1 := ⟨n - 1, by simp at hn; omega⟩
    simp [DependencyInterface.do_callbacks]
  | cons h rest ih =>
    intro n w hn
    obtain ⟨m, rfl⟩ : ∃ m, n = m + 2 := ⟨n - 2, by simp at hn; omega⟩
    have hm : rest.length + 1 ≤ m + 1 := by simp at hn; omega
    simp [do_callbacks_cons, notify_user, ih (m + 1) _ hm]

/-- A `dec()` that does not reach zero only lowers the count. -/
theorem dec_not_last (n : Nat) (d : Addr) (w : World T) (h : (w.deps d).ndepend ≠ 1) :
    DependencyInterface.dec (n + 2) d w
      = (.ok, w.setDep d { w.deps d with ndepend := (w.deps d).ndepend - 1 }) := by
  have h0 : ¬ ((w.deps d).ndepend - 1 = 0) := by omega
  simp [DependencyInterface.dec, h0, DependencyInterface.do_callbacks]

/-- The `dec()` that reaches zero empties the member list and runs what it held. -/
theorem dec_last (n : Nat) (d : Addr) (w : World T) (h : (w.deps d).ndepend = 1) :
    DependencyInterface.dec (n + 1) d w
      = DependencyInterface.do_callbacks n (w.deps d).callbacks
          (w.setDep d { ndepend := 0, callbacks := ⟨[]⟩ }) := by
  simp [DependencyInterface.dec, h]

/-- Registering on a tracker with pending dependencies and room left only pushes. -/
theorem register_callback_pending (n : Nat) (d : Addr) (c : Callback) (w : World T)
    (h0 : (w.deps d).ndepend ≠ 0) (hroom : (w.deps d).callbacks.elems.length < 8) :
    DependencyInterface.register_callback (n + 1) d c w
      = (.ok, w.setDep d { w.deps d with callbacks := ⟨c :: (w.deps d).callbacks.elems⟩ }) := by
  have hpush : (w.deps d).callbacks.push c = some ⟨c :: (w.deps d).callbacks.elems⟩ := by
    simp [Stack.push, Stack.size, DependencyInterface.MAXCALLBACKS, hroom]
  simp [DependencyInterface.register_callback, hpush, DependencyInterface.probe,
    DependencyInterface.ndep, World.setDep, h0, do_callbacks_empty]

theorem setDep_deps_same (w : World T) (d : Addr) (o : DependencyInterface) :
    (w.setDep d o).deps d = o := by
  simp [World.setDep]

theorem setDep_setDep (w : World T) (d : Addr) (o o2 : DependencyInterface) :
    (w.setDep d o).setDep d o2 = w.setDep d o2 := by
  simp [World.setDep]

theorem setDep_trace (w : World T) (d : Addr) (o : DependencyInterface) :
    (w.setDep d o).trace = w.trace := rfl

/-- Registering a list of user callbacks on a pending tracker stacks them up. -/
theorem register_all_pending (n : Nat) (d : Addr) (hs : List Nat) :
    ∀ (w : World T), (w.deps d).ndepend ≠ 0 →
      (w.deps d).callbacks.elems.length + hs.length ≤ 8 →
      DependencyInterface.register_all (n + 1) d (hs.map Callback.user) w
        = (.ok, w.setDep d { w.deps d with
            callbacks := ⟨(hs.map Callback.user).reverse ++ (w.deps d).callbacks.elems⟩ }) := by
  induction hs with
  | nil =>
    intro w _ _
    simp [DependencyInterface.register_all, World.setDep]
  | cons h rest ih =>
    intro w h0 hlen
    have hroom : (w.deps d).callbacks.elems.length < 8 := by simp at hlen; omega
    simp only [List.map_cons, DependencyInterface.register_all,
      register_callback_pending n d _ w h0 hroom]
    rw [ih]
    · simp [setDep_deps_same, setDep_setDep]
    · simpa [setDep_deps_same] using h0
    · simp [setDep_deps_same] at hlen ⊢
      omega

/-- Fewer decrements than pending dependencies only lower the count. -/
theorem dec_times_below (n : Nat) (d : Addr) (k : Nat) :
    ∀ (w : World T), (k : Int) < (w.deps d).ndepend →
      DependencyInterface.dec_times (n + 2) d k w
        = (.ok, w.setDep d { w.deps d with ndepend := (w.deps d).ndepend - k }) := by
  induction k with
  | zero =>
    intro w _
    simp [DependencyInterface.dec_times, World.setDep]
  | succ k ih =>
    intro w hk
    have h1 : (w.deps d).ndepend ≠ 1 := by push_cast at hk; omega
    simp only [DependencyInterface.dec_times, dec_not_last n d w h1]
    rw [ih]
    · simp only [setDep_deps_same, setDep_setDep]
      congr 3
      push_cast
      ring
    · simp only [setDep_deps_same]
      push_cast at hk ⊢
      omega

/-- As many decrements as pending dependencies: the last one runs the queued user
callbacks from the top of the stack down. -/
theorem dec_times_all (n : Nat) (d : Addr) (N : Nat) (hN : 1 ≤ N) (hs : List Nat)
    (w : World T) (hnd : (w.deps d).ndepend = N)
    (hcb : (w.deps d).callbacks = ⟨hs.map Callback.user⟩) (hn : hs.length + 1 ≤ n + 1) :
    DependencyInterface.dec_times (n + 2) d N w
      = (.ok, { w.setDep d { ndepend := 0, callbacks := ⟨[]⟩ } with trace := w.trace ++ hs }) := by
  obtain ⟨k, rfl⟩ : ∃ k, N = k + 1 := ⟨N - 1, by omega⟩
  have hlt : (k : Int) < (w.deps d).ndepend := by rw [hnd]; push_cast; omega
  have key : ∀ (j : Nat) (u : World T),
      DependencyInterface.dec_times (n + 2) d (j + 1) u
        = match DependencyInterface.dec_times (n + 2) d j u with
          | (.ok, u1) => DependencyInterface.dec (n + 2) d u1
          | r => r := by
    intro j
    induction j with
    | zero =>
      intro u
      simp only [DependencyInterface.dec_times]
      rcases DependencyInterface.dec (n + 2) d u with ⟨o, u1⟩
      cases o <;> rfl
    | succ j ihj =>
      intro u
      rw [DependencyInterface.dec_times]
      rcases hdec : DependencyInterface.dec (n + 2) d u with ⟨o, u1⟩
      cases o
      · simp only [ihj u1]
        conv_rhs => rw [DependencyInterface.dec_times, hdec]
      all_goals
        simp only
        conv_rhs => rw [DependencyInterface.dec_times, hdec]
  rw [key, dec_times_below n d k w hlt]
  simp only
  rw [dec_last]
  · simp only [setDep_deps_same, setDep_setDep, hcb]
    rw [do_callbacks_users hs (n + 1) _ hn]
    rfl
  · simp only [setDep_deps_same, hnd]
    push_cast
    ring

end Tracker

section Frame

/-- Notifications never touch the futures of the world. -/
theorem notify_futs (n : Nat) :
    (∀ (c : Callback) (w : World T), (CallbackInterface.notify n c w).2.futs = w.futs) ∧
    (∀ (cb : Stack Callback DependencyInterface.MAXCALLBACKS) (w : World T),
      (DependencyInterface.do_callbacks n cb w).2.futs = w.futs) ∧
    (∀ (d : Addr) (w : World T), (DependencyInterface.dec n d w).2.futs = w.futs) := by
  induction n with
  | zero =>
    refine ⟨?_, ?_, ?_⟩ <;> intros <;>
      simp [CallbackInterface.notify, DependencyInterface.do_callbacks, DependencyInterface.dec]
  | succ n ih =>
    obtain ⟨ih1, ih2, ih3⟩ := ih
    refine ⟨?_, ?_, ?_⟩
    · intro c w
      cases c <;> simp [CallbackInterface.notify, ih3, ThreadPool.add]
    · intro cb w
      rw [DependencyInterface.do_callbacks]
      split
      · rfl
      · split
        · rename_i c rest _ _
          have h1 := ih1 c w
          rcases hnot : CallbackInterface.notify n c w with ⟨o, w1⟩
          rw [hnot] at h1
          cases o
          · simp only
            rw [ih2]
            exact h1
          all_goals exact h1
        · rfl
    · intro d w
      rw [DependencyInterface.dec]
      split <;> rw [ih2] <;> rfl

theorem setFut_futs_same (w : World T) (a : Addr) (o : FutureImpl T) :
    (w.setFut a o).futs a = o := by
  simp [World.setFut]

theorem setFut_futs_other (w : World T) (a x : Addr) (o : FutureImpl T) (h : x ≠ a) :
    (w.setFut a o).futs x = w.futs x := by
  simp [World.setFut, Function.update_noteq h]

theorem resolved_setFut_other {v : T} {x a : Addr} {w : World T} (o : FutureImpl T)
    (h : Resolved v x w) (hne : a ≠ x) : Resolved v x (w.setFut a o) := by
  have hx : x ≠ a := fun e => hne e.symm
  simpa [Resolved, World.setFut, Function.update_noteq hx] using h

theorem resolved_setFut_same {v : T} {x : Addr} {w : World T} (o : FutureImpl T)
    (h1 : o.assigned = true) (h2 : o.t = v) (h3 : o.remote_ref = none) :
    Resolved v x (w.setFut x o) := by
  simp [Resolved, World.setFut, h1, h2, h3]

theorem resolved_of_futs {v : T} {x : Addr} {w w1 : World T} (h : Resolved v x w)
    (e : w1.futs = w.futs) : Resolved v x w1 := by
  simpa [Resolved, e] using h

/-- A property of the record of one future that survives every store made by `set` also
survives every call of `set` and its loops. -/
theorem record_stable (v : T) (x : Addr) (Q : FutureImpl T → Prop)
    (q1 : ∀ o : FutureImpl T, Q o → Q { o with remote_ref := none })
    (q2 : ∀ o : FutureImpl T, Q o → Q { o with t := v })
    (q3 : ∀ o : FutureImpl T, Q o → Q { o with assigned := true })
    (q4 : ∀ (o : FutureImpl T) s, Q o → Q { o with assignments := s })
    (q5 : ∀ (o : FutureImpl T) l, Q o → Q { o with callbacks := l }) (n : Nat) :
    (∀ (a : Addr) (w : World T), Q (w.futs x) → Q ((FutureImpl.set n a v w).2.futs x)) ∧
    (∀ (a : Addr) (w : World T), Q (w.futs x) →
      Q ((FutureImpl.set_assigned n a v w).2.futs x)) ∧
    (∀ (a : Addr) (w : World T), Q (w.futs x) →
      Q ((FutureImpl.set_assigned_as n a v w).2.futs x)) ∧
    (∀ (a : Addr) (w : World T), Q (w.futs x) →
      Q ((FutureImpl.set_assigned_cb n a w).2.futs x)) := by
  have upd : ∀ (a : Addr) (w : World T) (o : FutureImpl T), Q (w.futs x) →
      (a = x → Q o) → Q ((w.setFut a o).futs x) := by
    intro a w o h ho
    by_cases e : a = x
    · subst e
      rw [setFut_futs_same]
      exact ho rfl
    · rw [setFut_futs_other _ _ _ _ (fun e1 => e e1.symm)]
      exact h
  induction n with
  | zero =>
    refine ⟨?_, ?_, ?_, ?_⟩ <;> intro a w h <;>
      simpa [FutureImpl.set, FutureImpl.set_assigned, FutureImpl.set_assigned_as,
        FutureImpl.set_assigned_cb] using h
  | succ n ih =>
    obtain ⟨ih1, ih2, ih3, ih4⟩ := ih
    refine ⟨?_, ?_, ?_, ?_⟩
    · intro a w h
      rw [FutureImpl.set]
      split
      · apply ih2
        apply upd
        · exact h
        · rintro rfl
          exact q1 _ h
      · apply ih2
        apply upd _ _ _ h
        rintro rfl
        exact q2 _ h
    · intro a w h
      rw [FutureImpl.set_assigned]
      split
      · exact h
      · have h2 : Q ((w.setFut a { w.futs a with assigned := true }).futs x) := by
          apply upd _ _ _ h
          rintro rfl
          exact q3 _ h
        have h3 := ih3 a _ h2
        rcases hrun : FutureImpl.set_assigned_as n a v
            (w.setFut a { w.futs a with assigned := true }) with ⟨o, w1⟩
        rw [hrun] at h3
        cases o
        · exact ih4 a w1 h3
        all_goals exact h3
    · intro a w h
      rw [FutureImpl.set_assigned_as]
      split
      · exact h
      · split
        · exact h
        · rename_i y _
          have h1 := ih1 y w h
          rcases hrun : FutureImpl.set n y v w with ⟨o, w1⟩
          rw [hrun] at h1
          cases o
          · simp only
            split
            · exact h1
            · apply ih3
              apply upd _ _ _ h1
              rintro rfl
              exact q4 _ _ h1
          all_goals exact h1
    · intro a w h
      rw [FutureImpl.set_assigned_cb]
      split
      · exact h
      · rename_i c _ _
        have h1 : Q ((CallbackInterface.notify n c w).2.futs x) := by
          rw [(notify_futs n).1 c w]; exact h
        rcases hrun : CallbackInterface.notify n c w with ⟨o, w1⟩
        rw [hrun] at h1
        cases o
        · simp only
          apply ih4
          apply upd _ _ _ h1
          rintro rfl
          exact q5 _ _ h1
        all_goals exact h1

/-- A future that is assigned with `v` stays so through every call that sets `v`. -/
theorem resolved_stable (v : T) (x : Addr) (n : Nat) :
    (∀ (a : Addr) (w : World T), Resolved v x w → Resolved v x (FutureImpl.set n a v w).2) ∧
    (∀ (a : Addr) (w : World T), Resolved v x w →
      Resolved v x (FutureImpl.set_assigned n a v w).2) ∧
    (∀ (a : Addr) (w : World T), Resolved v x w →
      Resolved v x (FutureImpl.set_assigned_as n a v w).2) ∧
    (∀ (a : Addr) (w : World T), Resolved v x w →
      Resolved v x (FutureImpl.set_assigned_cb n a w).2) :=
  record_stable v x (fun o => o.assigned = true ∧ o.t = v ∧ o.remote_ref = none)
    (fun _ h => ⟨h.1, h.2.1, rfl⟩) (fun _ h => ⟨h.1, rfl, h.2.2⟩)
    (fun _ h => ⟨rfl, h.2.1, h.2.2⟩) (fun _ _ h => h) (fun _ _ h => h) n

/-- Reading an assigned local future any number of times returns its value each time. -/
theorem get_times_resolved (v : T) (a : Addr) (h : Future T) (hf : h.f = some a) (n : Nat)
    (w : World T) (hr : Resolved v a w) :
    Future.get_times h n w = (List.replicate n (.value v), w) := by
  have hget : Future.get h w = (.value v, w) := by
    obtain ⟨h1, h2, h3⟩ := hr
    simp [Future.get, hf, FutureImpl.get, FutureImpl.probe, h1, h2, h3]
  induction n with
  | zero => rfl
  | succ n ih => simp [Future.get_times, hget, ih, List.replicate_succ]

/-- How `set` on an unassigned local future starts: the value is stored, the future is
marked assigned, and the two loops of `set_assigned` run. -/
theorem set_unfold (m : Nat) (a : Addr) (v : T) (w : World T)
    (hun : (w.futs a).assigned = false) (hloc : (w.futs a).remote_ref = none) :
    FutureImpl.set (m + 2) a v w
      = match FutureImpl.set_assigned_as m a v
          (w.setFut a { (w.futs a) with t := v, assigned := true }) with
        | (.ok, w1) => FutureImpl.set_assigned_cb m a w1
        | r => r := by
  simp only [FutureImpl.set, hloc]
  rw [FutureImpl.set_assigned]
  simp [World.setFut, hun]

/-- After `set(v)` on an unassigned local future the future is assigned and holds `v`,
however the call ends. -/
theorem set_resolves (m : Nat) (a : Addr) (v : T) (w : World T)
    (hun : (w.futs a).assigned = false) (hloc : (w.futs a).remote_ref = none) :
    Resolved v a (FutureImpl.set (m + 2) a v w).2 := by
  rw [set_unfold m a v w hun hloc]
  have h2 : Resolved v a (w.setFut a { (w.futs a) with t := v, assigned := true }) :=
    resolved_setFut_same _ rfl rfl hloc
  have h3 := (resolved_stable v a m).2.2.1 a _ h2
  rcases hrun : FutureImpl.set_assigned_as m a v
      (w.setFut a { (w.futs a) with t := v, assigned := true }) with ⟨o, w1⟩
  rw [hrun] at h3
  cases o
  · exact (resolved_stable v a m).2.2.2 a w1 h3
  all_goals exact h3

/-- On an unassigned local future with nothing registered, `set(v)` returns normally and
changes nothing but the value and the flag of that future. -/
theorem set_fresh_ok (m : Nat) (a : Addr) (v : T) (w : World T)
    (hun : (w.futs a).assigned = false) (hloc : (w.futs a).remote_ref = none)
    (hcb : (w.futs a).callbacks = []) (has : (w.futs a).assignments = Stack.mk0) :
    FutureImpl.set (m + 3) a v w
      = (.ok, w.setFut a { (w.futs a) with t := v, assigned := true }) := by
  rw [set_unfold (m + 1) a v w hun hloc]
  simp [FutureImpl.set_assigned_as, FutureImpl.set_assigned_cb, World.setFut, has, hcb]

/-- One turn of the first loop of `set_assigned`, with `x` on top of `assignments`. -/
theorem set_assigned_as_cons (n : Nat) (a x : Addr) (rest : List Addr) (v : T) (w : World T)
    (has : (w.futs a).assignments = ⟨x :: rest⟩) :
    FutureImpl.set_assigned_as (n + 1) a v w
      = match FutureImpl.set n x v w with
        | (.ok, w1) =>
          match (w1.futs a).assignments.pop with
          | none => (.violation, w1)
          | some rest1 =>
            FutureImpl.set_assigned_as n a v
              (w1.setFut a { w1.futs a with assignments := rest1 })
        | r => r := by
  rw [FutureImpl.set_assigned_as]
  simp [has]

/-- The first loop of `set_assigned` assigns the future on top of `assignments`, if that
future is local and unassigned, however the loop ends. -/
theorem set_assigned_as_top_resolves (m : Nat) (a x : Addr) (rest : List Addr) (v : T)
    (w : World T) (has : (w.futs a).assignments = ⟨x :: rest⟩)
    (hun : (w.futs x).assigned = false) (hloc : (w.futs x).remote_ref = none) :
    Resolved v x (FutureImpl.set_assigned_as (m + 3) a v w).2 := by
  rw [set_assigned_as_cons (m + 2) a x rest v w has]
  have h1 := set_resolves m x v w hun hloc
  rcases hrun : FutureImpl.set (m + 2) x v w with ⟨o, w1⟩
  rw [hrun] at h1
  cases o
  · simp only
    split
    · exact h1
    · apply (resolved_stable v x (m + 2)).2.2.1
      by_cases e : a = x
      · subst e
        exact resolved_setFut_same _ h1.1 h1.2.1 h1.2.2
      · exact resolved_setFut_other _ h1 e
  all_goals exact h1

theorem touched_refl (w : World T) (z : Addr) : Touched w w z := Or.inl rfl

theorem touched_trans {w w1 w2 : World T} {z : Addr} (h1 : Touched w w1 z)
    (h2 : Touched w1 w2 z) : Touched w w2 z := by
  rcases h1 with e1 | ⟨u1, a1⟩
  · rcases h2 with e2 | ⟨u2, a2⟩
    · exact Or.inl (e2.trans e1)
    · exact Or.inr ⟨by rw [← e1]; exact u2, a2⟩
  · rcases h2 with e2 | ⟨u2, _⟩
    · exact Or.inr ⟨u1, by rw [e2]; exact a1⟩
    · rw [a1] at u2
      cases u2

/-- What a call that returns normally may have done to the futures: `set` and
`set_assigned` found their future unassigned, and every future was either left alone or
went from unassigned to assigned; the loops change no other future in another way. -/
theorem ok_footprint (v : T) (n : Nat) :
    (∀ (a : Addr) (w w1 : World T), FutureImpl.set n a v w = (.ok, w1) →
      (w.futs a).assigned = false ∧ ∀ z, Touched w w1 z) ∧
    (∀ (a : Addr) (w w1 : World T), FutureImpl.set_assigned n a v w = (.ok, w1) →
      (w.futs a).assigned = false ∧ (w1.futs a).assigned = true ∧
        ∀ z, z ≠ a → Touched w w1 z) ∧
    (∀ (a : Addr) (w w1 : World T), FutureImpl.set_assigned_as n a v w = (.ok, w1) →
      ∀ z, z ≠ a → Touched w w1 z) ∧
    (∀ (a : Addr) (w w1 : World T), FutureImpl.set_assigned_cb n a w = (.ok, w1) →
      ∀ z, z ≠ a → Touched w w1 z) := by
  induction n with
  | zero =>
    refine ⟨?_, ?_, ?_, ?_⟩ <;> intro a w w1 h <;>
      simp [FutureImpl.set, FutureImpl.set_assigned, FutureImpl.set_assigned_as,
        FutureImpl.set_assigned_cb] at h
  | succ n ih =>
    obtain ⟨ih1, ih2, ih3, ih4⟩ := ih
    have grow := fun (x : Addr) =>
      record_stable v x (fun o => o.assigned = true) (fun _ h => h) (fun _ h => h)
        (fun _ _ => rfl) (fun _ _ h => h) (fun _ _ h => h) n
    refine ⟨?_, ?_, ?_, ?_⟩
    · intro a w w1 h
      rw [FutureImpl.set] at h
      split at h
      · obtain ⟨hu, ha, hz⟩ := ih2 a _ w1 h
        rw [setFut_futs_same] at hu
        refine ⟨hu, ?_⟩
        intro z
        by_cases e : z = a
        · subst e
          exact Or.inr ⟨hu, ha⟩
        · have := hz z e
          unfold Touched at this ⊢
          rw [setFut_futs_other _ _ _ _ e] at this
          exact this
      · obtain ⟨hu, ha, hz⟩ := ih2 a _ w1 h
        rw [setFut_futs_same] at hu
        refine ⟨hu, ?_⟩
        intro z
        by_cases e : z = a
        · subst e
          exact Or.inr ⟨hu, ha⟩
        · have := hz z e
          unfold Touched at this ⊢
          rw [setFut_futs_other _ _ _ _ e] at this
          exact this
    · intro a w w1 h
      rw [FutureImpl.set_assigned] at h
      split at h
      · simp at h
      · rename_i hna
        have hu : (w.futs a).assigned = false := by simpa using hna
        rcases hrun : FutureImpl.set_assigned_as n a v
            (w.setFut a { w.futs a with assigned := true }) with ⟨o, w3⟩
        rw [hrun] at h
        cases o
        · simp only at h
          have g1 := (grow a).2.2.1 a (w.setFut a { w.futs a with assigned := true })
            (by rw [setFut_futs_same])
          rw [hrun] at g1
          have g2 := (grow a).2.2.2 a w3 g1
          rw [h] at g2
          refine ⟨hu, g2, ?_⟩
          intro z e
          have t1 := ih3 a _ w3 hrun z e
          have t2 := ih4 a w3 w1 h z e
          have t12 := touched_trans t1 t2
          unfold Touched at t12 ⊢
          rw [setFut_futs_other _ _ _ _ e] at t12
          exact t12
        all_goals simp at h
    · intro a w w1 h z e
      rw [FutureImpl.set_assigned_as] at h
      split at h
      · obtain rfl : w = w1 := by simpa using h
        exact touched_refl _ _
      · split at h
        · simp at h
        · rename_i y _
          rcases hrun : FutureImpl.set n y v w with ⟨o, w2⟩
          rw [hrun] at h
          cases o
          · simp only at h
            split at h
            · simp at h
            · have t1 := (ih1 y w w2 hrun).2 z
              have t2 := ih3 a _ w1 h z e
              unfold Touched at t2
              rw [setFut_futs_other _ _ _ _ e] at t2
              exact touched_trans t1 t2
          all_goals simp at h
    · intro a w w1 h z e
      rw [FutureImpl.set_assigned_cb] at h
      split at h
      · obtain rfl : w = w1 := by simpa using h
        exact touched_refl _ _
      · rename_i c _ _
        have hf := (notify_futs n).1 c w
        rcases hrun : CallbackInterface.notify n c w with ⟨o, w2⟩
        rw [hrun] at h hf
        cases o
        · simp only at h hf
          have t2 := ih4 a _ w1 h z e
          unfold Touched at t2 ⊢
          rw [setFut_futs_other _ _ _ _ e, hf] at t2
          exact t2
        all_goals simp at h

end Frame

/-! ### Claims about a single `Future` -/

/-- C1: for every value `v` and every local future that is unassigned, after one `set(v)`
the future reports `probe() == true` and `get()`, called any number of times in a row,
returns `v` every time.  This holds however the call of `set` ends (callbacks and chained
futures run after the value is stored); on a future with no callback and no chained
future registered the call returns normally. -/
theorem set_then_get_returns_value (fuel : Nat) (hfuel : 3 ≤ fuel) (h : Future T) (a : Addr)
    (hf : h.f = some a) (v : T) (w : World T)
    (hun : (w.futs a).assigned = false) (hloc : (w.futs a).remote_ref = none) :
    Future.probe (Future.set fuel h v w).2 h = true ∧
    (∀ n, (Future.get_times h n (Future.set fuel h v w).2).1
      = List.replicate n (GetResult.value v)) ∧
    ((w.futs a).callbacks = [] → (w.futs a).assignments = Stack.mk0 →
      (Future.set fuel h v w).1 = .ok) := by
  obtain ⟨m, rfl⟩ : ∃ m, fuel = m + 3 := ⟨fuel - 3, by omega⟩
  have hres : Resolved v a (Future.set (m + 3) h v w).2 := by
    simp only [Future.set, hf]
    exact set_resolves (m + 1) a v w hun hloc
  refine ⟨?_, ?_, ?_⟩
  · simp [Future.probe, hf, FutureImpl.probe, hres.1]
  · intro n
    rw [get_times_resolved v a h hf n _ hres]
  · intro hcb has
    simp only [Future.set, hf]
    rw [set_fresh_ok m a v w hun hloc hcb has]

/-- Witness for C1: a future just made by `Future()`, set to 42 and read three times. -/
theorem set_then_get_returns_value_witness :
    Future.probe (Future.set 3 ⟨some 0, none⟩ 42 (FutureImpl.ctor 0 0 (World.init (0 : Nat)))).2
      ⟨some 0, none⟩ = true ∧
    (Future.get_times ⟨some 0, none⟩ 3
      (Future.set 3 ⟨some 0, none⟩ 42 (FutureImpl.ctor 0 0 (World.init (0 : Nat)))).2).1
      = [.value 42, .value 42, .value 42] ∧
    (Future.set 3 ⟨some 0, none⟩ 42 (FutureImpl.ctor 0 0 (World.init (0 : Nat)))).1 = .ok :=
  have key := set_then_get_returns_value 3 (by decide) ⟨some 0, none⟩ 0 rfl 42
    (FutureImpl.ctor 0 0 (World.init (0 : Nat))) rfl rfl
  ⟨key.1, key.2.1 3, key.2.2 rfl rfl⟩

/-- C2: on every future that is already assigned, because an earlier `set` assigned its
implementation object or because the handle was built holding a value, `set(v)` raises a
contract violation. -/
theorem set_on_assigned_raises (fuel : Nat) (hfuel : 2 ≤ fuel) (h : Future T) (v : T)
    (w : World T) (hp : Future.probe w h = true) :
    (Future.set fuel h v w).1 = .violation := by
  obtain ⟨m, rfl⟩ : ∃ m, fuel = m + 2 := ⟨fuel - 2, by omega⟩
  rcases hf : h.f with _ | a
  · simp [Future.set, hf]
  · have ha : (w.futs a).assigned = true := by
      simpa [Future.probe, hf, FutureImpl.probe] using hp
    simp only [Future.set, hf, FutureImpl.set]
    split <;> rw [FutureImpl.set_assigned] <;> simp [World.setFut, World.am_send, ha]

/-- Witness for C2: a future built from the value 5, and a future assigned by `set(5)`. -/
theorem set_on_assigned_raises_witness :
    (Future.set 2 (Future.ctor_value 5) 6 (World.init (0 : Nat))).1 = .violation ∧
    (Future.set 3 ⟨some 0, none⟩ 6
      (Future.set 3 ⟨some 0, none⟩ 5 (FutureImpl.ctor 0 0 (World.init (0 : Nat)))).2).1
      = .violation :=
  ⟨set_on_assigned_raises 2 (by decide) (Future.ctor_value 5) 6 (World.init (0 : Nat)) rfl,
   set_on_assigned_raises 3 (by decide) ⟨some 0, none⟩ 6
    (Future.set 3 ⟨some 0, none⟩ 5 (FutureImpl.ctor 0 0 (World.init (0 : Nat)))).2 (by decide)⟩

/-- C3 fails on the code: `FutureImpl::set` evaluates `t = value` before `set_assigned`
checks `!assigned`.  On a new `Future<int>`, `set(1)` succeeds, `set(2)` raises the
contract violation, and the stored value that `get()` returns is then 2. -/
theorem second_set_overwrites_value :
    (Future.set 3 ⟨some 0, none⟩ 1 (FutureImpl.ctor 0 0 (World.init (0 : Int)))).1 = .ok ∧
    (Future.get ⟨some 0, none⟩
      (Future.set 3 ⟨some 0, none⟩ 1 (FutureImpl.ctor 0 0 (World.init (0 : Int)))).2).1
      = .value 1 ∧
    (Future.set 3 ⟨some 0, none⟩ 2
      (Future.set 3 ⟨some 0, none⟩ 1 (FutureImpl.ctor 0 0 (World.init (0 : Int)))).2).1
      = .violation ∧
    (Future.get ⟨some 0, none⟩
      (Future.set 3 ⟨some 0, none⟩ 2
        (Future.set 3 ⟨some 0, none⟩ 1 (FutureImpl.ctor 0 0 (World.init (0 : Int)))).2).2).1
      = .value 2 := by
  decide

/-! ### Claims about linked futures -/

/-- C6: for every value `v` and every pair of distinct, local, unassigned futures `a` and
`b`: after `a.set(b)` has returned normally (it does unless 4 futures are already chained
to `b`) and `b.set(v)` has been called, both are assigned and `a.get()` returns `v`,
however the call of `b.set(v)` ends; when nothing else is registered on `a` and `b` it
returns normally. -/
theorem link_then_set (fuel : Nat) (hfuel : 6 ≤ fuel) (a b : Addr) (hab : a ≠ b) (v : T)
    (w : World T)
    (hua : (w.futs a).assigned = false) (hla : (w.futs a).remote_ref = none)
    (hub : (w.futs b).assigned = false) (hlb : (w.futs b).remote_ref = none)
    (hlink : (Future.set_future fuel ⟨some a, none⟩ ⟨some b, none⟩ w).1 = .ok) :
    Future.probe (Future.set fuel ⟨some b, none⟩ v
      (Future.set_future fuel ⟨some a, none⟩ ⟨some b, none⟩ w).2).2 ⟨some a, none⟩ = true ∧
    Future.probe (Future.set fuel ⟨some b, none⟩ v
      (Future.set_future fuel ⟨some a, none⟩ ⟨some b, none⟩ w).2).2 ⟨some b, none⟩ = true ∧
    (Future.get ⟨some a, none⟩ (Future.set fuel ⟨some b, none⟩ v
      (Future.set_future fuel ⟨some a, none⟩ ⟨some b, none⟩ w).2).2).1 = .value v ∧
    ((w.futs a).callbacks = [] → (w.futs a).assignments = Stack.mk0 →
      (w.futs b).callbacks = [] → (w.futs b).assignments = Stack.mk0 →
      (Future.set fuel ⟨some b, none⟩ v
        (Future.set_future fuel ⟨some a, none⟩ ⟨some b, none⟩ w).2).1 = .ok) := by
  have hroom : (w.futs b).assignments.size < 4 := by
    by_contra hfull
    have hfull2 : ¬ (w.futs b).assignments.size < FutureImpl.MAXCALLBACKS := hfull
    have hbad : Future.set_future fuel ⟨some a, none⟩ ⟨some b, none⟩ w = (.violation, w) := by
      simp [Future.set_future, hab, FutureImpl.probe, hua, Future.probe, hub,
        FutureImpl.add_to_assignments, Stack.push, hfull2]
    rw [hbad] at hlink
    cases hlink
  obtain ⟨m, rfl⟩ : ∃ m, fuel = m + 6 := ⟨fuel - 6, by omega⟩
  have hba : b ≠ a := fun e => hab e.symm
  have hlink : Future.set_future (m + 6) ⟨some a, none⟩ ⟨some b, none⟩ w
      = (.ok, w.setFut b { w.futs b with
          assignments := ⟨a :: (w.futs b).assignments.elems⟩ }) := by
    have hroom2 : (w.futs b).assignments.size < FutureImpl.MAXCALLBACKS := hroom
    simp [Future.set_future, hab, FutureImpl.probe, hua, Future.probe, hub,
      FutureImpl.add_to_assignments, Stack.push, hroom2]
  rw [hlink]
  simp only [Future.set]
  have hub1 : ((w.setFut b { w.futs b with
      assignments := ⟨a :: (w.futs b).assignments.elems⟩ }).futs b).assigned = false := by
    rw [setFut_futs_same]; exact hub
  have hlb1 : ((w.setFut b { w.futs b with
      assignments := ⟨a :: (w.futs b).assignments.elems⟩ }).futs b).remote_ref = none := by
    rw [setFut_futs_same]; exact hlb
  have hrb := set_resolves (m + 4) b v _ hub1 hlb1
  have hra : Resolved v a (FutureImpl.set (m + 6) b v (w.setFut b { w.futs b with
      assignments := ⟨a :: (w.futs b).assignments.elems⟩ })).2 := by
    rw [set_unfold (m + 4) b v _ hub1 hlb1]
    have h1 := set_assigned_as_top_resolves (m + 1) b a (w.futs b).assignments.elems v
      ((w.setFut b { w.futs b with
        assignments := ⟨a :: (w.futs b).assignments.elems⟩ }).setFut b
          { ((w.setFut b { w.futs b with
              assignments := ⟨a :: (w.futs b).assignments.elems⟩ }).futs b) with
            t := v, assigned := true })
      (by simp [setFut_futs_same])
      (by rw [setFut_futs_other _ _ _ _ hab, setFut_futs_other _ _ _ _ hab]; exact hua)
      (by rw [setFut_futs_other _ _ _ _ hab, setFut_futs_other _ _ _ _ hab]; exact hla)
    rcases hrun : FutureImpl.set_assigned_as (m + 4) b v
      ((w.setFut b { w.futs b with
        assignments := ⟨a :: (w.futs b).assignments.elems⟩ }).setFut b
          { ((w.setFut b { w.futs b with
              assignments := ⟨a :: (w.futs b).assignments.elems⟩ }).futs b) with
            t := v, assigned := true }) with ⟨o, w1⟩
    rw [hrun] at h1
    cases o
    · exact (resolved_stable v a (m + 4)).2.2.2 b w1 h1
    all_goals exact h1
  refine ⟨?_, ?_, ?_, ?_⟩
  · simp [Future.probe, FutureImpl.probe, hra.1]
  · simp [Future.probe, FutureImpl.probe, hrb.1]
  · simp [Future.get, FutureImpl.get, FutureImpl.probe, hra.1, hra.2.1, hra.2.2]
  · intro hca haa hcb hab2
    rw [set_unfold (m + 4) b v _ hub1 hlb1]
    rw [set_assigned_as_cons (m + 3) b a [] v _ (by simp [setFut_futs_same, hab2, Stack.mk0])]
    rw [set_fresh_ok m a v _
      (by rw [setFut_futs_other _ _ _ _ hab, setFut_futs_other _ _ _ _ hab]; exact hua)
      (by rw [setFut_futs_other _ _ _ _ hab, setFut_futs_other _ _ _ _ hab]; exact hla)
      (by rw [setFut_futs_other _ _ _ _ hab, setFut_futs_other _ _ _ _ hab]; exact hca)
      (by rw [setFut_futs_other _ _ _ _ hab, setFut_futs_other _ _ _ _ hab]; exact haa)]
    simp [FutureImpl.set_assigned_as, FutureImpl.set_assigned_cb, World.setFut, hab, hba,
      hab2, hcb, Stack.mk0, Stack.pop, Stack.empty, Stack.size]

/-- Witness for C6: two futures just made by `Future()`, linked, then `b.set(7)`. -/
theorem link_then_set_witness :
    (Future.get ⟨some 0, none⟩ (Future.set 6 ⟨some 1, none⟩ 7
      (Future.set_future 6 ⟨some 0, none⟩ ⟨some 1, none⟩
        (FutureImpl.ctor 1 0 (FutureImpl.ctor 0 0 (World.init (0 : Nat))))).2).2).1
      = .value 7 ∧
    (Future.set 6 ⟨some 1, none⟩ 7
      (Future.set_future 6 ⟨some 0, none⟩ ⟨some 1, none⟩
        (FutureImpl.ctor 1 0 (FutureImpl.ctor 0 0 (World.init (0 : Nat))))).2).1 = .ok :=
  have key := link_then_set 6 (by decide) 0 1 (by decide) 7
    (FutureImpl.ctor 1 0 (FutureImpl.ctor 0 0 (World.init (0 : Nat)))) rfl rfl rfl rfl
    (by decide)
  ⟨key.2.2.1, key.2.2.2 rfl rfl rfl rfl⟩

section Chain

theorem linked_congr (c : List Addr) :
    ∀ (w w1 : World T), (∀ z ∈ c, w1.futs z = w.futs z) → Linked c w → Linked c w1 := by
  induction c with
  | nil => intro w w1 _ _; trivial
  | cons x c1 ih =>
    intro w w1 hsame hl
    cases c1 with
    | nil =>
      simp only [Linked, Fresh] at hl ⊢
      rw [hsame x (by simp)]
      exact hl
    | cons y rest =>
      simp only [Linked] at hl ⊢
      rw [hsame x (by simp)]
      exact ⟨hl.1, ih w w1 (fun z hz => hsame z (List.mem_cons_of_mem x hz)) hl.2⟩

/-- Linking fresh, distinct futures returns normally and yields a linked chain. -/
theorem link_chain_spec (fuel : Nat) (c : List Addr) :
    ∀ (w : World T), c.Nodup → (∀ x ∈ c, Fresh x w) →
      ∃ w1, Future.link_chain fuel c w = (.ok, w1) ∧ Linked c w1 ∧
        (∀ z, z ∉ c → w1.futs z = w.futs z) ∧
        (∀ z, c.head? = some z → (w1.futs z).assigned = false ∧
          (w1.futs z).remote_ref = none ∧ (w1.futs z).callbacks = []
          ∧ (w1.futs z).assigned = (w.futs z).assigned) := by
  induction c with
  | nil =>
    intro w _ _
    exact ⟨w, rfl, trivial, fun _ _ => rfl, fun z hz => by simp at hz⟩
  | cons x c1 ih =>
    intro w hnd hfresh
    cases c1 with
    | nil =>
      refine ⟨w, rfl, hfresh x (by simp), fun _ _ => rfl, ?_⟩
      intro z hz
      simp only [List.head?_cons, Option.some.injEq] at hz
      subst hz
      obtain ⟨h1, h2, h3, _⟩ := hfresh x (by simp)
      exact ⟨h1, h2, h3, rfl⟩
    | cons y rest =>
      have hxy : x ≠ y := by
        intro e
        subst e
        simp at hnd
      have hyx : y ≠ x := fun e => hxy e.symm
      obtain ⟨hx1, hx2, hx3, hx4⟩ := hfresh x (by simp)
      obtain ⟨hy1, hy2, hy3, hy4⟩ := hfresh y (by simp)
      have hlink : Future.set_future fuel ⟨some y, none⟩ ⟨some x, none⟩ w
          = (.ok, w.setFut x { w.futs x with assignments := ⟨[y]⟩ }) := by
        simp [Future.set_future, hyx, FutureImpl.probe, hy1, Future.probe, hx1,
          FutureImpl.add_to_assignments, Stack.push, hx4, Stack.mk0, Stack.size,
          FutureImpl.MAXCALLBACKS]
      have hxnot : x ∉ y :: rest := (List.nodup_cons.mp hnd).1
      have hfresh1 : ∀ z ∈ y :: rest,
          Fresh z (w.setFut x { w.futs x with assignments := ⟨[y]⟩ }) := by
        intro z hz
        have hzx : z ≠ x := fun e => hxnot (e ▸ hz)
        simp only [Fresh, setFut_futs_other _ _ _ _ hzx]
        exact hfresh z (List.mem_cons_of_mem x hz)
      obtain ⟨w1, hrun, hl, hframe, _⟩ := ih _ (List.nodup_cons.mp hnd).2 hfresh1
      have hx : w1.futs x = { w.futs x with assignments := ⟨[y]⟩ } := by
        rw [hframe x hxnot, setFut_futs_same]
      refine ⟨w1, ?_, ?_, ?_, ?_⟩
      · rw [Future.link_chain, hlink]
        exact hrun
      · simp only [Linked]
        refine ⟨?_, hl⟩
        rw [hx]
        exact ⟨hx1, hx2, hx3, rfl⟩
      · intro z hz
        have hzx : z ≠ x := fun e => hz (e ▸ List.mem_cons_self x _)
        have hz2 : z ∉ y :: rest := fun h => hz (List.mem_cons_of_mem x h)
        rw [hframe z hz2, setFut_futs_other _ _ _ _ hzx]
      · intro z hz
        simp only [List.head?_cons, Option.some.injEq] at hz
        subst hz
        rw [hx]
        exact ⟨hx1, hx2, hx3, rfl⟩

/-- Setting the head of a linked chain returns normally and assigns the whole chain. -/
theorem set_chain (v : T) (c : List Addr) :
    ∀ (k : Nat) (w : World T) (x : Addr) (rest : List Addr), c = x :: rest → c.Nodup →
      Linked c w →
      ∃ w1, FutureImpl.set (3 * c.length + k) x v w = (.ok, w1) ∧
        (∀ z ∈ c, Resolved v z w1) ∧ (∀ z, z ∉ c → w1.futs z = w.futs z) := by
  induction c with
  | nil => intro k w x rest h; cases h
  | cons x0 c1 ih =>
    intro k w x rest hc hnd hl
    obtain ⟨rfl, rfl⟩ : x0 = x ∧ c1 = rest := by simpa using hc
    cases c1 with
    | nil =>
      obtain ⟨h1, h2, h3, h4⟩ := hl
      refine ⟨w.setFut x0 { (w.futs x0) with t := v, assigned := true }, ?_, ?_, ?_⟩
      · have e : 3 * [x0].length + k = k + 3 := by simp; omega
        rw [e]
        exact set_fresh_ok k x0 v w h1 h2 h3 h4
      · intro z hz
        obtain rfl : z = x0 := by simpa using hz
        exact resolved_setFut_same _ rfl rfl h2
      · intro z hz
        have hzx : z ≠ x0 := fun e => hz (by simp [e])
        exact setFut_futs_other _ _ _ _ hzx
    | cons y rest1 =>
      obtain ⟨⟨h1, h2, h3, h4⟩, hl1⟩ := hl
      have hxnot : x0 ∉ y :: rest1 := (List.nodup_cons.mp hnd).1
      have hl2 : Linked (y :: rest1)
          (w.setFut x0 { (w.futs x0) with t := v, assigned := true }) := by
        apply linked_congr _ w _ _ hl1
        intro z hz
        exact setFut_futs_other _ _ _ _ (fun e => hxnot (e ▸ hz))
      obtain ⟨w3, hrun, hres, hframe⟩ :=
        ih k _ y rest1 rfl (List.nodup_cons.mp hnd).2 hl2
      have hx3 : w3.futs x0 = { (w.futs x0) with t := v, assigned := true } := by
        rw [hframe x0 hxnot, setFut_futs_same]
      obtain ⟨j, hj⟩ : ∃ j, 3 * (y :: rest1).length + k = j + 1 :=
        ⟨3 * (y :: rest1).length + k - 1, by simp; omega⟩
      refine ⟨w3.setFut x0 { (w3.futs x0) with assignments := ⟨[]⟩ }, ?_, ?_, ?_⟩
      · have e : 3 * (x0 :: y :: rest1).length + k
            = (3 * (y :: rest1).length + k + 1) + 2 := by
          simp only [List.length_cons]; omega
        rw [e, set_unfold _ x0 v w h1 h2,
          set_assigned_as_cons _ x0 y [] v _ (by rw [setFut_futs_same]; exact h4), hrun]
        simp only [hx3, h4, Stack.pop_cons]
        rw [hj]
        simp [FutureImpl.set_assigned_as, FutureImpl.set_assigned_cb, setFut_futs_same, h3]
      · intro z hz
        rcases List.mem_cons.mp hz with rfl | hz1
        · apply resolved_setFut_same
          · rw [hx3]
          · rw [hx3]
          · rw [hx3]; exact h2
        · exact resolved_setFut_other _ (hres z hz1) (fun e => hxnot (e ▸ hz1))
      · intro z hz
        have hzx : z ≠ x0 := fun e => hz (e ▸ List.mem_cons_self x0 _)
        have hz2 : z ∉ y :: rest1 := fun h => hz (List.mem_cons_of_mem x0 h)
        rw [setFut_futs_other _ _ _ _ hzx, hframe z hz2, setFut_futs_other _ _ _ _ hzx]

/-- Being a chain survives every change that keeps local futures local and leaves the
chained futures of every still unassigned future as they were. -/
theorem chained_step (c : List Addr) :
    ∀ (w w1 : World T), Chained c w →
      (∀ x, ((w.futs x).remote_ref = none → (w1.futs x).remote_ref = none) ∧
        ((w1.futs x).assigned = false →
          (w.futs x).assigned = false ∧ (w1.futs x).assignments = (w.futs x).assignments)) →
      Chained c w1 := by
  induction c with
  | nil => intro w w1 _ _; trivial
  | cons x c1 ih =>
    intro w w1 hch hstep
    cases c1 with
    | nil => exact (hstep x).1 hch
    | cons y rest =>
      obtain ⟨h1, h2, h3⟩ := hch
      refine ⟨(hstep x).1 h1, ?_, ih w w1 h3 hstep⟩
      intro hu
      obtain ⟨hu0, has⟩ := (hstep x).2 hu
      rw [has]
      exact h2 hu0

/-- A call that returned normally keeps chains. -/
theorem chained_of_touched (c : List Addr) (w w1 : World T) (hch : Chained c w)
    (ht : ∀ z, Touched w w1 z)
    (hloc : ∀ z, (w.futs z).remote_ref = none → (w1.futs z).remote_ref = none) :
    Chained c w1 := by
  apply chained_step c w w1 hch
  intro x
  refine ⟨hloc x, ?_⟩
  intro hu
  rcases ht x with e | ⟨_, ha⟩
  · rw [e] at hu ⊢
    exact ⟨hu, rfl⟩
  · rw [ha] at hu
    cases hu

/-- Changing the record of a future that ends up assigned keeps chains, as long as the
future stays local. -/
theorem chained_setFut (c : List Addr) (w : World T) (a : Addr) (o : FutureImpl T)
    (hch : Chained c w) (ha : o.assigned = true)
    (hloc : (w.futs a).remote_ref = none → o.remote_ref = none) :
    Chained c (w.setFut a o) := by
  apply chained_step c w _ hch
  intro x
  by_cases e : x = a
  · subst e
    rw [setFut_futs_same]
    refine ⟨hloc, ?_⟩
    intro hu
    rw [ha] at hu
    cases hu
  · rw [setFut_futs_other _ _ _ _ e]
    exact ⟨fun h => h, fun h => ⟨h, rfl⟩⟩

theorem chained_head_local (a : Addr) (c : List Addr) (w : World T)
    (hch : Chained (a :: c) w) : (w.futs a).remote_ref = none := by
  cases c with
  | nil => exact hch
  | cons y rest => exact hch.1

/-- A `set` that returns normally on the head of a chain assigns the whole chain, whatever
else is registered on its futures. -/
theorem set_chained (v : T) (n : Nat) :
    (∀ (a : Addr) (c : List Addr) (w w1 : World T), FutureImpl.set n a v w = (.ok, w1) →
      Chained (a :: c) w → ∀ z ∈ a :: c, Resolved v z w1) ∧
    (∀ (a : Addr) (c : List Addr) (w w1 : World T),
      FutureImpl.set_assigned n a v w = (.ok, w1) → (w.futs a).t = v →
      Chained (a :: c) w → ∀ z ∈ a :: c, Resolved v z w1) ∧
    (∀ (a y : Addr) (c : List Addr) (w w1 : World T),
      FutureImpl.set_assigned_as n a v w = (.ok, w1) → (w.futs a).assigned = true →
      y ∈ (w.futs a).assignments.elems → Chained (y :: c) w →
      ∀ z ∈ y :: c, Resolved v z w1) := by
  induction n with
  | zero =>
    refine ⟨?_, ?_, ?_⟩
    · intro a c w w1 h
      simp [FutureImpl.set] at h
    · intro a c w w1 h
      simp [FutureImpl.set_assigned] at h
    · intro a y c w w1 h
      simp [FutureImpl.set_assigned_as] at h
  | succ n ih =>
    obtain ⟨ih1, ih2, ih3⟩ := ih
    have keepLocal := fun (x : Addr) =>
      record_stable v x (fun o => o.remote_ref = none) (fun _ _ => rfl) (fun _ h => h)
        (fun _ h => h) (fun _ _ h => h) (fun _ _ h => h) n
    refine ⟨?_, ?_, ?_⟩
    · intro a c w w1 h hch
      have hloc := chained_head_local a c w hch
      rw [FutureImpl.set] at h
      split at h
      · rename_i ref href
        rw [hloc] at href
        cases href
      · apply ih2 a c _ w1 h (by rw [setFut_futs_same])
        apply chained_step _ w _ hch
        intro x
        by_cases e : x = a
        · subst e
          rw [setFut_futs_same]
          exact ⟨fun h => h, fun h => ⟨h, rfl⟩⟩
        · rw [setFut_futs_other _ _ _ _ e]
          exact ⟨fun h => h, fun h => ⟨h, rfl⟩⟩
    · intro a c w w1 h ht hch
      have hloc := chained_head_local a c w hch
      rw [FutureImpl.set_assigned] at h
      split at h
      · simp at h
      · rename_i hna
        have hu : (w.futs a).assigned = false := by simpa using hna
        have hra : Resolved v a (w.setFut a { w.futs a with assigned := true }) :=
          resolved_setFut_same _ rfl ht hloc
        rcases hrun : FutureImpl.set_assigned_as n a v
            (w.setFut a { w.futs a with assigned := true }) with ⟨o, w3⟩
        rw [hrun] at h
        cases o
        · simp only at h
          have hra3 : Resolved v a w3 := by
            have := (resolved_stable v a n).2.2.1 a _ hra
            rw [hrun] at this
            exact this
          have hcb : ∀ z, Resolved v z w3 → Resolved v z w1 := by
            intro z hz
            have := (resolved_stable v z n).2.2.2 a w3 hz
            rw [h] at this
            exact this
          intro z hz
          rcases List.mem_cons.mp hz with rfl | hz1
          · exact hcb _ hra3
          · cases c with
            | nil => simp at hz1
            | cons y rest =>
              obtain ⟨_, hlink, hrest⟩ := hch
              have hy : y ∈ ((w.setFut a { w.futs a with assigned := true }).futs a
                  ).assignments.elems := by
                rw [setFut_futs_same]
                exact hlink hu
              have hch2 : Chained (y :: rest)
                  (w.setFut a { w.futs a with assigned := true }) :=
                chained_setFut _ w a _ hrest rfl (fun h => h)
              exact hcb z (ih3 a y rest _ w3 hrun (by rw [setFut_futs_same]) hy hch2 z hz1)
        all_goals simp at h
    · intro a y c w w1 h ha hy hch
      rw [FutureImpl.set_assigned_as] at h
      split at h
      · rename_i hempty
        simp [Stack.empty, Stack.size] at hempty
        rw [hempty] at hy
        simp at hy
      · split at h
        · simp at h
        · rename_i top htop
          rcases hrun : FutureImpl.set n top v w with ⟨o, w2⟩
          rw [hrun] at h
          cases o
          · simp only at h
            obtain ⟨_, htouch⟩ := (ok_footprint v n).1 top w w2 hrun
            have hsame : w2.futs a = w.futs a := by
              rcases htouch a with e | ⟨hu, _⟩
              · exact e
              · rw [ha] at hu
                cases hu
            have hkeep : ∀ z, (w.futs z).remote_ref = none → (w2.futs z).remote_ref = none := by
              intro z hz
              have := (keepLocal z).1 top w hz
              rw [hrun] at this
              exact this
            rcases hel : (w.futs a).assignments.elems with _ | ⟨t0, rest⟩
            · rw [hel] at hy
              simp at hy
            · have htop0 : top = t0 := by
                simp [Stack.top, Stack.front, hel] at htop
                exact htop.symm
              subst htop0
              have hpop : (w2.futs a).assignments.pop = some ⟨rest⟩ := by
                rw [hsame]
                simp [Stack.pop, hel]
              rw [hpop] at h
              simp only at h
              have hstable : ∀ z, Resolved v z w2 → Resolved v z w1 := by
                intro z hz
                have h5 : Resolved v z
                    (w2.setFut a { w2.futs a with assignments := ⟨rest⟩ }) := by
                  by_cases e : a = z
                  · subst e
                    exact resolved_setFut_same _ hz.1 hz.2.1 hz.2.2
                  · exact resolved_setFut_other _ hz e
                have := (resolved_stable v z n).2.2.1 a _ h5
                rw [h] at this
                exact this
              rw [hel] at hy
              rcases List.mem_cons.mp hy with rfl | hy1
              · intro z hz
                exact hstable z (ih1 y c w w2 hrun hch z hz)
              · have hch2 : Chained (y :: c) w2 :=
                  chained_of_touched _ w w2 hch htouch hkeep
                have ha2 : (w2.futs a).assigned = true := by rw [hsame]; exact ha
                have hch3 : Chained (y :: c)
                    (w2.setFut a { w2.futs a with assignments := ⟨rest⟩ }) :=
                  chained_setFut _ w2 a _ hch2 ha2 (fun h => h)
                exact ih3 a y c _ w1 h (by rw [setFut_futs_same]; exact ha2)
                  (by rw [setFut_futs_same]; exact hy1) hch3
          all_goals simp at h

end Chain

/-- Steps from the links of a chain to `Chained`: a linked chain is a chain. -/
theorem chained_of_linked (c : List Addr) (w : World T) (hl : Linked c w) : Chained c w := by
  induction c with
  | nil => trivial
  | cons x c1 ih =>
    cases c1 with
    | nil => exact hl.2.1
    | cons y rest =>
      obtain ⟨⟨_, h2, _, h4⟩, hrest⟩ := hl
      exact ⟨h2, fun _ => by rw [h4]; simp, ih hrest⟩

/-- C7: for every `n ≥ 1` and every chain `f_n, ..., f_0` of local unassigned futures in
which `f_i` is among the futures chained to `f_(i+1)` (the state `f_i.set(f_(i+1))` leaves
behind): when the single call `f_n.set(v)` returns normally, every `f_i` is assigned and
its `get()` returns `v`, whatever else is registered on the futures; and the call does
return normally when the futures are distinct and carry nothing but these links.
The list `c` holds the chain from `f_n` down to `f_0`. -/
theorem set_resolves_chain (n : Nat) (_hn : 1 ≤ n) (c : List Addr) (hlen : c.length = n + 1)
    (v : T) (w : World T) (fuel : Nat)
    (_hun : ∀ x ∈ c, (w.futs x).assigned = false) (hch : Chained c w) :
    ((Future.set fuel ⟨c.head?, none⟩ v w).1 = .ok →
      ∀ x ∈ c,
        Future.probe (Future.set fuel ⟨c.head?, none⟩ v w).2 ⟨some x, none⟩ = true ∧
        (Future.get ⟨some x, none⟩ (Future.set fuel ⟨c.head?, none⟩ v w).2).1
          = .value v) ∧
    (c.Nodup → Linked c w → 3 * (n + 1) ≤ fuel →
      (Future.set fuel ⟨c.head?, none⟩ v w).1 = .ok) := by
  obtain ⟨x, rest, rfl⟩ : ∃ x rest, c = x :: rest := by
    cases c with
    | nil => simp at hlen
    | cons x rest => exact ⟨x, rest, rfl⟩
  simp only [List.head?_cons, Future.set]
  refine ⟨?_, ?_⟩
  · intro hok z hz
    have hrun : FutureImpl.set fuel x v w = (.ok, (FutureImpl.set fuel x v w).2) := by
      rw [← hok]
    obtain ⟨h1, h2, h3⟩ := (set_chained v fuel).1 x rest w _ hrun hch z hz
    simp [Future.probe, Future.get, FutureImpl.get, FutureImpl.probe, h1, h2, h3]
  · intro hnd hl hfuel
    obtain ⟨k, rfl⟩ : ∃ k, fuel = 3 * (x :: rest).length + k :=
      ⟨fuel - 3 * (n + 1), by rw [hlen]; omega⟩
    obtain ⟨w2, hset, _, _⟩ := set_chain v (x :: rest) k w x rest rfl hnd hl
    rw [hset]

/-- Witness for C7: three new futures at addresses 2, 1 and 0, linked by `f_1.set(f_2)`
and `f_0.set(f_1)`; `f_2.set(7)` returns normally and `f_0.get()` returns 7. -/
theorem set_resolves_chain_witness :
    (Future.link_chain 9 [2, 1, 0] (World.init (0 : Nat))).1 = .ok ∧
    (Future.set 9 ⟨some 2, none⟩ 7
      (Future.link_chain 9 [2, 1, 0] (World.init (0 : Nat))).2).1 = .ok ∧
    (Future.get ⟨some 0, none⟩
      (Future.set 9 ⟨some 2, none⟩ 7
        (Future.link_chain 9 [2, 1, 0] (World.init (0 : Nat))).2).2).1 = .value 7 :=
  have key := set_resolves_chain 2 (by decide) [2, 1, 0] rfl 7
    (Future.link_chain 9 [2, 1, 0] (World.init (0 : Nat))).2 9 (by decide)
    ⟨by decide, fun _ => by decide, by decide, fun _ => by decide, rfl⟩
  have hok := key.2 (by decide)
    ⟨⟨by decide, by decide, by decide, by decide⟩,
     ⟨by decide, by decide, by decide, by decide⟩,
     ⟨by decide, by decide, by decide, by decide⟩⟩ (by decide)
  ⟨by decide, hok, (key.1 hok 0 (by decide)).2⟩

/-! ### Claims about tasks waiting for futures -/

section Task

/-- One turn of the second loop of `set_assigned`, with `c` on top of `callbacks`. -/
theorem set_assigned_cb_cons (n : Nat) (a : Addr) (c : Callback) (rest : List Callback)
    (w : World T) (hcb : (w.futs a).callbacks = c :: rest) :
    FutureImpl.set_assigned_cb (n + 1) a w
      = match CallbackInterface.notify n c w with
        | (.ok, w1) =>
          FutureImpl.set_assigned_cb n a
            (w1.setFut a { w1.futs a with callbacks := (w1.futs a).callbacks.tail })
        | r => r := by
  rw [FutureImpl.set_assigned_cb]
  simp [hcb]

theorem set_assigned_cb_nil (n : Nat) (a : Addr) (w : World T)
    (hcb : (w.futs a).callbacks = []) :
    FutureImpl.set_assigned_cb (n + 1) a w = (.ok, w) := by
  rw [FutureImpl.set_assigned_cb]
  simp [hcb]

theorem notify_submit (n : Nat) (t : Addr) (w : World T) :
    CallbackInterface.notify (n + 1) (.submit t) w = (.ok, ThreadPool.add t w) := by
  simp [CallbackInterface.notify]

theorem notify_dep (n : Nat) (d : Addr) (w : World T) :
    CallbackInterface.notify (n + 1) (.dep d) w = DependencyInterface.dec n d w := by
  simp [CallbackInterface.notify]

/-- Assigning one awaited argument of a task whose tracker holds the submit callback:
the count drops by one, and the task is pushed on the ready queue exactly when the count
reaches zero. -/
theorem set_awaited (k : Nat) (d a : Addr) (v : T) (m : Nat) (w : World T)
    (hdep : (w.deps d).ndepend = (m : Int) + 1)
    (hcb : (w.deps d).callbacks = ⟨[Callback.submit d]⟩) (ha : AwaitedBy d a w) :
    ∃ w1, FutureImpl.set (k + 7) a v w = (.ok, w1) ∧
      (∀ z, z ≠ a → w1.futs z = w.futs z) ∧ (w1.deps d).ndepend = m ∧
      (m ≠ 0 → (w1.deps d).callbacks = ⟨[Callback.submit d]⟩ ∧ w1.ready = w.ready) ∧
      (m = 0 → w1.ready = w.ready ++ [d]) := by
  obtain ⟨h1, h2, h3, h4⟩ := ha
  rw [set_unfold (k + 5) a v w h1 h2]
  obtain ⟨w2, hw2⟩ : ∃ w2, w2 = w.setFut a { (w.futs a) with t := v, assigned := true } :=
    ⟨_, rfl⟩
  rw [← hw2]
  have f1 : (w2.futs a).assignments = Stack.mk0 := by rw [hw2, setFut_futs_same]; exact h3
  have f2 : (w2.futs a).callbacks = [Callback.dep d] := by
    rw [hw2, setFut_futs_same]; exact h4
  have f3 : w2.deps = w.deps := by rw [hw2]; rfl
  have f4 : w2.ready = w.ready := by rw [hw2]; rfl
  have f5 : ∀ z, z ≠ a → w2.futs z = w.futs z := by
    intro z hz; rw [hw2, setFut_futs_other _ _ _ _ hz]
  have hloop : FutureImpl.set_assigned_as (k + 5) a v w2 = (.ok, w2) := by
    rw [FutureImpl.set_assigned_as]
    simp [f1]
  rw [hloop]
  simp only
  rw [set_assigned_cb_cons (k + 4) a _ [] w2 f2, notify_dep]
  by_cases hm : m = 0
  · subst hm
    have hd1 : (w2.deps d).ndepend = 1 := by rw [f3]; simpa using hdep
    rw [dec_last (k + 2) d w2 hd1, f3, hcb, do_callbacks_cons, notify_submit]
    simp only [do_callbacks_nil]
    rw [set_assigned_cb_nil]
    · refine ⟨_, rfl, ?_, ?_, ?_, ?_⟩
      · intro z hz
        rw [setFut_futs_other _ _ _ _ hz]
        exact f5 z hz
      · simp [World.setFut, World.setDep, ThreadPool.add]
      · intro h; exact absurd rfl h
      · intro _
        simp [World.setFut, World.setDep, ThreadPool.add, f4]
    · rw [setFut_futs_same]
      simp [World.setDep, ThreadPool.add, f2]
  · have hd1 : (w2.deps d).ndepend ≠ 1 := by
      rw [f3, hdep]
      omega
    rw [dec_not_last (k + 1) d w2 hd1]
    simp only
    rw [set_assigned_cb_nil]
    · refine ⟨_, rfl, ?_, ?_, ?_, ?_⟩
      · intro z hz
        rw [setFut_futs_other _ _ _ _ hz]
        exact f5 z hz
      · simp [World.setFut, World.setDep, f3, hdep]
      · intro _
        simp [World.setFut, World.setDep, f3, hcb, f4]
      · intro h; exact absurd h hm
    · rw [setFut_futs_same]
      simp [World.setDep, f2]

/-- Assigning the awaited arguments of a task one after the other: the ready queue is
unchanged until the last one is assigned, which appends the task to it. -/
theorem set_all_awaited (k : Nat) (d : Addr) (vs : Addr → T) (args : List Addr) :
    ∀ (m : Nat) (w : World T), args.length = m + 1 → args.Nodup →
      (w.deps d).ndepend = (m : Int) + 1 →
      (w.deps d).callbacks = ⟨[Callback.submit d]⟩ →
      (∀ a ∈ args, AwaitedBy d a w) →
      (∀ j, j < m + 1 →
        (Future.set_all (k + 7) vs (args.take j) w).1 = .ok ∧
        (Future.set_all (k + 7) vs (args.take j) w).2.ready = w.ready) ∧
      (Future.set_all (k + 7) vs args w).1 = .ok ∧
      (Future.set_all (k + 7) vs args w).2.ready = w.ready ++ [d] := by
  induction args with
  | nil => intro m w h; simp at h
  | cons a rest ih =>
    intro m w hlen hnd hdep hcb hargs
    obtain ⟨w1, hset, hframe, hdep1, hmid, hlast⟩ :=
      set_awaited k d a (vs a) m w hdep hcb (hargs a (by simp))
    have hanot : a ∉ rest := (List.nodup_cons.mp hnd).1
    have hargs1 : ∀ z ∈ rest, AwaitedBy d z w1 := by
      intro z hz
      have hza : z ≠ a := fun e => hanot (e ▸ hz)
      simp only [AwaitedBy, hframe z hza]
      exact hargs z (List.mem_cons_of_mem a hz)
    by_cases hm : m = 0
    · subst hm
      have hrest : rest = [] := by
        simp at hlen
        exact hlen
      subst hrest
      refine ⟨?_, ?_, ?_⟩
      · intro j hj
        obtain rfl : j = 0 := by omega
        exact ⟨rfl, rfl⟩
      · simp [Future.set_all, Future.set, hset]
      · simp [Future.set_all, Future.set, hset, hlast rfl]
    · obtain ⟨m1, rfl⟩ : ∃ m1, m = m1 + 1 := ⟨m - 1, by omega⟩
      obtain ⟨hcb1, hready1⟩ := hmid hm
      have hlen1 : rest.length = m1 + 1 := by simp at hlen; omega
      have hdep2 : (w1.deps d).ndepend = (m1 : Int) + 1 := by rw [hdep1]; push_cast; rfl
      obtain ⟨ihj, ihok, ihready⟩ :=
        ih m1 w1 hlen1 (List.nodup_cons.mp hnd).2 hdep2 hcb1 hargs1
      refine ⟨?_, ?_, ?_⟩
      · intro j hj
        cases j with
        | zero => exact ⟨rfl, rfl⟩
        | succ j1 =>
          obtain ⟨h1, h2⟩ := ihj j1 (by omega)
          simp only [List.take_succ_cons, Future.set_all, Future.set, hset]
          exact ⟨h1, h2.trans hready1⟩
      · simp only [Future.set_all, Future.set, hset]
        exact ihok
      · simp only [Future.set_all, Future.set, hset]
        rw [ihready, hready1]

end Task

/-- C4: for every `K ≥ 1` and every order in which the `K` unassigned future arguments of
one task are assigned (the tracker of the task having been incremented once per argument
and the task registered as the callback of each argument): `add` returns normally without
submitting the task, the task is not pushed on the ready queue by any of the first
`K - 1` assignments, and the `K`-th assignment pushes it exactly once.  The list `args`
holds the arguments in the order in which they are assigned. -/
theorem task_submitted_by_last_assignment (K : Nat) (hK : 1 ≤ K) (d : Addr)
    (args : List Addr) (hlen : args.length = K) (hnd : args.Nodup) (vs : Addr → T)
    (w : World T) (hdep : (w.deps d).ndepend = K) (hcb : (w.deps d).callbacks = Stack.mk0)
    (hargs : ∀ a ∈ args, AwaitedBy d a w) (fuel : Nat) (hfuel : 7 ≤ fuel) :
    (WorldTaskQueue.add fuel d w).1 = .ok ∧
    (WorldTaskQueue.add fuel d w).2.ready = w.ready ∧
    (∀ j, j < K →
      (Future.set_all fuel vs (args.take j) (WorldTaskQueue.add fuel d w).2).1 = .ok ∧
      (Future.set_all fuel vs (args.take j) (WorldTaskQueue.add fuel d w).2).2.ready
        = w.ready) ∧
    (Future.set_all fuel vs args (WorldTaskQueue.add fuel d w).2).1 = .ok ∧
    (Future.set_all fuel vs args (WorldTaskQueue.add fuel d w).2).2.ready
      = w.ready ++ [d] := by
  obtain ⟨k, rfl⟩ : ∃ k, fuel = k + 7 := ⟨fuel - 7, by omega⟩
  obtain ⟨m, rfl⟩ : ∃ m, K = m + 1 := ⟨K - 1, by omega⟩
  have h0 : (w.deps d).ndepend ≠ 0 := by rw [hdep]; push_cast; omega
  have hadd : WorldTaskQueue.add (k + 7) d w
      = (.ok, ({ w with nregistered := w.nregistered.post_inc.2 } : World T).setDep d
          { ndepend := (w.deps d).ndepend, callbacks := ⟨[Callback.submit d]⟩ }) := by
    have hreg := register_callback_pending (k + 6) d (.submit d)
      ({ w with nregistered := w.nregistered.post_inc.2 } : World T) h0
      (by simp [hcb, Stack.mk0])
    simp only [WorldTaskQueue.add, DependencyInterface.ndep, h0, if_false,
      TaskInterface.register_submit_callback]
    rw [hreg]
    simp [hcb, Stack.mk0]
  rw [hadd]
  have hall := set_all_awaited k d vs args m
    (({ w with nregistered := w.nregistered.post_inc.2 } : World T).setDep d
      { ndepend := (w.deps d).ndepend, callbacks := ⟨[Callback.submit d]⟩ })
    hlen hnd (by rw [setDep_deps_same, hdep]; push_cast; rfl)
    (by rw [setDep_deps_same]) (fun a ha => hargs a ha)
  exact ⟨rfl, rfl, hall.1, hall.2.1, hall.2.2⟩

/-- Witness for C4: a task with two unassigned arguments, assigned second argument first:
the first assignment leaves the ready queue empty, the second puts the task on it. -/
theorem task_submitted_by_last_assignment_witness :
    (Future.set_all 7 (fun _ => 42) ([1, 0].take 1)
      (WorldTaskQueue.add 7 5 twoArgumentTask).2).2.ready = [] ∧
    (Future.set_all 7 (fun _ => 42) [1, 0]
      (WorldTaskQueue.add 7 5 twoArgumentTask).2).2.ready = [5] :=
  have key := task_submitted_by_last_assignment 2 (by decide) 5 [1, 0] rfl (by decide)
    (fun _ => 42) twoArgumentTask (by decide) (by decide)
    (fun a ha => by
      have h : a = 1 ∨ a = 0 := by simpa using ha
      rcases h with rfl | rfl <;> exact ⟨by decide, by decide, by decide, by decide⟩)
    7 (by decide)
  ⟨(key.2.2.1 1 (by decide)).2, key.2.2.2.2⟩

/-! ### Claims about `DependencyInterface` -/

/-- C5: on a tracker created with pending count `N ≥ 1`, a callback registered before the
decrements is not notified by any `k < N` calls of `dec()` (the trace of notifications is
unchanged), and after the `N`-th `dec()` it has been notified exactly once (the trace
has grown by exactly that one notification).  All calls return normally. -/
theorem dependency_notifies_exactly_once (N : Nat) (hN : 1 ≤ N) (fuel : Nat) (hfuel : 3 ≤ fuel)
    (d : Addr) (h : Nat) (w : World T) (hnd : (w.deps d).ndepend = N)
    (hcb : (w.deps d).callbacks = Stack.mk0) :
    (DependencyInterface.register_callback fuel d (.user h) w).1 = .ok ∧
    (∀ k, k < N →
      (DependencyInterface.dec_times fuel d k
        (DependencyInterface.register_callback fuel d (.user h) w).2).1 = .ok ∧
      (DependencyInterface.dec_times fuel d k
        (DependencyInterface.register_callback fuel d (.user h) w).2).2.trace = w.trace) ∧
    (DependencyInterface.dec_times fuel d N
      (DependencyInterface.register_callback fuel d (.user h) w).2).1 = .ok ∧
    (DependencyInterface.dec_times fuel d N
      (DependencyInterface.register_callback fuel d (.user h) w).2).2.trace = w.trace ++ [h] := by
  obtain ⟨n, rfl⟩ : ∃ n, fuel = n + 2 := ⟨fuel - 2, by omega⟩
  have h0 : (w.deps d).ndepend ≠ 0 := by rw [hnd]; omega
  have hroom : (w.deps d).callbacks.elems.length < 8 := by rw [hcb]; simp [Stack.mk0]
  have hreg := register_callback_pending (n + 1) d (.user h) w h0 hroom
  rw [hcb] at hreg
  rw [hreg]
  refine ⟨rfl, ?_, ?_⟩
  · intro k hk
    rw [dec_times_below]
    · exact ⟨rfl, rfl⟩
    · simp only [setDep_deps_same, hnd]
      exact_mod_cast hk
  · rw [dec_times_all n d N hN [h] _ (by simp [setDep_deps_same, hnd])
      (by simp [setDep_deps_same, Stack.mk0]) (by simp; omega)]
    exact ⟨rfl, rfl⟩

/-- Witness for C5: a tracker created with two pending dependencies and callback 7. -/
theorem dependency_notifies_exactly_once_witness :
    (DependencyInterface.dec_times 3 0 1
      (DependencyInterface.register_callback 3 0 (.user 7)
        (DependencyInterface.ctor 0 2 (World.init (0 : Nat)))).2).2.trace = [] ∧
    (DependencyInterface.dec_times 3 0 2
      (DependencyInterface.register_callback 3 0 (.user 7)
        (DependencyInterface.ctor 0 2 (World.init (0 : Nat)))).2).2.trace = [7] :=
  have key := dependency_notifies_exactly_once 2 (by decide) 3 (by decide) 0 7
    (DependencyInterface.ctor 0 2 (World.init (0 : Nat))) rfl rfl
  ⟨(key.2.1 1 (by decide)).2, key.2.2.2⟩

/-- C10 as stated fails: with callbacks 1 and 2 registered in that order on a tracker
with one pending dependency, the `dec()` that reaches zero notifies 2 first and 1 second. -/
theorem dec_registration_order_counterexample :
    (DependencyInterface.dec 4 0
      (DependencyInterface.register_all 4 0 [.user 1, .user 2]
        (DependencyInterface.ctor 0 1 (World.init (0 : Nat)))).2).2.trace = [2, 1] ∧
    (DependencyInterface.dec 4 0
      (DependencyInterface.register_all 4 0 [.user 1, .user 2]
        (DependencyInterface.ctor 0 1 (World.init (0 : Nat)))).2).2.trace ≠ [1, 2] := by
  decide

/-- C10, amended: on a tracker with pending count `N > 0` on which the callbacks
`h_1, ..., h_k` (`k ≤ 8`) were registered in that order, the first `N - 1` calls of `dec()`
notify nobody and the `dec()` that brings the count to zero notifies `h_k, ..., h_1`:
each callback once, in the reverse of the registration order. -/
theorem dec_notifies_in_reverse_order (N : Nat) (hN : 1 ≤ N) (hs : List Nat)
    (hk : hs.length ≤ 8) (fuel : Nat) (hfuel : hs.length + 3 ≤ fuel)
    (d : Addr) (w : World T) (hnd : (w.deps d).ndepend = N)
    (hcb : (w.deps d).callbacks = Stack.mk0) :
    (DependencyInterface.register_all fuel d (hs.map Callback.user) w).1 = .ok ∧
    (DependencyInterface.dec_times fuel d (N - 1)
      (DependencyInterface.register_all fuel d (hs.map Callback.user) w).2).2.trace = w.trace ∧
    (DependencyInterface.dec_times fuel d N
      (DependencyInterface.register_all fuel d (hs.map Callback.user) w).2).1 = .ok ∧
    (DependencyInterface.dec_times fuel d N
      (DependencyInterface.register_all fuel d (hs.map Callback.user) w).2).2.trace
        = w.trace ++ hs.reverse := by
  obtain ⟨n, rfl⟩ : ∃ n, fuel = n + 2 := ⟨fuel - 2, by omega⟩
  have h0 : (w.deps d).ndepend ≠ 0 := by rw [hnd]; omega
  have hlen : (w.deps d).callbacks.elems.length + hs.length ≤ 8 := by
    rw [hcb]; simpa [Stack.mk0] using hk
  have hreg := register_all_pending (n + 1) d hs w h0 hlen
  rw [hcb] at hreg
  rw [hreg]
  refine ⟨rfl, ?_, ?_⟩
  · rw [dec_times_below]
    · rfl
    · simp only [setDep_deps_same, hnd]
      omega
  · rw [dec_times_all n d N hN hs.reverse _ (by simp [setDep_deps_same, hnd])
      (by simp [setDep_deps_same, Stack.mk0]) (by simp; omega)]
    exact ⟨rfl, rfl⟩

/-- Witness for the amended C10: three callbacks on a tracker with two pending
dependencies. -/
theorem dec_notifies_in_reverse_order_witness :
    (DependencyInterface.dec_times 6 0 2
      (DependencyInterface.register_all 6 0 ([5, 6, 7].map Callback.user)
        (DependencyInterface.ctor 0 2 (World.init (0 : Nat)))).2).2.trace = [7, 6, 5] :=
  (dec_notifies_in_reverse_order 2 (by decide) [5, 6, 7] (by decide) 6 (by decide) 0
    (DependencyInterface.ctor 0 2 (World.init (0 : Nat))) rfl rfl).2.2.2

/-! ### Claims about `reduce` -/

section Reduce

variable {α R : Type}

/-- A partial sum that absorbs `zero` keeps absorbing it along the leaf loop. -/
theorem leaf_absorbs (zero : R) (opit : α → R) (op : R → R → R)
    (hassoc : ∀ a b c, op (op a b) c = op a (op b c)) (hcomm : ∀ a b, op a b = op b a)
    (xs : List α) :
    ∀ a, op a zero = a → op (xs.foldl (fun sum it => op sum (opit it)) a) zero
      = xs.foldl (fun sum it => op sum (opit it)) a := by
  induction xs with
  | nil => intro a ha; simpa using ha
  | cons x rest ih =>
    intro a ha
    simp only [List.foldl_cons]
    apply ih
    rw [hassoc, hcomm (opit x) zero, ← hassoc, ha]

/-- Running the leaf loop from an absorbing partial sum is the same as combining that
partial sum with the loop run from `zero`. -/
theorem leaf_from (zero : R) (opit : α → R) (op : R → R → R)
    (hassoc : ∀ a b c, op (op a b) c = op a (op b c)) (hcomm : ∀ a b, op a b = op b a)
    (hzero : op zero zero = zero) (ys : List α) :
    ∀ a, op a zero = a → ys.foldl (fun sum it => op sum (opit it)) a
      = op a (ys.foldl (fun sum it => op sum (opit it)) zero) := by
  induction ys with
  | nil => intro a ha; simpa using ha.symm
  | cons y rest ih =>
    intro a ha
    have h1 : op (op a (opit y)) zero = op a (opit y) := by
      rw [hassoc, hcomm (opit y) zero, ← hassoc, ha]
    have h2 : op (op zero (opit y)) zero = op zero (opit y) := by
      rw [hassoc, hcomm (opit y) zero, ← hassoc, hzero]
    simp only [List.foldl_cons]
    rw [ih _ h1, ih _ h2, hassoc, hassoc, ← hassoc a zero, ha]

/-- With enough depth, `reduce` resolves to the leaf loop run over the whole range. -/
theorem reduce_eq_leaf (cut : Nat → Nat) (zero : R) (opit : α → R) (op : R → R → R)
    (hassoc : ∀ a b c, op (op a b) c = op a (op b c)) (hcomm : ∀ a b, op a b = op b a)
    (hzero : op zero zero = zero) (chunk : Nat)
    (hcut : ∀ m, chunk < m → 0 < cut m ∧ cut m < m) (n : Nat) :
    ∀ (items : List α), items.length < n →
      WorldTaskQueue.reduce cut zero opit op n ⟨items, chunk⟩
        = some (items.foldl (fun sum it => op sum (opit it)) zero) := by
  induction n with
  | zero => intro items h; omega
  | succ n ih =>
    intro items hlen
    rw [WorldTaskQueue.reduce]
    by_cases hsmall : items.length ≤ chunk
    · simp [Range.size, Range.get_chunksize, hsmall]
    · have hc := hcut items.length (by omega)
      have hl : (items.take (cut items.length)).length < n := by
        rw [List.length_take]; omega
      have hr : (items.drop (cut items.length)).length < n := by
        rw [List.length_drop]; omega
      simp only [Range.size, Range.get_chunksize, hsmall, if_false, Range.split,
        ih _ hl, ih _ hr, WorldTaskQueue.sum]
      have habs := leaf_absorbs zero opit op hassoc hcomm (items.take (cut items.length))
        zero hzero
      rw [← leaf_from zero opit op hassoc hcomm hzero _ _ habs, ← List.foldl_append,
        List.take_append_drop]

/-- Twice the leaf sum of `1, ..., n` is `n (n + 1)`. -/
theorem leaf_sum_one_to_n (n : Nat) :
    2 * ((List.range' 1 n).map Int.ofNat).foldl (fun sum it => sum + it) (0 : Int)
      = (n : Int) * (n + 1) := by
  induction n with
  | zero => simp
  | succ n ih =>
    rw [List.range'_1_concat, List.map_append, List.foldl_append]
    simp only [List.map_cons, List.map_nil, List.foldl_cons, List.foldl_nil]
    rw [mul_add, ih]
    simp only [Int.ofNat_eq_coe]
    push_cast
    ring

/-- C8 as stated fails: `op(a, b) = a + b + 1` is associative and commutative, yet over
the range `1, 2` with `resultT() = 0` one chunk of size 2 yields 5 and chunks of size 1
yield 6. -/
theorem reduce_chunk_size_counterexample :
    (∀ a b c : Nat, (a + b + 1) + c + 1 = a + (b + c + 1) + 1) ∧
    (∀ a b : Nat, a + b + 1 = b + a + 1) ∧
    WorldTaskQueue.reduce (fun m => (m + 1) / 2) 0 (fun it => it) (fun a b => a + b + 1) 3
      ⟨[1, 2], 2⟩ = some 5 ∧
    WorldTaskQueue.reduce (fun m => (m + 1) / 2) 0 (fun it => it) (fun a b => a + b + 1) 3
      ⟨[1, 2], 1⟩ = some 6 := by
  refine ⟨?_, ?_, ?_, ?_⟩
  · intro a b c; omega
  · intro a b; omega
  · decide
  · decide

/-- C8, amended: for every finite range and every associative and commutative operator
`op` with `op(resultT(), resultT()) = resultT()`, `reduce` resolves to the same result for
every chunk size and every way of cutting the range: the result of the leaf loop over the
whole range, which is what a single chunk holding the whole range yields. -/
theorem reduce_chunk_size_independent (zero : R) (opit : α → R) (op : R → R → R)
    (hassoc : ∀ a b c, op (op a b) c = op a (op b c)) (hcomm : ∀ a b, op a b = op b a)
    (hzero : op zero zero = zero) (items : List α)
    (cut : Nat → Nat) (chunk : Nat) (hcut : ∀ m, chunk < m → 0 < cut m ∧ cut m < m)
    (fuel : Nat) (hfuel : items.length < fuel)
    (cut2 : Nat → Nat) (chunk2 : Nat) (hcut2 : ∀ m, chunk2 < m → 0 < cut2 m ∧ cut2 m < m)
    (fuel2 : Nat) (hfuel2 : items.length < fuel2) :
    WorldTaskQueue.reduce cut zero opit op fuel ⟨items, chunk⟩
      = WorldTaskQueue.reduce cut2 zero opit op fuel2 ⟨items, chunk2⟩ ∧
    WorldTaskQueue.reduce cut zero opit op fuel ⟨items, chunk⟩
      = WorldTaskQueue.reduce cut zero opit op 1 ⟨items, items.length⟩ ∧
    WorldTaskQueue.reduce cut zero opit op fuel ⟨items, chunk⟩
      = some (items.foldl (fun sum it => op sum (opit it)) zero) := by
  have h1 := reduce_eq_leaf cut zero opit op hassoc hcomm hzero chunk hcut fuel items hfuel
  have h2 := reduce_eq_leaf cut2 zero opit op hassoc hcomm hzero chunk2 hcut2 fuel2 items hfuel2
  refine ⟨h1.trans h2.symm, ?_, h1⟩
  rw [h1]
  simp [WorldTaskQueue.reduce, Range.size, Range.get_chunksize]

/-- Witness for the amended C8: the maximum of `3, 1, 2` with chunk sizes 1 and 10. -/
theorem reduce_chunk_size_independent_witness :
    WorldTaskQueue.reduce (fun m => (m + 1) / 2) 0 (fun it => it) (fun a b : Nat => max a b) 4
      ⟨[3, 1, 2], 1⟩
      = WorldTaskQueue.reduce (fun m => (m + 1) / 2) 0 (fun it => it) (fun a b : Nat => max a b) 4
        ⟨[3, 1, 2], 10⟩ :=
  (reduce_chunk_size_independent 0 (fun it => it) (fun a b : Nat => max a b)
    (fun a b c => max_assoc a b c) (fun a b => max_comm a b) rfl [3, 1, 2]
    (fun m => (m + 1) / 2) 1 (fun m hm => by dsimp only; omega) 4 (by decide)
    (fun m => (m + 1) / 2) 10 (fun m hm => by dsimp only; omega) 4 (by decide)).1

/-- C9: for every `n ≥ 0` and every chunk size `≥ 1`, `reduce` over the integers `1, ..., n`
with `op(it)` the element and `op(left, right) = left + right` resolves to `n (n + 1) / 2`,
however the ranges are cut in two. -/
theorem reduce_sum_one_to_n (n : Nat) (chunk : Nat) (_hchunk : 1 ≤ chunk) (cut : Nat → Nat)
    (hcut : ∀ m, chunk < m → 0 < cut m ∧ cut m < m) (fuel : Nat) (hfuel : n < fuel) :
    WorldTaskQueue.reduce cut (0 : Int) (fun it => it) (fun left right => left + right) fuel
      ⟨(List.range' 1 n).map Int.ofNat, chunk⟩ = some ((n : Int) * (n + 1) / 2) := by
  rw [reduce_eq_leaf cut (0 : Int) (fun it => it) (fun left right => left + right)
    (fun a b c => add_assoc a b c) (fun a b => add_comm a b) rfl chunk hcut fuel _
    (by simpa using hfuel)]
  have h := leaf_sum_one_to_n n
  congr 1
  omega

/-- Witness for C9: the integers 1 to 1000 with chunk sizes 1, 10 and 1000 give 500500. -/
theorem reduce_sum_one_to_n_witness :
    WorldTaskQueue.reduce (fun m => (m + 1) / 2) (0 : Int) (fun it => it)
      (fun left right => left + right) 1001 ⟨(List.range' 1 1000).map Int.ofNat, 1⟩
      = some 500500 ∧
    WorldTaskQueue.reduce (fun m => (m + 1) / 2) (0 : Int) (fun it => it)
      (fun left right => left + right) 1001 ⟨(List.range' 1 1000).map Int.ofNat, 10⟩
      = some 500500 ∧
    WorldTaskQueue.reduce (fun m => (m + 1) / 2) (0 : Int) (fun it => it)
      (fun left right => left + right) 1001 ⟨(List.range' 1 1000).map Int.ofNat, 1000⟩
      = some 500500 :=
  ⟨(reduce_sum_one_to_n 1000 1 (by decide) (fun m => (m + 1) / 2) (fun m hm => by dsimp only; omega)
      1001 (by decide)).trans (by decide),
   (reduce_sum_one_to_n 1000 10 (by decide) (fun m => (m + 1) / 2) (fun m hm => by dsimp only; omega)
      1001 (by decide)).trans (by decide),
   (reduce_sum_one_to_n 1000 1000 (by decide) (fun m => (m + 1) / 2) (fun m hm => by dsimp only; omega)
      1001 (by decide)).trans (by decide)⟩

end Reduce

/-! ### Claims about callbacks registered on futures -/

section FutureCallbacks

/-- Registering on an unassigned future with an implementation object only pushes. -/
theorem future_register_unassigned (fuel : Nat) (a : Addr) (c : Callback) (w : World T)
    (hun : (w.futs a).assigned = false) :
    Future.register_callback fuel ⟨some a, none⟩ c w
      = (.ok, w.setFut a { w.futs a with callbacks := c :: (w.futs a).callbacks }) := by
  simp [Future.register_callback, Future.probe, FutureImpl.probe, hun,
    FutureImpl.register_callback]

theorem setFut_setFut (w : World T) (a : Addr) (o o2 : FutureImpl T) :
    (w.setFut a o).setFut a o2 = w.setFut a o2 := by
  simp [World.setFut]

/-- Registering a list of callbacks on an unassigned future stacks them up. -/
theorem future_register_all_unassigned (fuel : Nat) (a : Addr) (cs : List Callback) :
    ∀ (w : World T), (w.futs a).assigned = false →
      Future.register_all fuel ⟨some a, none⟩ cs w
        = (.ok, w.setFut a { w.futs a with
            callbacks := cs.reverse ++ (w.futs a).callbacks }) := by
  induction cs with
  | nil =>
    intro w _
    simp [Future.register_all, World.setFut]
  | cons c rest ih =>
    intro w hun
    simp only [Future.register_all, future_register_unassigned fuel a c w hun]
    rw [ih]
    · simp [setFut_futs_same, setFut_setFut]
    · rw [setFut_futs_same]
      exact hun

/-- The second loop of `set_assigned` on a queue of user callbacks, when it returns
normally, has notified the queue from the top down and emptied it. -/
theorem set_assigned_cb_users (a : Addr) (hs : List Nat) :
    ∀ (n : Nat) (w w1 : World T), (w.futs a).callbacks = hs.map Callback.user →
      FutureImpl.set_assigned_cb n a w = (.ok, w1) →
      w1 = ({ w with trace := w.trace ++ hs } : World T).setFut a
        { w.futs a with callbacks := [] } := by
  induction hs with
  | nil =>
    intro n w w1 hcb h
    cases n with
    | zero => simp [FutureImpl.set_assigned_cb] at h
    | succ n =>
      rw [set_assigned_cb_nil n a w (by simpa using hcb)] at h
      obtain rfl : w = w1 := by simpa using h
      have e : ({ w.futs a with callbacks := [] } : FutureImpl T) = w.futs a := by
        cases hw : w.futs a
        rw [hw] at hcb
        simp at hcb
        simp [hcb]
      rw [e]
      simp [World.setFut]
  | cons h rest ih =>
    intro n w w1 hcb hrun
    cases n with
    | zero => simp [FutureImpl.set_assigned_cb] at hrun
    | succ n =>
      rw [set_assigned_cb_cons n a (.user h) (rest.map Callback.user) w
        (by simpa using hcb)] at hrun
      cases n with
      | zero => simp [CallbackInterface.notify] at hrun
      | succ n =>
        rw [notify_user] at hrun
        simp only at hrun
        have := ih (n + 1) _ w1 (by simp [setFut_futs_same, World.setFut, hcb]) hrun
        rw [this]
        simp [World.setFut, hcb]

/-- With enough depth the second loop of `set_assigned` on user callbacks returns. -/
theorem set_assigned_cb_users_ok (a : Addr) (hs : List Nat) :
    ∀ (n : Nat) (w : World T), (w.futs a).callbacks = hs.map Callback.user →
      hs.length + 1 ≤ n → (FutureImpl.set_assigned_cb n a w).1 = .ok := by
  induction hs with
  | nil =>
    intro n w hcb hn
    obtain ⟨m, rfl⟩ : ∃ m, n = m + 1 := ⟨n - 1, by simp at hn; omega⟩
    rw [set_assigned_cb_nil m a w (by simpa using hcb)]
  | cons h rest ih =>
    intro n w hcb hn
    obtain ⟨m, rfl⟩ : ∃ m, n = m + 2 := ⟨n - 2, by simp at hn; omega⟩
    rw [set_assigned_cb_cons (m + 1) a (.user h) (rest.map Callback.user) w
      (by simpa using hcb), notify_user]
    simp only
    apply ih
    · simp [setFut_futs_same, World.setFut, hcb]
    · simp at hn ⊢
      omega

/-- Notifications only append to the trace. -/
theorem notify_trace_grows (n : Nat) :
    (∀ (c : Callback) (w : World T),
      ∃ l, (CallbackInterface.notify n c w).2.trace = w.trace ++ l) ∧
    (∀ (cb : Stack Callback DependencyInterface.MAXCALLBACKS) (w : World T),
      ∃ l, (DependencyInterface.do_callbacks n cb w).2.trace = w.trace ++ l) ∧
    (∀ (d : Addr) (w : World T),
      ∃ l, (DependencyInterface.dec n d w).2.trace = w.trace ++ l) := by
  induction n with
  | zero =>
    refine ⟨?_, ?_, ?_⟩ <;> intros <;> exact ⟨[], by
      simp [CallbackInterface.notify, DependencyInterface.do_callbacks,
        DependencyInterface.dec]⟩
  | succ n ih =>
    obtain ⟨ih1, ih2, ih3⟩ := ih
    refine ⟨?_, ?_, ?_⟩
    · intro c w
      cases c with
      | user id => exact ⟨[id], by simp [CallbackInterface.notify]⟩
      | dep d => simpa [CallbackInterface.notify] using ih3 d w
      | submit t => exact ⟨[], by simp [CallbackInterface.notify, ThreadPool.add]⟩
      | taskq => exact ⟨[], by simp [CallbackInterface.notify]⟩
    · intro cb w
      rcases cb with ⟨_ | ⟨c, rest⟩⟩
      · exact ⟨[], by rw [do_callbacks_nil]; simp⟩
      · rw [do_callbacks_cons]
        obtain ⟨l1, h1⟩ := ih1 c w
        rcases hrun : CallbackInterface.notify n c w with ⟨o, w1⟩
        rw [hrun] at h1
        cases o
        · obtain ⟨l2, h2⟩ := ih2 ⟨rest⟩ w1
          exact ⟨l1 ++ l2, by simp only; rw [h2, h1, List.append_assoc]⟩
        all_goals exact ⟨l1, h1⟩
    · intro d w
      rw [DependencyInterface.dec]
      split
      · obtain ⟨l, h⟩ := ih2 (w.deps d).callbacks
          (w.setDep d { ndepend := (w.deps d).ndepend - 1,
                        callbacks := (w.deps d).callbacks.clear })
        exact ⟨l, h⟩
      · obtain ⟨l, h⟩ := ih2 Stack.mk0
          (w.setDep d { ndepend := (w.deps d).ndepend - 1,
                        callbacks := (w.deps d).callbacks })
        exact ⟨l, h⟩

/-- The calls of `set` and its loops only append to the trace. -/
theorem set_trace_grows (v : T) (n : Nat) :
    (∀ (a : Addr) (w : World T), ∃ l, (FutureImpl.set n a v w).2.trace = w.trace ++ l) ∧
    (∀ (a : Addr) (w : World T),
      ∃ l, (FutureImpl.set_assigned n a v w).2.trace = w.trace ++ l) ∧
    (∀ (a : Addr) (w : World T),
      ∃ l, (FutureImpl.set_assigned_as n a v w).2.trace = w.trace ++ l) ∧
    (∀ (a : Addr) (w : World T),
      ∃ l, (FutureImpl.set_assigned_cb n a w).2.trace = w.trace ++ l) := by
  induction n with
  | zero =>
    refine ⟨?_, ?_, ?_, ?_⟩ <;> intros <;> exact ⟨[], by
      simp [FutureImpl.set, FutureImpl.set_assigned, FutureImpl.set_assigned_as,
        FutureImpl.set_assigned_cb]⟩
  | succ n ih =>
    obtain ⟨ih1, ih2, ih3, ih4⟩ := ih
    refine ⟨?_, ?_, ?_, ?_⟩
    · intro a w
      rw [FutureImpl.set]
      split
      · rename_i ref _
        obtain ⟨l, h⟩ := ih2 a ((w.am_send ref.owner (.set_handler ref v)).setFut a
          { w.futs a with remote_ref := none })
        exact ⟨l, h⟩
      · obtain ⟨l, h⟩ := ih2 a (w.setFut a { w.futs a with t := v })
        exact ⟨l, h⟩
    · intro a w
      rw [FutureImpl.set_assigned]
      split
      · exact ⟨[], by simp⟩
      · obtain ⟨l1, h1⟩ := ih3 a (w.setFut a { w.futs a with assigned := true })
        rcases hrun : FutureImpl.set_assigned_as n a v
            (w.setFut a { w.futs a with assigned := true }) with ⟨o, w1⟩
        rw [hrun] at h1
        cases o
        · obtain ⟨l2, h2⟩ := ih4 a w1
          refine ⟨l1 ++ l2, ?_⟩
          simp only
          rw [h2, h1, List.append_assoc]
          rfl
        all_goals exact ⟨l1, h1⟩
    · intro a w
      rw [FutureImpl.set_assigned_as]
      split
      · exact ⟨[], by simp⟩
      · split
        · exact ⟨[], by simp⟩
        · rename_i y _
          obtain ⟨l1, h1⟩ := ih1 y w
          rcases hrun : FutureImpl.set n y v w with ⟨o, w1⟩
          rw [hrun] at h1
          cases o
          · simp only
            split
            · exact ⟨l1, h1⟩
            · rename_i rest _
              obtain ⟨l2, h2⟩ := ih3 a (w1.setFut a { w1.futs a with assignments := rest })
              refine ⟨l1 ++ l2, ?_⟩
              rw [h2, ← List.append_assoc, ← h1]
              rfl
          all_goals exact ⟨l1, h1⟩
    · intro a w
      rw [FutureImpl.set_assigned_cb]
      split
      · exact ⟨[], by simp⟩
      · rename_i c _ _
        obtain ⟨l1, h1⟩ := (notify_trace_grows n).1 c w
        rcases hrun : CallbackInterface.notify n c w with ⟨o, w1⟩
        rw [hrun] at h1
        cases o
        · simp only
          obtain ⟨l2, h2⟩ := ih4 a
            (w1.setFut a { w1.futs a with callbacks := (w1.futs a).callbacks.tail })
          refine ⟨l1 ++ l2, ?_⟩
          rw [h2, ← List.append_assoc, ← h1]
          rfl
        all_goals exact ⟨l1, h1⟩

/-- The first loop of `set_assigned`, when it returns normally, leaves the callbacks of
its own future as they were. -/
theorem set_assigned_as_keeps_callbacks (v : T) (n : Nat) :
    ∀ (a : Addr) (w w1 : World T), FutureImpl.set_assigned_as n a v w = (.ok, w1) →
      (w.futs a).assigned = true →
      (w1.futs a).callbacks = (w.futs a).callbacks ∧ (w1.futs a).assigned = true := by
  induction n with
  | zero =>
    intro a w w1 h
    simp [FutureImpl.set_assigned_as] at h
  | succ n ih =>
    intro a w w1 h ha
    rw [FutureImpl.set_assigned_as] at h
    split at h
    · obtain rfl : w = w1 := by simpa using h
      exact ⟨rfl, ha⟩
    · split at h
      · simp at h
      · rename_i top _
        rcases hrun : FutureImpl.set n top v w with ⟨o, w2⟩
        rw [hrun] at h
        cases o
        · simp only at h
          obtain ⟨_, htouch⟩ := (ok_footprint v n).1 top w w2 hrun
          have hsame : w2.futs a = w.futs a := by
            rcases htouch a with e | ⟨hu, _⟩
            · exact e
            · rw [ha] at hu
              cases hu
          split at h
          · simp at h
          · obtain ⟨h1, h2⟩ := ih a _ w1 h (by rw [setFut_futs_same, hsame]; exact ha)
            rw [setFut_futs_same, hsame] at h1
            exact ⟨h1, h2⟩
        all_goals simp at h

end FutureCallbacks

/-- C11 fails on the code, against its own documentation ("Callbacks are invoked in the
order registered"): `FutureImpl::callbacks` is a `std::stack`, so `set_assigned` notifies
from the top.  On a new `Future<int>` with callbacks 1 and 2 registered in that order,
`set(42)` notifies 2 first and 1 second. -/
theorem future_callbacks_fire_last_registered_first :
    (Future.register_all 1 ⟨some 0, none⟩ [.user 1, .user 2]
      (FutureImpl.ctor 0 0 (World.init (0 : Int)))).1 = .ok ∧
    (Future.set 5 ⟨some 0, none⟩ 42
      (Future.register_all 1 ⟨some 0, none⟩ [.user 1, .user 2]
        (FutureImpl.ctor 0 0 (World.init (0 : Int)))).2).1 = .ok ∧
    (Future.set 5 ⟨some 0, none⟩ 42
      (Future.register_all 1 ⟨some 0, none⟩ [.user 1, .user 2]
        (FutureImpl.ctor 0 0 (World.init (0 : Int)))).2).2.trace = [2, 1] := by
  decide

/-- C13: for every local future.  On an assigned future `register_callback(h)` notifies
`h` at once, exactly once, and keeps nothing.  On an unassigned future registering
`h_1, ..., h_k` returns normally and notifies nobody; a `set(v)` that then returns normally
has first run whatever the chained futures notify (`others`) and then notified every
queued callback exactly once (from the last registered to the first), leaving the queue
empty; with no chained future and enough depth `set(v)` does return normally, having
notified nobody else. -/
theorem future_callbacks_notified_once (fuel : Nat) (a : Addr) (w : World T)
    (hloc : (w.futs a).remote_ref = none) :
    (∀ h : Nat, (w.futs a).assigned = true → 1 ≤ fuel →
      Future.register_callback fuel ⟨some a, none⟩ (.user h) w
        = (.ok, { w with trace := w.trace ++ [h] })) ∧
    (∀ (ids : List Nat) (v : T), (w.futs a).assigned = false → (w.futs a).callbacks = [] →
      (Future.register_all fuel ⟨some a, none⟩ (ids.map Callback.user) w).1 = .ok ∧
      (Future.register_all fuel ⟨some a, none⟩ (ids.map Callback.user) w).2.trace = w.trace ∧
      ((Future.set fuel ⟨some a, none⟩ v
          (Future.register_all fuel ⟨some a, none⟩ (ids.map Callback.user) w).2).1 = .ok →
        ∃ others, (Future.set fuel ⟨some a, none⟩ v
            (Future.register_all fuel ⟨some a, none⟩ (ids.map Callback.user) w).2).2.trace
            = w.trace ++ others ++ ids.reverse ∧
          ((Future.set fuel ⟨some a, none⟩ v
            (Future.register_all fuel ⟨some a, none⟩ (ids.map Callback.user) w).2).2.futs
              a).callbacks = []) ∧
      ((w.futs a).assignments = Stack.mk0 → ids.length + 3 ≤ fuel →
        (Future.set fuel ⟨some a, none⟩ v
          (Future.register_all fuel ⟨some a, none⟩ (ids.map Callback.user) w).2).1 = .ok ∧
        (Future.set fuel ⟨some a, none⟩ v
          (Future.register_all fuel ⟨some a, none⟩ (ids.map Callback.user) w).2).2.trace
          = w.trace ++ ids.reverse)) := by
  refine ⟨?_, ?_⟩
  · intro h ha hfuel
    obtain ⟨m, rfl⟩ : ∃ m, fuel = m + 1 := ⟨fuel - 1, by omega⟩
    simp [Future.register_callback, Future.probe, FutureImpl.probe, ha, notify_user]
  · intro ids v hun hcb
    rw [future_register_all_unassigned fuel a _ w hun, hcb]
    obtain ⟨w1, hw1⟩ : ∃ w1, w1 = w.setFut a { w.futs a with
        callbacks := (ids.map Callback.user).reverse ++ [] } := ⟨_, rfl⟩
    rw [← hw1]
    have f1 : (w1.futs a).callbacks = ids.reverse.map Callback.user := by
      rw [hw1, setFut_futs_same]; simp
    have f2 : (w1.futs a).assigned = false := by rw [hw1, setFut_futs_same]; exact hun
    have f3 : (w1.futs a).remote_ref = none := by rw [hw1, setFut_futs_same]; exact hloc
    have f4 : w1.trace = w.trace := by rw [hw1]; rfl
    have f5 : (w1.futs a).assignments = (w.futs a).assignments := by
      rw [hw1, setFut_futs_same]
    refine ⟨rfl, f4, ?_, ?_⟩
    · intro hok
      simp only [Future.set] at hok ⊢
      have hrun : FutureImpl.set fuel a v w1 = (.ok, (FutureImpl.set fuel a v w1).2) := by
        rw [← hok]
      obtain ⟨w2, hw2⟩ : ∃ w2, w2 = (FutureImpl.set fuel a v w1).2 := ⟨_, rfl⟩
      rw [← hw2] at hrun ⊢
      cases fuel with
      | zero => simp [FutureImpl.set] at hrun
      | succ n =>
        cases n with
        | zero => simp [FutureImpl.set, FutureImpl.set_assigned, f3] at hrun
        | succ m =>
          rw [set_unfold m a v w1 f2 f3] at hrun
          rcases hloop : FutureImpl.set_assigned_as m a v
              (w1.setFut a { (w1.futs a) with t := v, assigned := true }) with ⟨o, w3⟩
          rw [hloop] at hrun
          cases o
          · simp only at hrun
            obtain ⟨k1, _⟩ := set_assigned_as_keeps_callbacks v m a _ w3 hloop
              (by rw [setFut_futs_same])
            rw [setFut_futs_same] at k1
            have k2 : (w3.futs a).callbacks = ids.reverse.map Callback.user := by
              rw [k1]; exact f1
            have := set_assigned_cb_users a ids.reverse m w3 w2 k2 hrun
            obtain ⟨l, hl⟩ := (set_trace_grows v m).2.2.1 a
              (w1.setFut a { (w1.futs a) with t := v, assigned := true })
            rw [hloop] at hl
            have hl2 : w3.trace = w.trace ++ l := by rw [hl, ← f4]; rfl
            refine ⟨l, ?_, ?_⟩
            · rw [this, ← hl2]; rfl
            · rw [this, setFut_futs_same]
          all_goals simp at hrun
    · intro has hfuel
      obtain ⟨m, rfl⟩ : ∃ m, fuel = m + 2 := ⟨fuel - 2, by omega⟩
      simp only [Future.set]
      rw [set_unfold m a v w1 f2 f3]
      have hloop : FutureImpl.set_assigned_as m a v
          (w1.setFut a { (w1.futs a) with t := v, assigned := true })
          = (.ok, w1.setFut a { (w1.futs a) with t := v, assigned := true }) := by
        obtain ⟨j, rfl⟩ : ∃ j, m = j + 1 := ⟨m - 1, by omega⟩
        rw [FutureImpl.set_assigned_as]
        simp [setFut_futs_same, f5, has]
      rw [hloop]
      simp only
      have k2 : ((w1.setFut a { (w1.futs a) with t := v, assigned := true }).futs a).callbacks
          = ids.reverse.map Callback.user := by
        rw [setFut_futs_same]; exact f1
      have hok := set_assigned_cb_users_ok a ids.reverse m _ k2 (by simp; omega)
      refine ⟨hok, ?_⟩
      have hrun : FutureImpl.set_assigned_cb m a
          (w1.setFut a { (w1.futs a) with t := v, assigned := true })
          = (.ok, (FutureImpl.set_assigned_cb m a
              (w1.setFut a { (w1.futs a) with t := v, assigned := true })).2) := by
        rw [← hok]
      rw [set_assigned_cb_users a ids.reverse m _ _ k2 hrun]
      simp [World.setFut, f4]

/-- Witness for C13: a new future with callbacks 1 and 2 registered, then `set(42)`; and
callback 3 registered after the assignment. -/
theorem future_callbacks_notified_once_witness :
    (Future.register_all 5 ⟨some 0, none⟩ ([1, 2].map Callback.user)
      (FutureImpl.ctor 0 0 (World.init (0 : Nat)))).2.trace = [] ∧
    (Future.set 5 ⟨some 0, none⟩ 42
      (Future.register_all 5 ⟨some 0, none⟩ ([1, 2].map Callback.user)
        (FutureImpl.ctor 0 0 (World.init (0 : Nat)))).2).2.trace = [2, 1] ∧
    (Future.register_callback 5 ⟨some 0, none⟩ (.user 3)
      (Future.set 5 ⟨some 0, none⟩ 42 (FutureImpl.ctor 0 0 (World.init (0 : Nat)))).2).2.trace
      = [3] :=
  have key := (future_callbacks_notified_once 5 0
    (FutureImpl.ctor 0 0 (World.init (0 : Nat))) rfl).2 [1, 2] 42 rfl rfl
  have key2 := (future_callbacks_notified_once 5 0
    (Future.set 5 ⟨some 0, none⟩ 42 (FutureImpl.ctor 0 0 (World.init (0 : Nat)))).2
    (by decide)).1 3 (by decide) (by decide)
  ⟨key.2.1, (key.2.2.2 rfl (by decide)).2, by rw [key2]; rfl⟩


/-! ### More claims about `DependencyInterface` -/

section TrackerCalls

/-- Registering any list of callbacks on a pending tracker with room stacks them up. -/
theorem register_all_pending_any (n : Nat) (d : Addr) (cs : List Callback) :
    ∀ (w : World T), (w.deps d).ndepend ≠ 0 →
      (w.deps d).callbacks.elems.length + cs.length ≤ 8 →
      DependencyInterface.register_all (n + 1) d cs w
        = (.ok, w.setDep d { w.deps d with
            callbacks := ⟨cs.reverse ++ (w.deps d).callbacks.elems⟩ }) := by
  induction cs with
  | nil =>
    intro w _ _
    simp [DependencyInterface.register_all, World.setDep]
  | cons c rest ih =>
    intro w h0 hlen
    have hroom : (w.deps d).callbacks.elems.length < 8 := by simp at hlen; omega
    simp only [DependencyInterface.register_all,
      register_callback_pending n d _ w h0 hroom]
    rw [ih]
    · simp [setDep_deps_same, setDep_setDep]
    · simpa [setDep_deps_same] using h0
    · simp [setDep_deps_same] at hlen ⊢
      omega

end TrackerCalls

/-- C12: on a tracker holding fewer than 8 queued callbacks, `register_callback(h)` with
`pending == 0` returns normally having notified `h` at once and exactly once (ahead of
whatever was still queued), and retains nothing: the queue is empty afterwards; with
`pending != 0` it returns normally with `h` added to the queue and nobody notified. -/
theorem register_callback_immediate_or_queued (fuel : Nat) (d : Addr) (h : Nat)
    (qs : List Nat) (w : World T) (hq : (w.deps d).callbacks = ⟨qs.map Callback.user⟩)
    (hlen : qs.length < 8) (hfuel : qs.length + 2 ≤ fuel) :
    ((w.deps d).ndepend = 0 →
      DependencyInterface.register_callback fuel d (.user h) w
        = (.ok, { w.setDep d { ndepend := 0, callbacks := ⟨[]⟩ } with
            trace := w.trace ++ h :: qs })) ∧
    ((w.deps d).ndepend ≠ 0 →
      DependencyInterface.register_callback fuel d (.user h) w
        = (.ok, w.setDep d { w.deps d with
            callbacks := ⟨Callback.user h :: qs.map Callback.user⟩ })) := by
  obtain ⟨n, rfl⟩ : ∃ n, fuel = n + 1 := ⟨fuel - 1, by omega⟩
  have hroom : (w.deps d).callbacks.elems.length < 8 := by rw [hq]; simpa using hlen
  refine ⟨?_, ?_⟩
  · intro h0
    have hpush : (w.deps d).callbacks.push (.user h)
        = some ⟨Callback.user h :: qs.map Callback.user⟩ := by
      simp [Stack.push, Stack.size, DependencyInterface.MAXCALLBACKS, hq, hlen]
    simp only [DependencyInterface.register_callback, hpush, DependencyInterface.probe,
      DependencyInterface.ndep, setDep_deps_same, h0, setDep_setDep, Stack.clear_eq]
    have hlist : (Callback.user h :: qs.map Callback.user) = (h :: qs).map Callback.user := rfl
    simp only [beq_self_eq_true, if_true, hlist]
    rw [do_callbacks_users (h :: qs) (n + 1) _ (by simp; omega)]
    rfl
  · intro h0
    rw [register_callback_pending n d _ w h0 hroom, hq]

/-- Witness for C12: a satisfied tracker notifies callback 7 at once; a tracker with one
pending dependency queues it. -/
theorem register_callback_immediate_or_queued_witness :
    (DependencyInterface.register_callback 2 0 (.user 7)
      (DependencyInterface.ctor 0 0 (World.init (0 : Nat)))).2.trace = [7] ∧
    ((DependencyInterface.register_callback 2 0 (.user 7)
      (DependencyInterface.ctor 0 0 (World.init (0 : Nat)))).2.deps 0).callbacks = ⟨[]⟩ ∧
    (DependencyInterface.register_callback 2 0 (.user 7)
      (DependencyInterface.ctor 0 1 (World.init (0 : Nat)))).2.trace = [] ∧
    ((DependencyInterface.register_callback 2 0 (.user 7)
      (DependencyInterface.ctor 0 1 (World.init (0 : Nat)))).2.deps 0).callbacks
      = ⟨[Callback.user 7]⟩ :=
  have k0 := (register_callback_immediate_or_queued 2 0 7 []
    (DependencyInterface.ctor 0 0 (World.init (0 : Nat))) rfl (by decide) (by decide)).1 rfl
  have k1 := (register_callback_immediate_or_queued 2 0 7 []
    (DependencyInterface.ctor 0 1 (World.init (0 : Nat))) rfl (by decide) (by decide)).2
    (by decide)
  ⟨by rw [k0]; rfl, by rw [k0]; rfl, by rw [k1]; rfl, by rw [k1]; rfl⟩

/-- The count is a 32-bit `int`: `inc()` on a tracker that holds `INT_MAX` leaves
`INT_MIN`. -/
theorem inc_wraps_at_int_max :
    DependencyInterface.ndep
      (DependencyInterface.call 2 0 DepOp.inc
        (DependencyInterface.ctor 0 2147483647 (World.init (0 : Nat)))).2 0
      = -2147483648 := by
  decide

/-- C15 as stated fails: `DependencyInterface(-1)` is constructed without any violation
and holds the count -1. -/
theorem construct_negative_counterexample :
    (DependencyInterface.construct 0 (-1) (World.init (0 : Nat))).1 = .ok ∧
    (DependencyInterface.construct 0 (-1) (World.init (0 : Nat))).1 ≠ .violation ∧
    DependencyInterface.ndep (DependencyInterface.construct 0 (-1) (World.init (0 : Nat))).2 0
      = -1 := by
  decide

/-- C15, amended: constructing a tracker is never rejected: for every initial count,
negative ones included, the constructor returns normally with a tracker holding that
count and no callbacks; a count other than zero is a fatal error only when the tracker is
destroyed. -/
theorem construct_accepts_every_count (d : Addr) (ndep : Int) (w : World T)
    (assertions_throw : Bool) :
    (DependencyInterface.construct d ndep w).1 = .ok ∧
    DependencyInterface.ndep (DependencyInterface.construct d ndep w).2 d = ndep ∧
    ((DependencyInterface.construct d ndep w).2.deps d).callbacks = Stack.mk0 ∧
    ((DependencyInterface.dtor assertions_throw d
        (DependencyInterface.construct d ndep w).2).1 = .violation ↔ ndep ≠ 0) := by
  refine ⟨rfl, ?_, ?_, ?_⟩
  · simp [DependencyInterface.construct, DependencyInterface.ctor, DependencyInterface.ndep,
      setDep_deps_same]
  · simp [DependencyInterface.construct, DependencyInterface.ctor, setDep_deps_same]
  · cases assertions_throw <;>
      simp [DependencyInterface.construct, DependencyInterface.ctor, DependencyInterface.dtor,
        setDep_deps_same] <;>
      split <;> simp_all

/-- C16: destroying a tracker raises the fatal error if and only if its count is not zero
at that moment, under either setting of `MADNESS_ASSERTIONS_THROW`; with a count of zero
the destructor returns normally. -/
theorem dtor_raises_iff_pending (assertions_throw : Bool) (d : Addr) (w : World T) :
    ((DependencyInterface.dtor assertions_throw d w).1 = .violation
      ↔ (w.deps d).ndepend ≠ 0) ∧
    ((DependencyInterface.dtor assertions_throw d w).1 = .ok ↔ (w.deps d).ndepend = 0) := by
  cases assertions_throw <;>
    by_cases h : (w.deps d).ndepend = 0 <;>
    simp [DependencyInterface.dtor, h]

/-- C17: on a tracker with `pending > 0` and an empty queue, the first 8 calls of
`register_callback` return normally and their callbacks are retained (the count is
unchanged), and a 9th call raises the contract violation and leaves the world, with its 8
queued callbacks and the count, exactly as it was. -/
theorem ninth_callback_raises (cs : List Callback) (hcs : cs.length = 8) (c9 : Callback)
    (fuel : Nat) (hfuel : 1 ≤ fuel) (d : Addr) (w : World T)
    (hpend : 0 < (w.deps d).ndepend) (hcb : (w.deps d).callbacks = Stack.mk0) :
    DependencyInterface.register_all fuel d cs w
      = (.ok, w.setDep d { w.deps d with callbacks := ⟨cs.reverse⟩ }) ∧
    DependencyInterface.register_callback fuel d c9
        (DependencyInterface.register_all fuel d cs w).2
      = (.violation, (DependencyInterface.register_all fuel d cs w).2) := by
  obtain ⟨n, rfl⟩ : ∃ n, fuel = n + 1 := ⟨fuel - 1, by omega⟩
  have h0 : (w.deps d).ndepend ≠ 0 := by omega
  have hreg := register_all_pending_any n d cs w h0 (by rw [hcb]; simp [Stack.mk0, hcs])
  rw [hcb] at hreg
  simp only [Stack.mk0, List.append_nil] at hreg
  rw [hreg]
  refine ⟨rfl, ?_⟩
  simp [DependencyInterface.register_callback, setDep_deps_same, Stack.push, Stack.size,
    DependencyInterface.MAXCALLBACKS, hcs]

/-- Witness for C17: eight callbacks on a tracker with one pending dependency, then a
ninth. -/
theorem ninth_callback_raises_witness :
    ((DependencyInterface.register_all 1 0 ([1, 2, 3, 4, 5, 6, 7, 8].map Callback.user)
      (DependencyInterface.ctor 0 1 (World.init (0 : Nat)))).2.deps 0).callbacks
      = ⟨[8, 7, 6, 5, 4, 3, 2, 1].map Callback.user⟩ ∧
    (DependencyInterface.register_callback 1 0 (.user 9)
      (DependencyInterface.register_all 1 0 ([1, 2, 3, 4, 5, 6, 7, 8].map Callback.user)
        (DependencyInterface.ctor 0 1 (World.init (0 : Nat)))).2).1 = .violation :=
  have key := ninth_callback_raises ([1, 2, 3, 4, 5, 6, 7, 8].map Callback.user) rfl (.user 9)
    1 (by decide) 0 (DependencyInterface.ctor 0 1 (World.init (0 : Nat))) (by decide) rfl
  ⟨by rw [key.1]; rfl, by rw [key.2]⟩

/-! ### Claims about remote tasks and remote futures -/

/-- An unassigned future among the arguments makes the evaluation of the `am_arg` calls
fail. -/
theorem am_args_unassigned (w : World T) (h : Future T) (hun : Future.probe w h = false)
    (args : List (TaskArg T)) (hmem : TaskArg.future h ∈ args) :
    WorldTaskQueue.am_args w args = none := by
  induction args with
  | nil => simp at hmem
  | cons a rest ih =>
    rcases List.mem_cons.mp hmem with e | hrest
    · subst e
      simp [WorldTaskQueue.am_args, WorldTaskQueue.am_arg, hun]
    · rw [WorldTaskQueue.am_args, ih hrest]
      cases WorldTaskQueue.am_arg w a <;> rfl

/-- The handler of a set message does on the owner what `set` does there. -/
theorem set_handler_eq_set (fuel : Nat) (ref : RemoteReference) (v : T) (w : World T) :
    FutureImpl.set_handler fuel (.set_handler ref v) w
      = FutureImpl.set (fuel + 1) ref.handle v w := by
  simp only [FutureImpl.set_handler, FutureImpl.set]

/-- C18: for every destination other than the local process, `add(dest, fn, args...)`
with an argument that is a future not yet assigned raises a contract violation and
leaves the world as it was: no message has been handed to the transport. -/
theorem remote_add_unassigned_argument_raises (fuel : Nat) (me : ProcessID) (r t : Addr)
    (t0 : T) (dest : ProcessID) (hdest : dest ≠ me) (func : Nat) (args : List (TaskArg T))
    (attr : Nat) (w : World T) (h : Future T) (hmem : TaskArg.future h ∈ args)
    (hun : Future.probe w h = false) :
    WorldTaskQueue.add_dest fuel me r t t0 dest func args attr w = (.violation, none, w) ∧
    (WorldTaskQueue.add_dest fuel me r t t0 dest func args attr w).2.2.sent = w.sent := by
  have hrun : WorldTaskQueue.add_dest fuel me r t t0 dest func args attr w
      = (.violation, none, w) := by
    simp [WorldTaskQueue.add_dest, hdest, am_args_unassigned w h hun args hmem]
  rw [hrun]
  exact ⟨rfl, rfl⟩

/-- Witness for C18: on process 0, a task for process 1 whose second argument is a new,
unassigned future. -/
theorem remote_add_unassigned_argument_raises_witness :
    (WorldTaskQueue.add_dest 5 0 8 9 0 1 3 [.value 4, .future ⟨some 0, none⟩] 0
      (FutureImpl.ctor 0 0 (World.init (0 : Nat)))).1 = .violation ∧
    (WorldTaskQueue.add_dest 5 0 8 9 0 1 3 [.value 4, .future ⟨some 0, none⟩] 0
      (FutureImpl.ctor 0 0 (World.init (0 : Nat)))).2.2.sent = [] :=
  have key := remote_add_unassigned_argument_raises 5 0 8 9 0 1 (by decide) 3
    [.value 4, .future ⟨some 0, none⟩] 0 (FutureImpl.ctor 0 0 (World.init (0 : Nat)))
    ⟨some 0, none⟩ (List.Mem.tail _ (List.Mem.head _)) rfl
  ⟨by rw [key.1], key.2⟩

/-- C19: for every function, argument list and attribute set, `add(dest, fn, args...)`
with `dest` equal to the rank of the local process ends as the local `add(fn, args...)`
does, returns the same result future and leaves the same world. -/
theorem add_to_local_process_is_local_add (fuel : Nat) (me : ProcessID) (r t : Addr) (t0 : T)
    (func : Nat) (args : List (TaskArg T)) (attr : Nat) (w : World T) :
    WorldTaskQueue.add_dest fuel me r t t0 me func args attr w
      = WorldTaskQueue.add_fn fuel r t t0 func args attr w := by
  simp [WorldTaskQueue.add_dest]

/-- C20: for every value `v`: process `A` holds an unassigned local future `R` (at address
`r`) whose remote reference names `A` and `r`; on another process `B` the future built
from that reference is a new implementation object, and `set(v)` on it returns normally
having handed exactly one message to the transport, the set message for `A` carrying the
reference and `v`; once `set_handler` has run on `A` with that message, `R` is assigned
and `R.get()` returns `v`, and the handler returns normally when nothing is registered
on `R`. -/
theorem remote_set_round_trip (fuel : Nat) (hfuel : 3 ≤ fuel) (A B : ProcessID) (hAB : A ≠ B)
    (r b : Addr) (v t0 : T) (wA wB : World T)
    (hun : (wA.futs r).assigned = false) (hloc : (wA.futs r).remote_ref = none) :
    Future.remote_ref A ⟨some r, none⟩ wA = (.ok, some ⟨A, r⟩) ∧
    (Future.ctor_remote B b t0 ⟨A, r⟩ wB).1 = ⟨some b, none⟩ ∧
    (Future.set fuel (Future.ctor_remote B b t0 ⟨A, r⟩ wB).1 v
      (Future.ctor_remote B b t0 ⟨A, r⟩ wB).2).1 = .ok ∧
    (Future.set fuel (Future.ctor_remote B b t0 ⟨A, r⟩ wB).1 v
      (Future.ctor_remote B b t0 ⟨A, r⟩ wB).2).2.sent
      = wB.sent ++ [(A, AmArg.set_handler ⟨A, r⟩ v)] ∧
    Future.probe (FutureImpl.set_handler fuel (.set_handler ⟨A, r⟩ v) wA).2
      ⟨some r, none⟩ = true ∧
    (Future.get ⟨some r, none⟩
      (FutureImpl.set_handler fuel (.set_handler ⟨A, r⟩ v) wA).2).1 = .value v ∧
    ((wA.futs r).callbacks = [] → (wA.futs r).assignments = Stack.mk0 →
      (FutureImpl.set_handler fuel (.set_handler ⟨A, r⟩ v) wA).1 = .ok) := by
  obtain ⟨m, rfl⟩ : ∃ m, fuel = m + 3 := ⟨fuel - 3, by omega⟩
  have hres : Resolved v r (FutureImpl.set_handler (m + 3) (.set_handler ⟨A, r⟩ v) wA).2 := by
    rw [set_handler_eq_set]
    exact set_resolves (m + 2) r v wA hun hloc
  refine ⟨?_, ?_, ?_, ?_, ?_, ?_, ?_⟩
  · simp [Future.remote_ref, Future.probe, FutureImpl.probe, hun, hloc]
  · simp [Future.ctor_remote, hAB]
  · simp [Future.ctor_remote, hAB, Future.set, FutureImpl.set, FutureImpl.ctor_remote,
      FutureImpl.set_assigned, FutureImpl.set_assigned_as, FutureImpl.set_assigned_cb,
      World.setFut, World.am_send, Stack.mk0]
  · simp [Future.ctor_remote, hAB, Future.set, FutureImpl.set, FutureImpl.ctor_remote,
      FutureImpl.set_assigned, FutureImpl.set_assigned_as, FutureImpl.set_assigned_cb,
      World.setFut, World.am_send, Stack.mk0]
  · simp [Future.probe, FutureImpl.probe, hres.1]
  · simp [Future.get, FutureImpl.get, FutureImpl.probe, hres.1, hres.2.1, hres.2.2]
  · intro hcb has
    rw [set_handler_eq_set]
    rw [set_fresh_ok (m + 1) r v wA hun hloc hcb has]

/-- Witness for C20: process 0 owns a new future at address 0; process 1 builds its
future at address 5 and sets 42; the handler on process 0 assigns the future. -/
theorem remote_set_round_trip_witness :
    (Future.set 3 (Future.ctor_remote 1 5 0 ⟨0, 0⟩ (World.init (0 : Nat))).1 42
      (Future.ctor_remote 1 5 0 ⟨0, 0⟩ (World.init (0 : Nat))).2).2.sent
      = [(0, AmArg.set_handler ⟨0, 0⟩ 42)] ∧
    (Future.get ⟨some 0, none⟩
      (FutureImpl.set_handler 3 (.set_handler ⟨0, 0⟩ 42)
        (FutureImpl.ctor 0 0 (World.init (0 : Nat)))).2).1 = .value 42 ∧
    (FutureImpl.set_handler 3 (.set_handler ⟨0, 0⟩ 42)
      (FutureImpl.ctor 0 0 (World.init (0 : Nat)))).1 = .ok :=
  have key := remote_set_round_trip 3 (by decide) 0 1 (by decide) 0 5 42 0
    (FutureImpl.ctor 0 0 (World.init (0 : Nat))) (World.init (0 : Nat)) rfl rfl
  ⟨key.2.2.2.1, key.2.2.2.2.2.1, key.2.2.2.2.2.2 rfl rfl⟩

/-! ### Claims about remote references, ready tasks and futures made from a value -/

/-- The dependency checks of a `TaskFn` whose future arguments are all assigned change
nothing. -/
theorem check_dependencies_assigned (fuel : Nat) (t : Addr) (args : List (TaskArg T))
    (w : World T) (hargs : ∀ h, TaskArg.future h ∈ args → Future.probe w h = true) :
    TaskFn.check_dependencies fuel t args w = (.ok, w) := by
  induction args with
  | nil => rfl
  | cons a rest ih =>
    have hrest : ∀ h, TaskArg.future h ∈ rest → Future.probe w h = true :=
      fun h hm => hargs h (List.mem_cons_of_mem _ hm)
    cases a with
    | value v => rw [TaskFn.check_dependencies, ih hrest]
    | future h =>
      have hp : Future.probe w h = true := hargs h (List.mem_cons_self _ _)
      rw [TaskFn.check_dependencies]
      simp only [TaskInterface.check_dependency, hp, if_true]
      exact ih hrest

/-- The `am_arg` calls on arguments that are values or assigned local futures all return. -/
theorem am_args_assigned (w : World T) (args : List (TaskArg T))
    (hargs : ∀ h, TaskArg.future h ∈ args →
      Future.probe w h = true ∧ ∀ a, h.f = some a → (w.futs a).remote_ref = none) :
    ∃ vals, WorldTaskQueue.am_args w args = some vals ∧ vals.length = args.length := by
  induction args with
  | nil => exact ⟨[], rfl, rfl⟩
  | cons a rest ih =>
    obtain ⟨vs, hvs, hlen⟩ := ih (fun h hm => hargs h (List.mem_cons_of_mem _ hm))
    have harg : ∃ v, WorldTaskQueue.am_arg w a = some v := by
      cases a with
      | value v => exact ⟨v, rfl⟩
      | future h =>
        obtain ⟨hp, hloc⟩ := hargs h (List.mem_cons_self _ _)
        rcases h with ⟨f, value⟩
        cases f with
        | none =>
          cases value with
          | none => simp [Future.probe] at hp
          | some x => exact ⟨x, by simp [WorldTaskQueue.am_arg, Future.probe, Future.get]⟩
        | some a =>
          have hl := hloc a rfl
          have ha : (w.futs a).assigned = true := by
            simpa [Future.probe, FutureImpl.probe] using hp
          exact ⟨(w.futs a).t, by
            simp [WorldTaskQueue.am_arg, Future.probe, Future.get, FutureImpl.get,
              FutureImpl.probe, hl, ha]⟩
    obtain ⟨v, hv⟩ := harg
    exact ⟨v :: vs, by simp [WorldTaskQueue.am_args, hv, hvs], by simp [hlen]⟩

/-- C23: for every future whose implementation object holds a remote reference (one that
no `set` has consumed yet), `get()` raises a contract violation: it neither waits nor
returns a value, whatever the other fields hold, and the world is left as it was. -/
theorem get_on_remote_reference_raises (a : Addr) (ref : RemoteReference) (w : World T)
    (value : Option T) (href : (w.futs a).remote_ref = some ref) :
    FutureImpl.get w a = .violation ∧
    Future.get ⟨some a, value⟩ w = (.violation, w) := by
  simp [Future.get, FutureImpl.get, href]

/-- Witness for C23: the future a process builds from a reference owned by process 0. -/
theorem get_on_remote_reference_raises_witness :
    (Future.get ⟨some 5, none⟩ (FutureImpl.ctor_remote 5 0 ⟨0, 0⟩ (World.init (0 : Nat)))).1
      = .violation := by
  rw [(get_on_remote_reference_raises 5 ⟨0, 0⟩
    (FutureImpl.ctor_remote 5 0 ⟨0, 0⟩ (World.init (0 : Nat))) none rfl).2]

/-- C30: for every value `v`, the future constructed from `v` has a null implementation
pointer (the constructor allocates nothing: it does not touch the world), `probe()` is
true, `get()` returns `v` and leaves the world as it was, and `register_callback`
is the call of `notify()` on the callback, there and then: a client callback has run
when the call returns. -/
theorem value_future_is_ready (fuel : Nat) (hfuel : 1 ≤ fuel) (v : T) (w : World T) :
    (Future.ctor_value v).f = none ∧
    Future.probe w (Future.ctor_value v) = true ∧
    Future.get (Future.ctor_value v) w = (.value v, w) ∧
    (∀ callback, Future.register_callback fuel (Future.ctor_value v) callback w
      = CallbackInterface.notify fuel callback w) ∧
    (∀ id, Future.register_callback fuel (Future.ctor_value v) (.user id) w
      = (.ok, { w with trace := w.trace ++ [id] })) := by
  obtain ⟨m, rfl⟩ : ∃ m, fuel = m + 1 := ⟨fuel - 1, by omega⟩
  refine ⟨rfl, rfl, rfl, ?_, ?_⟩
  · intro callback
    simp [Future.register_callback, Future.probe, Future.ctor_value]
  · intro id
    simp [Future.register_callback, Future.probe, Future.ctor_value, CallbackInterface.notify]

/-- Witness for C30: the future made from 7, asked for its value and given a callback. -/
theorem value_future_is_ready_witness :
    (Future.get (Future.ctor_value 7) (World.init (0 : Nat))).1 = .value 7 ∧
    (Future.register_callback 1 (Future.ctor_value 7) (.user 3) (World.init (0 : Nat))).2.trace
      = [3] :=
  have key := value_future_is_ready 1 (by decide) 7 (World.init (0 : Nat))
  ⟨by rw [key.2.2.1], by rw [key.2.2.2.2 3]; rfl⟩

/-- C25: for every task whose dependency count is 0 when `add` is called, `add` returns
normally having appended the task to the ready queue of the worker pool, and it touches
neither a tracker (no callback is registered) nor a future; the pending-task counter has
been incremented.  A task made by `add(fn, args...)` from arguments that are values or
assigned futures (or from no argument) is such a task: the call returns the result future,
the task is in the ready queue, its tracker counts 0 and holds no callback, and no
callback has been registered on an argument. -/
theorem add_ready_task_submits_directly (fuel : Nat) (t : Addr) (w : World T)
    (hdep : DependencyInterface.ndep w t = 0) :
    (WorldTaskQueue.add fuel t w).1 = .ok ∧
    (WorldTaskQueue.add fuel t w).2.ready = w.ready ++ [t] ∧
    (WorldTaskQueue.add fuel t w).2.deps = w.deps ∧
    (WorldTaskQueue.add fuel t w).2.futs = w.futs ∧
    (WorldTaskQueue.add fuel t w).2.nregistered = w.nregistered.post_inc.2 ∧
    (∀ (r : Addr) (t0 : T) (func : Nat) (args : List (TaskArg T)) (attr : Nat),
      (∀ h, TaskArg.future h ∈ args → Future.probe w h = true ∧ h.f ≠ some r) →
      (WorldTaskQueue.add_fn fuel r t t0 func args attr w).1 = .ok ∧
      (WorldTaskQueue.add_fn fuel r t t0 func args attr w).2.1 = some ⟨some r, none⟩ ∧
      (WorldTaskQueue.add_fn fuel r t t0 func args attr w).2.2.ready = w.ready ++ [t] ∧
      (WorldTaskQueue.add_fn fuel r t t0 func args attr w).2.2.deps t = ⟨0, Stack.mk0⟩ ∧
      (WorldTaskQueue.add_fn fuel r t t0 func args attr w).2.2.futs
        = (FutureImpl.ctor r t0 w).futs) := by
  have hdep' : (w.deps t).ndepend = 0 := hdep
  have hadd : WorldTaskQueue.add fuel t w
      = (.ok, ThreadPool.add t { w with nregistered := w.nregistered.post_inc.2 }) := by
    simp [WorldTaskQueue.add, DependencyInterface.ndep, hdep']
  refine ⟨by rw [hadd], by rw [hadd]; rfl, by rw [hadd]; rfl, by rw [hadd]; rfl,
    by rw [hadd]; rfl, ?_⟩
  intro r t0 func args attr hargs
  have hprobe : ∀ h, TaskArg.future h ∈ args →
      Future.probe ({ DependencyInterface.ctor t 0 (Future.ctor r t0 w).2 with
        tasks := Function.update (Future.ctor r t0 w).2.tasks t
          (some ⟨(Future.ctor r t0 w).1, func, args, attr⟩) } : World T) h = true := by
    intro h hm
    obtain ⟨hp, hr⟩ := hargs h hm
    rcases h with ⟨f, value⟩
    cases f with
    | none => simpa [Future.probe] using hp
    | some a =>
      have har : a ≠ r := fun e => hr (by rw [e])
      simpa [Future.probe, FutureImpl.probe, Future.ctor, FutureImpl.ctor,
        DependencyInterface.ctor, World.setFut, World.setDep, Function.update, har] using hp
  have hrun : WorldTaskQueue.add_fn fuel r t t0 func args attr w
      = (.ok, some ⟨some r, none⟩,
          ThreadPool.add t
            { ({ DependencyInterface.ctor t 0 (Future.ctor r t0 w).2 with
                  tasks := Function.update (Future.ctor r t0 w).2.tasks t
                    (some ⟨(Future.ctor r t0 w).1, func, args, attr⟩) } : World T) with
              nregistered := w.nregistered.post_inc.2 }) := by
    rw [WorldTaskQueue.add_fn, TaskFn.ctor]
    dsimp only
    rw [check_dependencies_assigned fuel t args _ hprobe]
    simp [WorldTaskQueue.add_task, WorldTaskQueue.add, DependencyInterface.ndep,
      DependencyInterface.ctor, World.setDep, Future.ctor, FutureImpl.ctor, World.setFut]
  rw [hrun]
  refine ⟨rfl, rfl, rfl, ?_, rfl⟩
  simp [ThreadPool.add, DependencyInterface.ctor, World.setDep]

/-- Witness for C25: a task with no argument and a task whose only argument is a future
made from a value, both added to an empty queue. -/
theorem add_ready_task_submits_directly_witness :
    (WorldTaskQueue.add 0 9 (World.init (0 : Nat))).2.ready = [9] ∧
    (WorldTaskQueue.add_fn 0 8 9 0 3 [.future (Future.ctor_value 5)] 0
      (World.init (0 : Nat))).2.2.ready = [9] :=
  have key := add_ready_task_submits_directly 0 9 (World.init (0 : Nat)) rfl
  ⟨key.2.1, (key.2.2.2.2.2 8 0 3 [.future (Future.ctor_value 5)] 0 (by
    intro h hm
    simp only [List.mem_singleton, TaskArg.future.injEq] at hm
    subst hm
    exact ⟨rfl, by simp [Future.ctor_value]⟩)).2.2.1⟩

/-- C22: for every destination other than the local process and every argument list in
which each future is assigned (an assigned future holds no remote reference, `set` has
consumed it): `add(dest, fn, args...)` returns normally with the new result future, which
is not assigned; exactly one message has been handed to the transport, the spawn message
for `dest` carrying the reference of the result future, the function, the attributes and
the values of the arguments; and no local task has been registered: the pending-task
counter, the ready queue, the task table and the trackers are as they were. -/
theorem remote_add_sends_one_spawn_message (fuel : Nat) (me : ProcessID) (r t : Addr)
    (t0 : T) (dest : ProcessID) (hdest : dest ≠ me) (func : Nat) (args : List (TaskArg T))
    (attr : Nat) (w : World T)
    (hargs : ∀ h, TaskArg.future h ∈ args →
      Future.probe w h = true ∧ ∀ a, h.f = some a → (w.futs a).remote_ref = none) :
    ∃ vals, WorldTaskQueue.am_args w args = some vals ∧ vals.length = args.length ∧
      (WorldTaskQueue.add_dest fuel me r t t0 dest func args attr w).1 = .ok ∧
      (WorldTaskQueue.add_dest fuel me r t t0 dest func args attr w).2.1
        = some ⟨some r, none⟩ ∧
      (WorldTaskQueue.add_dest fuel me r t t0 dest func args attr w).2.2.sent
        = w.sent ++ [(dest, AmArg.spawn_remote_task_handler ⟨me, r⟩ func attr vals)] ∧
      Future.probe (WorldTaskQueue.add_dest fuel me r t t0 dest func args attr w).2.2
        ⟨some r, none⟩ = false ∧
      WorldTaskQueue.size (WorldTaskQueue.add_dest fuel me r t t0 dest func args attr w).2.2
        = WorldTaskQueue.size w ∧
      (WorldTaskQueue.add_dest fuel me r t t0 dest func args attr w).2.2.ready = w.ready ∧
      (WorldTaskQueue.add_dest fuel me r t t0 dest func args attr w).2.2.tasks = w.tasks ∧
      (WorldTaskQueue.add_dest fuel me r t t0 dest func args attr w).2.2.deps = w.deps := by
  obtain ⟨vals, hvals, hlen⟩ := am_args_assigned w args hargs
  have hrun : WorldTaskQueue.add_dest fuel me r t t0 dest func args attr w
      = (.ok, some ⟨some r, none⟩,
          (FutureImpl.ctor r t0 w).am_send dest
            (.spawn_remote_task_handler ⟨me, r⟩ func attr vals)) := by
    simp [WorldTaskQueue.add_dest, hdest, hvals, WorldTaskQueue.send_task, Future.remote_ref,
      Future.ctor, Future.probe, FutureImpl.probe, FutureImpl.ctor, World.setFut]
  refine ⟨vals, hvals, hlen, ?_⟩
  rw [hrun]
  refine ⟨rfl, rfl, rfl, ?_, rfl, rfl, rfl, rfl⟩
  simp [Future.probe, FutureImpl.probe, FutureImpl.ctor, World.setFut, World.am_send]

/-- Witness for C22: on process 0, a task for process 1 with a value and an assigned
future as arguments. -/
theorem remote_add_sends_one_spawn_message_witness :
    ∃ vals, WorldTaskQueue.am_args (World.init (0 : Nat))
        [.value 4, .future (Future.ctor_value 6)] = some vals ∧
      (WorldTaskQueue.add_dest 0 0 8 9 0 1 3 [.value 4, .future (Future.ctor_value 6)] 0
        (World.init (0 : Nat))).2.2.sent
        = [(1, AmArg.spawn_remote_task_handler ⟨0, 8⟩ 3 0 vals)] :=
  have key := remote_add_sends_one_spawn_message 0 0 8 9 0 1 (by decide) 3
    [.value 4, .future (Future.ctor_value 6)] 0 (World.init (0 : Nat)) (by
      intro h hm
      simp at hm
      subst hm
      exact ⟨rfl, by simp [Future.ctor_value]⟩)
  key.elim fun vals hk => ⟨vals, hk.1, hk.2.2.2.2.1⟩

/-! ### Claims about the pending-task counter -/

theorem wrap32_wrap32_add (a b : Int) : wrap32 (wrap32 a + b) = wrap32 (a + b) := by
  unfold wrap32
  omega

theorem wrap32_wrap32 (a : Int) : wrap32 (wrap32 a) = wrap32 a := by
  unfold wrap32
  omega

theorem wrap32_of_fits (x : Int) (hlo : -2 ^ 31 ≤ x) (hhi : x < 2 ^ 31) : wrap32 x = x := by
  unfold wrap32
  omega

/-- What `size()` reads is 0 exactly when the counter is 0. -/
theorem size_eq_zero_iff (w : World T) :
    WorldTaskQueue.size w = 0 ↔ w.nregistered.load = 0 := by
  unfold WorldTaskQueue.size wrap32
  split <;> omega

/-- What `size()` reads of a counter that is not negative. -/
theorem size_of_nonneg (w : World T) (h : 0 ≤ w.nregistered.load) :
    WorldTaskQueue.size w = w.nregistered.load := by
  rw [WorldTaskQueue.size, if_pos h]

/-- The call of `add` increments the pending-task counter once, however it ends. -/
theorem add_counter (fuel : Nat) (t : Addr) (w : World T) :
    (WorldTaskQueue.add fuel t w).2.nregistered.load = wrap32 (w.nregistered.load + 1) := by
  rw [WorldTaskQueue.add]
  split
  · rfl
  · rename_i hnd
    rw [TaskInterface.register_submit_callback, DependencyInterface.register_callback]
    split
    · rfl
    · dsimp only
      split
      · rename_i hp
        exact absurd (by simpa [DependencyInterface.probe, DependencyInterface.ndep,
          World.setDep] using hp) hnd
      · cases fuel with
        | zero => rfl
        | succ m =>
          rw [show (Stack.mk0 : Stack Callback DependencyInterface.MAXCALLBACKS) = ⟨[]⟩
            from rfl, do_callbacks_nil]
          rfl

/-- The notification of the queue by a completed task decrements the counter once. -/
theorem complete_counter (fuel : Nat) (hfuel : 1 ≤ fuel) (w : World T) :
    (CallbackInterface.notify fuel .taskq w).2.nregistered.load
      = wrap32 (w.nregistered.load - 1) := by
  obtain ⟨m, rfl⟩ : ∃ m, fuel = m + 1 := ⟨fuel - 1, by omega⟩
  rfl

/-- The counter after a sequence of calls, as a 32-bit `int`. -/
theorem run_counter (fuel : Nat) (hfuel : 1 ≤ fuel) (ops : List QueueOp) :
    ∀ w : World T, wrap32 w.nregistered.load = w.nregistered.load →
      (WorldTaskQueue.run fuel ops w).nregistered.load
        = wrap32 (w.nregistered.load + QueueOp.adds ops - QueueOp.completions ops) := by
  induction ops with
  | nil =>
    intro w hw
    simp [WorldTaskQueue.run, QueueOp.adds, QueueOp.completions, hw]
  | cons op rest ih =>
    intro w _
    rw [WorldTaskQueue.run]
    cases op with
    | add t =>
      have hs := add_counter fuel t w
      have ha : QueueOp.adds (QueueOp.add t :: rest) = QueueOp.adds rest + 1 := by
        simp [QueueOp.adds]
      have hc : QueueOp.completions (QueueOp.add t :: rest) = QueueOp.completions rest := by
        simp [QueueOp.completions]
      rw [ih _ (by rw [WorldTaskQueue.call, hs, wrap32_wrap32]), WorldTaskQueue.call, hs,
        ha, hc]
      unfold wrap32
      push_cast
      omega
    | complete =>
      have hs := complete_counter fuel hfuel w
      have ha : QueueOp.adds (QueueOp.complete :: rest) = QueueOp.adds rest := by
        simp [QueueOp.adds]
      have hc : QueueOp.completions (QueueOp.complete :: rest)
          = QueueOp.completions rest + 1 := by
        simp [QueueOp.completions]
      rw [ih _ (by rw [WorldTaskQueue.call, hs, wrap32_wrap32]), WorldTaskQueue.call, hs,
        ha, hc]
      unfold wrap32
      push_cast
      omega

/-- A completion notification on a queue whose counter is 0 leaves the counter at -1, which
`size()` reads as `2^64 - 1`. -/
theorem size_of_negative_counter :
    (WorldTaskQueue.run 1 [.complete] (World.init (0 : Nat))).nregistered.load = -1 ∧
    WorldTaskQueue.size (WorldTaskQueue.run 1 [.complete] (World.init (0 : Nat)))
      = 18446744073709551615 := by
  decide

/-- C27: for every sequence of local `add` calls and completion notifications on a task
queue whose counter starts at 0, in which no more tasks complete than were added and
fewer than `2^31` tasks are left pending (the counter is a 32-bit `int`): `size()` after
the sequence is the number of tasks added minus the number completed.  Every `add`
increments the counter exactly once, whether the task is ready, waits for its
dependencies, or the call ends in an exception; every completion notification decrements
it exactly once. -/
theorem size_is_added_minus_completed (fuel : Nat) (hfuel : 1 ≤ fuel) (ops : List QueueOp)
    (w : World T) (h0 : WorldTaskQueue.size w = 0)
    (hlo : QueueOp.completions ops ≤ QueueOp.adds ops)
    (hhi : (QueueOp.adds ops : Int) - QueueOp.completions ops < 2 ^ 31) :
    WorldTaskQueue.size (WorldTaskQueue.run fuel ops w)
      = (QueueOp.adds ops : Int) - QueueOp.completions ops ∧
    (∀ (t : Addr) (w1 : World T), (WorldTaskQueue.add fuel t w1).2.nregistered.load
      = wrap32 (w1.nregistered.load + 1)) ∧
    (∀ w1 : World T, (CallbackInterface.notify fuel .taskq w1).2.nregistered.load
      = wrap32 (w1.nregistered.load - 1)) := by
  refine ⟨?_, fun t w1 => add_counter fuel t w1, fun w1 => complete_counter fuel hfuel w1⟩
  have hz := (size_eq_zero_iff w).mp h0
  have hrun := run_counter fuel hfuel ops w (by rw [hz]; rfl)
  rw [hz, zero_add, wrap32_of_fits _ (by omega) hhi] at hrun
  rw [size_of_nonneg _ (by rw [hrun]; omega), hrun]

/-- Witness for C27: a ready task and a task with one dependency are added, then one task
completes: one task is pending. -/
theorem size_is_added_minus_completed_witness :
    WorldTaskQueue.size (WorldTaskQueue.run 1 [.add 1, .add 2, .complete]
      (DependencyInterface.ctor 2 1 (World.init (0 : Nat)))) = 1 :=
  (size_is_added_minus_completed 1 (by decide) [.add 1, .add 2, .complete]
    (DependencyInterface.ctor 2 1 (World.init (0 : Nat))) rfl (by decide) (by decide)).1

/-! ### Claims about `set` on a future that wraps a remote reference -/

/-- Notifications hand nothing to the transport. -/
theorem notify_sent (n : Nat) :
    (∀ (c : Callback) (w : World T), (CallbackInterface.notify n c w).2.sent = w.sent) ∧
    (∀ (cb : Stack Callback DependencyInterface.MAXCALLBACKS) (w : World T),
      (DependencyInterface.do_callbacks n cb w).2.sent = w.sent) ∧
    (∀ (d : Addr) (w : World T), (DependencyInterface.dec n d w).2.sent = w.sent) := by
  induction n with
  | zero =>
    refine ⟨?_, ?_, ?_⟩ <;> intros <;>
      simp [CallbackInterface.notify, DependencyInterface.do_callbacks, DependencyInterface.dec]
  | succ n ih =>
    obtain ⟨ih1, ih2, ih3⟩ := ih
    refine ⟨?_, ?_, ?_⟩
    · intro c w
      cases c <;> simp [CallbackInterface.notify, ih3, ThreadPool.add]
    · intro cb w
      rw [DependencyInterface.do_callbacks]
      split
      · rfl
      · split
        · rename_i c rest _ _
          have h1 := ih1 c w
          rcases hnot : CallbackInterface.notify n c w with ⟨o, w1⟩
          rw [hnot] at h1
          cases o
          · simp only
            rw [ih2]
            exact h1
          all_goals exact h1
        · rfl
    · intro d w
      rw [DependencyInterface.dec]
      split <;> rw [ih2] <;> rfl

/-- The calls of `set` and its loops only append to the messages handed to the
transport. -/
theorem set_sent_grows (v : T) (n : Nat) :
    (∀ (a : Addr) (w : World T), ∃ l, (FutureImpl.set n a v w).2.sent = w.sent ++ l) ∧
    (∀ (a : Addr) (w : World T),
      ∃ l, (FutureImpl.set_assigned n a v w).2.sent = w.sent ++ l) ∧
    (∀ (a : Addr) (w : World T),
      ∃ l, (FutureImpl.set_assigned_as n a v w).2.sent = w.sent ++ l) ∧
    (∀ (a : Addr) (w : World T),
      ∃ l, (FutureImpl.set_assigned_cb n a w).2.sent = w.sent ++ l) := by
  induction n with
  | zero =>
    refine ⟨?_, ?_, ?_, ?_⟩ <;> intros <;> exact ⟨[], by
      simp [FutureImpl.set, FutureImpl.set_assigned, FutureImpl.set_assigned_as,
        FutureImpl.set_assigned_cb]⟩
  | succ n ih =>
    obtain ⟨ih1, ih2, ih3, ih4⟩ := ih
    refine ⟨?_, ?_, ?_, ?_⟩
    · intro a w
      rw [FutureImpl.set]
      split
      · rename_i ref _
        obtain ⟨l, h⟩ := ih2 a ((w.am_send ref.owner (.set_handler ref v)).setFut a
          { w.futs a with remote_ref := none })
        exact ⟨(ref.owner, .set_handler ref v) :: l, by
          rw [h]; simp [World.am_send, World.setFut]⟩
      · obtain ⟨l, h⟩ := ih2 a (w.setFut a { w.futs a with t := v })
        exact ⟨l, h⟩
    · intro a w
      rw [FutureImpl.set_assigned]
      split
      · exact ⟨[], by simp⟩
      · obtain ⟨l1, h1⟩ := ih3 a (w.setFut a { w.futs a with assigned := true })
        rcases hrun : FutureImpl.set_assigned_as n a v
            (w.setFut a { w.futs a with assigned := true }) with ⟨o, w1⟩
        rw [hrun] at h1
        cases o
        · obtain ⟨l2, h2⟩ := ih4 a w1
          refine ⟨l1 ++ l2, ?_⟩
          simp only
          rw [h2, h1, List.append_assoc]
          rfl
        all_goals exact ⟨l1, h1⟩
    · intro a w
      rw [FutureImpl.set_assigned_as]
      split
      · exact ⟨[], by simp⟩
      · split
        · exact ⟨[], by simp⟩
        · rename_i y _
          obtain ⟨l1, h1⟩ := ih1 y w
          rcases hrun : FutureImpl.set n y v w with ⟨o, w1⟩
          rw [hrun] at h1
          cases o
          · simp only
            split
            · exact ⟨l1, h1⟩
            · rename_i rest _
              obtain ⟨l2, h2⟩ := ih3 a (w1.setFut a { w1.futs a with assignments := rest })
              refine ⟨l1 ++ l2, ?_⟩
              rw [h2, ← List.append_assoc, ← h1]
              rfl
          all_goals exact ⟨l1, h1⟩
    · intro a w
      rw [FutureImpl.set_assigned_cb]
      split
      · exact ⟨[], by simp⟩
      · rename_i c _ _
        have h1 := (notify_sent n).1 c w
        rcases hrun : CallbackInterface.notify n c w with ⟨o, w1⟩
        rw [hrun] at h1
        cases o
        · simp only
          obtain ⟨l2, h2⟩ := ih4 a
            (w1.setFut a { w1.futs a with callbacks := (w1.futs a).callbacks.tail })
          refine ⟨l2, ?_⟩
          rw [h2, ← h1]
          rfl
        all_goals exact ⟨[], by simpa using h1⟩

/-- The second loop of `set_assigned` stores no value and hands nothing to the
transport. -/
theorem set_assigned_cb_keeps_value (n : Nat) :
    ∀ (a : Addr) (w : World T),
      (∀ z, ((FutureImpl.set_assigned_cb n a w).2.futs z).t = (w.futs z).t) ∧
      (FutureImpl.set_assigned_cb n a w).2.sent = w.sent := by
  induction n with
  | zero =>
    intro a w
    simp [FutureImpl.set_assigned_cb]
  | succ n ih =>
    intro a w
    rw [FutureImpl.set_assigned_cb]
    split
    · exact ⟨fun _ => rfl, rfl⟩
    · rename_i c _ _
      have h1 := (notify_sent n).1 c w
      have h2 := (notify_futs n).1 c w
      rcases hrun : CallbackInterface.notify n c w with ⟨o, w1⟩
      rw [hrun] at h1 h2
      simp only at h1 h2
      cases o
      · simp only
        obtain ⟨i1, i2⟩ := ih a
          (w1.setFut a { w1.futs a with callbacks := (w1.futs a).callbacks.tail })
        refine ⟨fun z => ?_, ?_⟩
        · rw [i1 z, ← h2]
          by_cases hz : z = a
          · subst hz
            rw [setFut_futs_same]
          · rw [setFut_futs_other _ _ _ _ hz]
        · rw [i2, ← h1]
          rfl
      all_goals exact ⟨fun z => by rw [h2], h1⟩

/-- The first loop of `set_assigned`, when it returns normally, leaves the value stored in
its own future as it was. -/
theorem set_assigned_as_keeps_value (v : T) (n : Nat) :
    ∀ (a : Addr) (w w1 : World T), FutureImpl.set_assigned_as n a v w = (.ok, w1) →
      (w.futs a).assigned = true → (w1.futs a).t = (w.futs a).t := by
  induction n with
  | zero =>
    intro a w w1 h
    simp [FutureImpl.set_assigned_as] at h
  | succ n ih =>
    intro a w w1 h ha
    rw [FutureImpl.set_assigned_as] at h
    split at h
    · obtain rfl : w = w1 := by simpa using h
      rfl
    · split at h
      · simp at h
      · rename_i top _
        rcases hrun : FutureImpl.set n top v w with ⟨o, w2⟩
        rw [hrun] at h
        cases o
        · simp only at h
          obtain ⟨_, htouch⟩ := (ok_footprint v n).1 top w w2 hrun
          have hsame : w2.futs a = w.futs a := by
            rcases htouch a with e | ⟨hu, _⟩
            · exact e
            · rw [ha] at hu
              cases hu
          split at h
          · simp at h
          · have h1 := ih a _ w1 h (by rw [setFut_futs_same, hsame]; exact ha)
            rw [setFut_futs_same, hsame] at h1
            exact h1
        all_goals simp at h

/-- The first loop of `set_assigned` on a future with no chained future changes nothing. -/
theorem set_assigned_as_no_chain (v : T) (n : Nat) (a : Addr) (w : World T)
    (has : (w.futs a).assignments = Stack.mk0) :
    (FutureImpl.set_assigned_as n a v w).2 = w := by
  cases n with
  | zero => rfl
  | succ n => simp [FutureImpl.set_assigned_as, has]
/-- C21: for every future whose implementation object holds a remote reference `ref` and
every value `v`: `set(v)` hands the set message carrying `ref` and `v` to the transport,
addressed to the owner of `ref`, before anything else, and whatever else is handed over
afterwards comes from the `set` calls on chained futures (`others`); a call that returns
normally has not stored into the local `t`.  With no chained future the transport has
been handed exactly that one message and `t` is as it was, however the call ends; and on
an unassigned future with nothing registered the call returns normally. -/
theorem remote_set_sends_one_message (fuel : Nat) (hfuel : 1 ≤ fuel) (a : Addr)
    (ref : RemoteReference) (v : T) (w : World T) (value : Option T)
    (href : (w.futs a).remote_ref = some ref) :
    (∃ others, (Future.set fuel ⟨some a, value⟩ v w).2.sent
        = w.sent ++ (ref.owner, AmArg.set_handler ref v) :: others) ∧
    ((Future.set fuel ⟨some a, value⟩ v w).1 = .ok →
      ((Future.set fuel ⟨some a, value⟩ v w).2.futs a).t = (w.futs a).t) ∧
    ((w.futs a).assignments = Stack.mk0 →
      (Future.set fuel ⟨some a, value⟩ v w).2.sent
        = w.sent ++ [(ref.owner, AmArg.set_handler ref v)] ∧
      ((Future.set fuel ⟨some a, value⟩ v w).2.futs a).t = (w.futs a).t) ∧
    ((w.futs a).assigned = false → (w.futs a).assignments = Stack.mk0 →
      (w.futs a).callbacks = [] → 3 ≤ fuel →
      (Future.set fuel ⟨some a, value⟩ v w).1 = .ok) := by
  obtain ⟨m, rfl⟩ : ∃ m, fuel = m + 1 := ⟨fuel - 1, by omega⟩
  obtain ⟨S1, hS1⟩ : ∃ S1 : World T, S1 = (w.am_send ref.owner (.set_handler ref v)).setFut a
      { w.futs a with remote_ref := none } := ⟨_, rfl⟩
  have hset : Future.set (m + 1) ⟨some a, value⟩ v w = FutureImpl.set_assigned m a v S1 := by
    rw [hS1]
    simp only [Future.set, FutureImpl.set, href]
  have hsent1 : S1.sent = w.sent ++ [(ref.owner, AmArg.set_handler ref v)] := by
    rw [hS1]; rfl
  have ht1 : (S1.futs a).t = (w.futs a).t := by
    rw [hS1, setFut_futs_same]
  have has1 : (S1.futs a).assignments = (w.futs a).assignments := by
    rw [hS1, setFut_futs_same]
  have hun1 : (S1.futs a).assigned = (w.futs a).assigned := by
    rw [hS1, setFut_futs_same]
  rw [hset]
  refine ⟨?_, ?_, ?_, ?_⟩
  · obtain ⟨l, hl⟩ := (set_sent_grows v m).2.1 a S1
    exact ⟨l, by rw [hl, hsent1, List.append_assoc]; rfl⟩
  · intro hok
    cases m with
    | zero => simp [FutureImpl.set_assigned] at hok
    | succ k =>
      rw [FutureImpl.set_assigned] at hok ⊢
      split at hok
      · simp at hok
      · rename_i hna
        rw [if_neg hna]
        rcases hrun : FutureImpl.set_assigned_as k a v
            (S1.setFut a { S1.futs a with assigned := true }) with ⟨o, w3⟩
        rw [hrun] at hok
        cases o
        · simp only
          rw [(set_assigned_cb_keeps_value k a w3).1 a,
            set_assigned_as_keeps_value v k a _ w3 hrun (by rw [setFut_futs_same]),
            setFut_futs_same]
          exact ht1
        all_goals simp at hok
  · intro has
    cases m with
    | zero => exact ⟨hsent1, ht1⟩
    | succ k =>
      rw [FutureImpl.set_assigned]
      split
      · exact ⟨hsent1, ht1⟩
      · have hnc := set_assigned_as_no_chain v k a
          (S1.setFut a { S1.futs a with assigned := true })
          (by rw [setFut_futs_same]; exact has1.trans has)
        rcases hrun : FutureImpl.set_assigned_as k a v
            (S1.setFut a { S1.futs a with assigned := true }) with ⟨o, w3⟩
        rw [hrun] at hnc
        simp only at hnc
        subst hnc
        cases o
        · simp only
          rw [(set_assigned_cb_keeps_value k a _).1 a, (set_assigned_cb_keeps_value k a _).2,
            setFut_futs_same]
          exact ⟨hsent1, ht1⟩
        all_goals exact ⟨hsent1, by rw [setFut_futs_same]; exact ht1⟩
  · intro hun has hcb h3
    obtain ⟨k, rfl⟩ : ∃ k, m = k + 2 := ⟨m - 2, by omega⟩
    have hcb1 : (S1.futs a).callbacks = [] := by
      rw [hS1, setFut_futs_same]; exact hcb
    simp [FutureImpl.set_assigned, FutureImpl.set_assigned_as, FutureImpl.set_assigned_cb,
      hun1, hun, has1, has, hcb1, setFut_futs_same]

/-- Witness for C21: the future at address 5 wraps a reference owned by process 0; `set(42)`
sends one message to process 0 and leaves the local storage at its initial 0. -/
theorem remote_set_sends_one_message_witness :
    (Future.set 3 ⟨some 5, none⟩ 42
      (FutureImpl.ctor_remote 5 0 ⟨0, 0⟩ (World.init (0 : Nat)))).2.sent
      = [(0, AmArg.set_handler ⟨0, 0⟩ 42)] ∧
    ((Future.set 3 ⟨some 5, none⟩ 42
      (FutureImpl.ctor_remote 5 0 ⟨0, 0⟩ (World.init (0 : Nat)))).2.futs 5).t = 0 ∧
    (Future.set 3 ⟨some 5, none⟩ 42
      (FutureImpl.ctor_remote 5 0 ⟨0, 0⟩ (World.init (0 : Nat)))).1 = .ok :=
  have key := remote_set_sends_one_message 3 (by decide) 5 ⟨0, 0⟩ 42
    (FutureImpl.ctor_remote 5 0 ⟨0, 0⟩ (World.init (0 : Nat))) none rfl
  ⟨(key.2.2.1 rfl).1, (key.2.2.1 rfl).2, key.2.2.2 rfl rfl rfl (by decide)⟩

/-! ### Claims about `for_each` -/

/-- The loop of a leaf task counts the elements on which the operation returns true. -/
theorem leaf_status_count {α : Type} (op : α → Bool) (items : List α) (status : Int) :
    items.foldl (fun (status : Int) it => if op it then status + 1 else status) status
      = status + items.countP op := by
  induction items generalizing status with
  | nil => simp
  | cons x rest ih =>
    rw [List.foldl_cons, ih, List.countP_cons]
    by_cases hx : op x = true
    · simp [hx]; ring
    · simp [hx]

/-- With enough depth the tasks all complete, and their statuses add up to the number of
elements on which the operation returns true. -/
theorem for_each_statuses {α : Type} (cut : Nat → Nat) (op : α → Bool) (chunk : Nat)
    (hcut : ∀ m, chunk < m → 0 < cut m ∧ cut m < m) (fuel : Nat) :
    ∀ items : List α, items.length < fuel →
      ∃ statuses, ForEachTask.run cut op fuel ⟨items, chunk⟩ = some statuses ∧
        statuses.sum = items.countP op := by
  induction fuel with
  | zero => intro items h; omega
  | succ n ih =>
    intro items hlen
    rw [ForEachTask.run]
    by_cases hsz : (⟨items, chunk⟩ : Range α).size > (⟨items, chunk⟩ : Range α).get_chunksize
    · rw [if_pos hsz]
      have hsz' : chunk < items.length := hsz
      obtain ⟨hc0, hc1⟩ := hcut _ hsz'
      obtain ⟨sr, hr, hrs⟩ := ih (items.drop (cut items.length))
        (by rw [List.length_drop]; omega)
      obtain ⟨sl, hl, hls⟩ := ih (items.take (cut items.length))
        (by rw [List.length_take]; omega)
      refine ⟨sl ++ sr, ?_, ?_⟩
      · simp only [Range.split, Range.size]
        rw [hr, hl]
      · rw [List.sum_append, hls, hrs, ← Nat.cast_add, ← List.countP_append,
          List.take_append_drop]
    · rw [if_neg hsz]
      exact ⟨_, rfl, by simp [leaf_status_count]⟩

/-- The counter of the root task after the tasks have completed. -/
theorem root_status_fold (completions : List Int) :
    ∀ x : Int, (completions.foldl ForEachRootTask.complete ⟨wrap32 x⟩).value
      = wrap32 (x + completions.sum) := by
  induction completions with
  | nil => intro x; simp
  | cons s rest ih =>
    intro x
    rw [List.foldl_cons]
    have e : ForEachRootTask.complete ⟨wrap32 x⟩ s = ⟨wrap32 (x + s)⟩ := by
      simp [ForEachRootTask.complete, AtomicInt.add_assign, AtomicInt.exchange_and_add,
        wrap32_wrap32_add]
    rw [e, ih, List.sum_cons, add_assoc]

/-- C24: for every range of fewer than `2^31` elements (its size is an `int`), every chunk
size `≥ 1`, every way of cutting ranges in two and every operation `op`: with enough
depth `for_each(range, op)` resolves, and it resolves to true exactly when `op` returns
true on every element of the range (to true on an empty range), whatever the chunk size;
and the value is the same in whatever order the tasks call `complete`. -/
theorem for_each_all_true {α : Type} (op : α → Bool) (items : List α)
    (hsize : items.length < 2 ^ 31) (chunk : Nat) (_hchunk : 1 ≤ chunk) (cut : Nat → Nat)
    (hcut : ∀ m, chunk < m → 0 < cut m ∧ cut m < m) (fuel : Nat)
    (hfuel : items.length < fuel) :
    WorldTaskQueue.for_each cut op fuel ⟨items, chunk⟩ = some (items.all op) ∧
    (WorldTaskQueue.for_each cut op fuel ⟨items, chunk⟩ = some true ↔
      ∀ x ∈ items, op x = true) ∧
    ∃ statuses, ForEachTask.run cut op fuel ⟨items, chunk⟩ = some statuses ∧
      ∀ arrival : List Int, arrival.Perm statuses →
        ForEachRootTask.result ⟨items, chunk⟩ arrival = items.all op := by
  obtain ⟨statuses, hrun, hsum⟩ := for_each_statuses cut op chunk hcut fuel items hfuel
  have hres : ∀ arrival : List Int, arrival.Perm statuses →
      ForEachRootTask.result ⟨items, chunk⟩ arrival = items.all op := by
    intro arrival hperm
    have hle : items.countP op ≤ items.length := List.countP_le_length _
    rw [ForEachRootTask.result, ForEachRootTask.run, AtomicInt.load, ForEachRootTask.ctor,
      AtomicInt.assign, root_status_fold, hperm.sum_eq, hsum, Range.size]
    rw [Bool.eq_iff_iff, List.all_eq_true, beq_iff_eq, ← List.countP_eq_length]
    dsimp only
    unfold wrap32
    omega
  have hfe : WorldTaskQueue.for_each cut op fuel ⟨items, chunk⟩ = some (items.all op) := by
    rw [WorldTaskQueue.for_each, hrun]
    simp only
    rw [hres statuses (List.Perm.refl _)]
  refine ⟨hfe, ?_, statuses, hrun, hres⟩
  rw [hfe]
  simp [List.all_eq_true]

/-- Witness for C24: the test "is even" on `2, 4, 6` and on `2, 3, 6`, with chunk sizes 1
and 10. -/
theorem for_each_all_true_witness :
    WorldTaskQueue.for_each (fun m => (m + 1) / 2) (fun x : Nat => x % 2 == 0) 4 ⟨[2, 4, 6], 1⟩
      = some true ∧
    WorldTaskQueue.for_each (fun m => (m + 1) / 2) (fun x : Nat => x % 2 == 0) 4 ⟨[2, 3, 6], 1⟩
      = some false ∧
    WorldTaskQueue.for_each (fun m => (m + 1) / 2) (fun x : Nat => x % 2 == 0) 4 ⟨[2, 3, 6], 10⟩
      = some false :=
  ⟨(for_each_all_true (fun x : Nat => x % 2 == 0) [2, 4, 6] (by decide) 1 (by decide)
      (fun m => (m + 1) / 2) (fun m hm => by dsimp only; omega) 4 (by decide)).1,
   (for_each_all_true (fun x : Nat => x % 2 == 0) [2, 3, 6] (by decide) 1 (by decide)
      (fun m => (m + 1) / 2) (fun m hm => by dsimp only; omega) 4 (by decide)).1,
   (for_each_all_true (fun x : Nat => x % 2 == 0) [2, 3, 6] (by decide) 10 (by decide)
      (fun m => (m + 1) / 2) (fun m hm => by dsimp only; omega) 4 (by decide)).1⟩

/-! ### Claims about `fence` -/

theorem probeAllDone_iff (w : World T) :
    WorldTaskQueue.ProbeAllDone w = true ↔ WorldTaskQueue.size w = 0 := by
  rw [size_eq_zero_iff]
  simp [WorldTaskQueue.ProbeAllDone]

/-- The wait returns normally exactly in the first world, among those the rounds of work
produce, in which the predicate holds. -/
theorem await_ok_iff (probe : World T → Bool) (work : World T → Outcome × World T)
    (fuel : Nat) :
    ∀ w w1 : World T, ThreadPool.await probe work fuel w = (.ok, w1) ↔
      ∃ k, k < fuel ∧ ThreadPool.rounds work k w = some w1 ∧ probe w1 = true ∧
        ∀ j, j < k → ∀ wj, ThreadPool.rounds work j w = some wj → probe wj = false := by
  induction fuel with
  | zero =>
    intro w w1
    simp [ThreadPool.await]
  | succ n ih =>
    intro w w1
    rw [ThreadPool.await]
    by_cases hp : probe w = true
    · rw [if_pos hp]
      constructor
      · intro h
        obtain rfl : w = w1 := by simpa using h
        exact ⟨0, by omega, rfl, hp, fun j hj => by omega⟩
      · rintro ⟨k, _, hk, _, hmin⟩
        cases k with
        | zero =>
          obtain rfl : w = w1 := by simpa [ThreadPool.rounds] using hk
          rfl
        | succ k =>
          have := hmin 0 (by omega) w rfl
          rw [hp] at this
          cases this
    · rw [if_neg hp]
      have hpf : probe w = false := by simpa using hp
      rcases hwork : work w with ⟨o, w2⟩
      constructor
      · intro h
        cases o
        · simp only at h
          obtain ⟨k, hk, hr, hp1, hmin⟩ := (ih w2 w1).mp h
          refine ⟨k + 1, by omega, by rw [ThreadPool.rounds, hwork]; exact hr, hp1, ?_⟩
          intro j hj wj hwj
          cases j with
          | zero =>
            obtain rfl : w = wj := by simpa [ThreadPool.rounds] using hwj
            exact hpf
          | succ j =>
            rw [ThreadPool.rounds, hwork] at hwj
            exact hmin j (by omega) wj hwj
        all_goals simp at h
      · rintro ⟨k, hk, hr, hp1, hmin⟩
        cases k with
        | zero =>
          obtain rfl : w = w1 := by simpa [ThreadPool.rounds] using hr
          rw [hp1] at hpf
          cases hpf
        | succ k =>
          rw [ThreadPool.rounds, hwork] at hr
          cases o
          · simp only at hr ⊢
            refine (ih w2 w1).mpr ⟨k, by omega, hr, hp1, ?_⟩
            intro j hj wj hwj
            exact hmin (j + 1) (by omega) wj (by rw [ThreadPool.rounds, hwork]; exact hwj)
          all_goals simp at hr

/-- C26: `fence()` returns normally only in a world in which the pending-task counter is
zero, whatever the work done while it waits (tasks run, tasks added by other tasks,
tasks completed): it returns normally in the world `w1` exactly when `w1` is the first
world, among those the successive rounds of work produce, in which `size()` is 0; in
every earlier one the counter is not zero and the fence goes on waiting. -/
theorem fence_returns_only_when_nothing_pending (work : World T → Outcome × World T)
    (fuel : Nat) (w w1 : World T) :
    (WorldTaskQueue.fence work fuel w = (.ok, w1) → WorldTaskQueue.size w1 = 0) ∧
    (WorldTaskQueue.fence work fuel w = (.ok, w1) ↔
      ∃ k, k < fuel ∧ ThreadPool.rounds work k w = some w1 ∧ WorldTaskQueue.size w1 = 0 ∧
        ∀ j, j < k → ∀ wj, ThreadPool.rounds work j w = some wj →
          WorldTaskQueue.size wj ≠ 0) := by
  have key : WorldTaskQueue.fence work fuel w = (.ok, w1) ↔
      ∃ k, k < fuel ∧ ThreadPool.rounds work k w = some w1 ∧ WorldTaskQueue.size w1 = 0 ∧
        ∀ j, j < k → ∀ wj, ThreadPool.rounds work j w = some wj →
          WorldTaskQueue.size wj ≠ 0 := by
    rw [WorldTaskQueue.fence, await_ok_iff]
    constructor
    · rintro ⟨k, hk, hr, hp, hmin⟩
      refine ⟨k, hk, hr, (probeAllDone_iff w1).mp hp, fun j hj wj hwj h0 => ?_⟩
      have := hmin j hj wj hwj
      rw [(probeAllDone_iff wj).mpr h0] at this
      cases this
    · rintro ⟨k, hk, hr, hp, hmin⟩
      refine ⟨k, hk, hr, (probeAllDone_iff w1).mpr hp, fun j hj wj hwj => ?_⟩
      have := hmin j hj wj hwj
      cases hpd : WorldTaskQueue.ProbeAllDone wj
      · rfl
      · exact absurd ((probeAllDone_iff wj).mp hpd) this
  exact ⟨fun h => (key.mp h).elim fun k hk => hk.2.2.1, key⟩

/-- Witness for C26: two tasks are pending and each round of work completes one task; the
fence returns after two rounds, with nothing pending. -/
theorem fence_returns_only_when_nothing_pending_witness :
    WorldTaskQueue.size (WorldTaskQueue.fence (CallbackInterface.notify 1 .taskq) 3
      ({ World.init (0 : Nat) with nregistered := ⟨2⟩ } : World Nat)).2 = 0 :=
  (fence_returns_only_when_nothing_pending (CallbackInterface.notify 1 .taskq) 3
    ({ World.init (0 : Nat) with nregistered := ⟨2⟩ } : World Nat)
    (WorldTaskQueue.fence (CallbackInterface.notify 1 .taskq) 3
      ({ World.init (0 : Nat) with nregistered := ⟨2⟩ } : World Nat)).2).1 rfl

/-! ### Claims about the locks held while callbacks run -/

theorem heldAtNotify_append (o : LockId) (es es1 : List LockEvent) :
    ∀ held : Bool, LockEvent.heldAtNotify o held (es ++ es1)
      = LockEvent.heldAtNotify o held es
        ++ LockEvent.heldAtNotify o (LockEvent.heldAfter o held es) es1 := by
  induction es with
  | nil => intro held; rfl
  | cons e rest ih =>
    intro held
    cases e with
    | acquire p => exact ih _
    | release p => exact ih _
    | notify p c =>
      rw [List.cons_append, LockEvent.heldAtNotify, LockEvent.heldAtNotify,
        LockEvent.heldAfter, ih]
      split <;> rfl

theorem heldAfter_append (o : LockId) (es es1 : List LockEvent) :
    ∀ held : Bool, LockEvent.heldAfter o held (es ++ es1)
      = LockEvent.heldAfter o (LockEvent.heldAfter o held es) es1 := by
  induction es with
  | nil => intro held; rfl
  | cons e rest ih =>
    intro held
    cases e <;> exact ih _

/-- Events of trackers say nothing about the lock of a future. -/
theorem tracker_events_skip (a : Addr) (es : List LockEvent)
    (htr : ∀ e ∈ es, LockEvent.ofTracker e = true) :
    ∀ held : Bool, LockEvent.heldAtNotify (.fut a) held es = [] ∧
      LockEvent.heldAfter (.fut a) held es = held := by
  induction es with
  | nil => intro held; exact ⟨rfl, rfl⟩
  | cons e rest ih =>
    intro held
    have hrest := ih (fun e he => htr e (List.mem_cons_of_mem _ he)) held
    have he := htr e (List.mem_cons_self _ _)
    cases e with
    | acquire p =>
      cases p with
      | fut x => simp [LockEvent.ofTracker] at he
      | dep x => simpa [LockEvent.heldAtNotify, LockEvent.heldAfter] using hrest
    | release p =>
      cases p with
      | fut x => simp [LockEvent.ofTracker] at he
      | dep x => simpa [LockEvent.heldAtNotify, LockEvent.heldAfter] using hrest
    | notify p c =>
      cases p with
      | none => simp [LockEvent.ofTracker] at he
      | some q =>
        cases q with
        | fut x => simp [LockEvent.ofTracker] at he
        | dep x => simpa [LockEvent.heldAtNotify, LockEvent.heldAfter] using hrest

/-- Notifications take no lock of a future, and no future calls `notify()` in them. -/
theorem notify_events_of_tracker (n : Nat) :
    (∀ (c : Callback) (w : World T),
      ∀ e ∈ CallbackInterface.notify_events n c w, LockEvent.ofTracker e = true) ∧
    (∀ (d : Addr) (cb : Stack Callback DependencyInterface.MAXCALLBACKS) (w : World T),
      ∀ e ∈ DependencyInterface.do_callbacks_events n d cb w, LockEvent.ofTracker e = true) ∧
    (∀ (d : Addr) (w : World T),
      ∀ e ∈ DependencyInterface.dec_events n d w, LockEvent.ofTracker e = true) := by
  induction n with
  | zero =>
    refine ⟨?_, ?_, ?_⟩ <;> intros <;> rename_i he <;>
      simp [CallbackInterface.notify_events, DependencyInterface.do_callbacks_events,
        DependencyInterface.dec_events] at he
  | succ n ih =>
    obtain ⟨ih1, ih2, ih3⟩ := ih
    refine ⟨?_, ?_, ?_⟩
    · intro c w e he
      cases c with
      | dep d => exact ih3 d w e (by simpa [CallbackInterface.notify_events] using he)
      | user id => simp [CallbackInterface.notify_events] at he
      | submit t => simp [CallbackInterface.notify_events] at he
      | taskq => simp [CallbackInterface.notify_events] at he
    · intro d cb w e he
      rw [DependencyInterface.do_callbacks_events] at he
      split at he
      · simp at he
      · split at he
        · rename_i c rest _ _
          rcases List.mem_cons.mp he with e1 | he
          · rw [e1]; rfl
          · rcases List.mem_append.mp he with he | he
            · exact ih1 c w e he
            · split at he
              · exact ih2 d rest _ e he
              · simp at he
        · simp at he
    · intro d w e he
      rw [DependencyInterface.dec_events] at he
      rcases List.mem_cons.mp he with e1 | he
      · rw [e1]; rfl
      · rcases List.mem_cons.mp he with e1 | he
        · rw [e1]; rfl
        · split at he
          · exact ih2 d _ _ e he
          · exact ih2 d _ _ e he

/-- In notifications, trackers call `notify()` only with their own lock released, and
every lock taken has been released when they return. -/
theorem notify_events_unlocked (o : Addr) (n : Nat) :
    (∀ (c : Callback) (w : World T),
      (∀ b ∈ LockEvent.heldAtNotify (.dep o) false (CallbackInterface.notify_events n c w),
        b = false) ∧
      LockEvent.heldAfter (.dep o) false (CallbackInterface.notify_events n c w) = false) ∧
    (∀ (d : Addr) (cb : Stack Callback DependencyInterface.MAXCALLBACKS) (w : World T),
      (∀ b ∈ LockEvent.heldAtNotify (.dep o) false
          (DependencyInterface.do_callbacks_events n d cb w), b = false) ∧
      LockEvent.heldAfter (.dep o) false
        (DependencyInterface.do_callbacks_events n d cb w) = false) ∧
    (∀ (d : Addr) (w : World T),
      (∀ b ∈ LockEvent.heldAtNotify (.dep o) false (DependencyInterface.dec_events n d w),
        b = false) ∧
      LockEvent.heldAfter (.dep o) false (DependencyInterface.dec_events n d w) = false) := by
  induction n with
  | zero =>
    refine ⟨?_, ?_, ?_⟩ <;> intros <;>
      simp [CallbackInterface.notify_events, DependencyInterface.do_callbacks_events,
        DependencyInterface.dec_events, LockEvent.heldAtNotify, LockEvent.heldAfter]
  | succ n ih =>
    obtain ⟨ih1, ih2, ih3⟩ := ih
    refine ⟨?_, ?_, ?_⟩
    · intro c w
      cases c with
      | dep d => simpa [CallbackInterface.notify_events] using ih3 d w
      | user id =>
        simp [CallbackInterface.notify_events, LockEvent.heldAtNotify, LockEvent.heldAfter]
      | submit t =>
        simp [CallbackInterface.notify_events, LockEvent.heldAtNotify, LockEvent.heldAfter]
      | taskq =>
        simp [CallbackInterface.notify_events, LockEvent.heldAtNotify, LockEvent.heldAfter]
    · intro d cb w
      rw [DependencyInterface.do_callbacks_events]
      split
      · simp [LockEvent.heldAtNotify, LockEvent.heldAfter]
      · split
        · rename_i c rest _ _
          obtain ⟨a1, a2⟩ := ih1 c w
          have htail : ∀ es : List LockEvent,
              ((∀ b ∈ LockEvent.heldAtNotify (.dep o) false es, b = false) ∧
                LockEvent.heldAfter (.dep o) false es = false) →
              (∀ b ∈ LockEvent.heldAtNotify (.dep o) false
                  (.notify (some (.dep d)) c :: (CallbackInterface.notify_events n c w ++ es)),
                b = false) ∧
              LockEvent.heldAfter (.dep o) false
                (.notify (some (.dep d)) c :: (CallbackInterface.notify_events n c w ++ es))
                = false := by
            intro es hes
            obtain ⟨b1, b2⟩ := hes
            refine ⟨?_, ?_⟩
            · intro b hb
              rw [LockEvent.heldAtNotify, heldAtNotify_append, a2] at hb
              split at hb
              · rcases List.mem_cons.mp hb with e | hb
                · exact e
                · rcases List.mem_append.mp hb with hb | hb
                  · exact a1 b hb
                  · exact b1 b hb
              · rcases List.mem_append.mp hb with hb | hb
                · exact a1 b hb
                · exact b1 b hb
            · rw [LockEvent.heldAfter, heldAfter_append, a2, b2]
          split
          · exact htail _ (ih2 d rest _)
          · exact htail [] ⟨by simp [LockEvent.heldAtNotify], rfl⟩
        · simp [LockEvent.heldAtNotify, LockEvent.heldAfter]
    · intro d w
      rw [DependencyInterface.dec_events]
      have hstep : ∀ es : List LockEvent,
          LockEvent.heldAtNotify (.dep o) false (.acquire (.dep d) :: .release (.dep d) :: es)
            = LockEvent.heldAtNotify (.dep o) false es ∧
          LockEvent.heldAfter (.dep o) false (.acquire (.dep d) :: .release (.dep d) :: es)
            = LockEvent.heldAfter (.dep o) false es := by
        intro es
        by_cases hd : d = o <;> simp [LockEvent.heldAtNotify, LockEvent.heldAfter, hd]
      rw [(hstep _).1, (hstep _).2]
      split
      · exact ih2 d _ _
      · exact ih2 d _ _
/-- The events of `do_callbacks` on client callbacks: one call of `notify()` each. -/
theorem do_callbacks_events_users (d : Addr) (ids : List Nat) :
    ∀ (n : Nat) (w : World T), ids.length < n →
      DependencyInterface.do_callbacks_events n d ⟨ids.map Callback.user⟩ w
        = ids.map (fun id => LockEvent.notify (some (.dep d)) (.user id)) := by
  induction ids with
  | nil =>
    intro n w hn
    obtain ⟨m, rfl⟩ : ∃ m, n = m + 1 := ⟨n - 1, by simp at hn; omega⟩
    simp [DependencyInterface.do_callbacks_events, Stack.empty, Stack.size]
  | cons id rest ih =>
    intro n w hn
    obtain ⟨m, rfl⟩ : ∃ m, n = m + 2 := ⟨n - 2, by simp at hn; omega⟩
    rw [DependencyInterface.do_callbacks_events]
    simp only [Stack.empty, Stack.size, Stack.front, Stack.pop, List.map_cons, List.length_cons,
      List.head?_cons]
    simp only [CallbackInterface.notify_events, CallbackInterface.notify, List.nil_append]
    rw [ih (m + 1) _ (by simp at hn ⊢; omega)]
    simp

/-- The events of the second loop of `set_assigned` on client callbacks: one call of
`notify()` each. -/
theorem set_assigned_cb_events_users (a : Addr) (ids : List Nat) :
    ∀ (n : Nat) (w : World T), (w.futs a).callbacks = ids.map Callback.user → ids.length < n →
      FutureImpl.set_assigned_cb_events n a w
        = ids.map (fun id => LockEvent.notify (some (.fut a)) (.user id)) := by
  induction ids with
  | nil =>
    intro n w hcb hn
    obtain ⟨m, rfl⟩ : ∃ m, n = m + 1 := ⟨n - 1, by simp at hn; omega⟩
    rw [FutureImpl.set_assigned_cb_events]
    simp only [List.map_nil] at hcb
    simp [hcb]
  | cons id rest ih =>
    intro n w hcb hn
    obtain ⟨m, rfl⟩ : ∃ m, n = m + 2 := ⟨n - 2, by simp at hn; omega⟩
    rw [FutureImpl.set_assigned_cb_events]
    simp only [List.map_cons] at hcb
    simp only [hcb, CallbackInterface.notify_events, CallbackInterface.notify, List.nil_append,
      List.map_cons]
    rw [ih (m + 1) _ (by simp [World.setFut, hcb]) (by simp at hn ⊢; omega)]

/-- The second loop of `set_assigned`, entered with the lock of its future held, makes all
its calls of `notify()` with that lock held, and leaves it held. -/
theorem set_assigned_cb_events_locked (a : Addr) (n : Nat) :
    ∀ w : World T,
      (∀ b ∈ LockEvent.heldAtNotify (.fut a) true (FutureImpl.set_assigned_cb_events n a w),
        b = true) ∧
      LockEvent.heldAfter (.fut a) true (FutureImpl.set_assigned_cb_events n a w) = true := by
  induction n with
  | zero =>
    intro w
    simp [FutureImpl.set_assigned_cb_events, LockEvent.heldAtNotify, LockEvent.heldAfter]
  | succ n ih =>
    intro w
    rw [FutureImpl.set_assigned_cb_events]
    split
    · simp [LockEvent.heldAtNotify, LockEvent.heldAfter]
    · rename_i c _ _
      have hskip := tracker_events_skip a _ ((notify_events_of_tracker n).1 c w) true
      have htail : ∀ es : List LockEvent,
          ((∀ b ∈ LockEvent.heldAtNotify (.fut a) true es, b = true) ∧
            LockEvent.heldAfter (.fut a) true es = true) →
          (∀ b ∈ LockEvent.heldAtNotify (.fut a) true
              (.notify (some (.fut a)) c :: (CallbackInterface.notify_events n c w ++ es)),
            b = true) ∧
          LockEvent.heldAfter (.fut a) true
            (.notify (some (.fut a)) c :: (CallbackInterface.notify_events n c w ++ es))
            = true := by
        intro es hes
        obtain ⟨b1, b2⟩ := hes
        refine ⟨?_, ?_⟩
        · intro b hb
          rw [LockEvent.heldAtNotify, if_pos rfl, heldAtNotify_append, hskip.1, hskip.2,
            List.nil_append] at hb
          rcases List.mem_cons.mp hb with e | hb
          · exact e
          · exact b1 b hb
        · rw [LockEvent.heldAfter, heldAfter_append, hskip.2, b2]
      split
      · exact htail _ (ih _)
      · exact htail [] ⟨by simp [LockEvent.heldAtNotify], rfl⟩

/-- The first loop of `set_assigned` on a future with no chained future does nothing. -/
theorem set_assigned_as_events_no_chain (v : T) (n : Nat) (a : Addr) (w : World T)
    (has : (w.futs a).assignments = Stack.mk0) :
    FutureImpl.set_assigned_as_events n a v w = [] := by
  cases n with
  | zero => rfl
  | succ n => simp [FutureImpl.set_assigned_as_events, has]

/-- Once assigned, a future stays assigned through every call of `set` and its loops. -/
theorem assigned_stable (v : T) (x : Addr) (n : Nat) :
    (∀ (a : Addr) (w : World T), (w.futs x).assigned = true →
      ((FutureImpl.set n a v w).2.futs x).assigned = true) ∧
    (∀ (a : Addr) (w : World T), (w.futs x).assigned = true →
      ((FutureImpl.set_assigned n a v w).2.futs x).assigned = true) ∧
    (∀ (a : Addr) (w : World T), (w.futs x).assigned = true →
      ((FutureImpl.set_assigned_as n a v w).2.futs x).assigned = true) ∧
    (∀ (a : Addr) (w : World T), (w.futs x).assigned = true →
      ((FutureImpl.set_assigned_cb n a w).2.futs x).assigned = true) :=
  record_stable v x (fun o => o.assigned = true)
    (fun _ h => h) (fun _ h => h) (fun _ _ => rfl) (fun _ _ h => h) (fun _ _ h => h) n

theorem assigned_setFut (w : World T) (a x : Addr) (o : FutureImpl T)
    (h : (w.futs a).assigned = true) (ho : x = a → o.assigned = true) :
    ((w.setFut x o).futs a).assigned = true := by
  by_cases e : x = a
  · subst e
    rw [setFut_futs_same]
    exact ho rfl
  · rw [setFut_futs_other _ _ _ _ (fun e1 => e e1.symm)]
    exact h

/-- A run in which the future at `a` calls `notify()` nowhere says nothing about the lock
held at its calls. -/
theorem heldAtNotify_of_silent (a : Addr) (es : List LockEvent)
    (hes : ∀ e ∈ es, ∀ c, e ≠ LockEvent.notify (some (.fut a)) c) :
    ∀ held : Bool, LockEvent.heldAtNotify (.fut a) held es = [] := by
  induction es with
  | nil => intro held; rfl
  | cons e rest ih =>
    intro held
    have hrest := ih (fun e he => hes e (List.mem_cons_of_mem _ he))
    have he := hes e (List.mem_cons_self _ _)
    cases e with
    | acquire p => exact hrest _
    | release p => exact hrest _
    | notify p c =>
      rw [LockEvent.heldAtNotify, if_neg (fun e1 => he c (by rw [e1])), hrest]

/-- A run that neither takes nor releases the lock of the future at `a` leaves it as it
was. -/
theorem heldAfter_of_untouched (a : Addr) (es : List LockEvent)
    (hes : ∀ e ∈ es, e ≠ LockEvent.acquire (.fut a) ∧ e ≠ LockEvent.release (.fut a)) :
    ∀ held : Bool, LockEvent.heldAfter (.fut a) held es = held := by
  induction es with
  | nil => intro held; rfl
  | cons e rest ih =>
    intro held
    have hrest := ih (fun e he => hes e (List.mem_cons_of_mem _ he))
    have he := hes e (List.mem_cons_self _ _)
    cases e with
    | acquire p =>
      rw [LockEvent.heldAfter, if_neg (fun e1 => he.1 (by rw [e1])), hrest]
    | release p =>
      rw [LockEvent.heldAfter, if_neg (fun e1 => he.2 (by rw [e1])), hrest]
    | notify p c => exact hrest _

theorem of_tracker_not_future {e : LockEvent} (h : LockEvent.ofTracker e = true) (a : Addr) :
    (∀ c, e ≠ LockEvent.notify (some (.fut a)) c) ∧
    e ≠ LockEvent.acquire (.fut a) ∧ e ≠ LockEvent.release (.fut a) := by
  refine ⟨fun c e1 => ?_, fun e1 => ?_, fun e1 => ?_⟩ <;>
    · rw [e1] at h
      simp [LockEvent.ofTracker] at h

/-- While the future at `a` is assigned, no call of `set` on any future makes it call
`notify()`. -/
theorem assigned_future_silent (v : T) (a : Addr) (n : Nat) :
    (∀ (x : Addr) (w : World T), (w.futs a).assigned = true →
      ∀ e ∈ FutureImpl.set_events n x v w, ∀ c, e ≠ LockEvent.notify (some (.fut a)) c) ∧
    (∀ (x : Addr) (w : World T), (w.futs a).assigned = true →
      ∀ e ∈ FutureImpl.set_assigned_events n x v w,
        ∀ c, e ≠ LockEvent.notify (some (.fut a)) c) ∧
    (∀ (x : Addr) (w : World T), (w.futs a).assigned = true →
      ∀ e ∈ FutureImpl.set_assigned_as_events n x v w,
        ∀ c, e ≠ LockEvent.notify (some (.fut a)) c) ∧
    (∀ (x : Addr) (w : World T), x ≠ a →
      ∀ e ∈ FutureImpl.set_assigned_cb_events n x w,
        ∀ c, e ≠ LockEvent.notify (some (.fut a)) c) := by
  induction n with
  | zero =>
    refine ⟨?_, ?_, ?_, ?_⟩ <;> intro x w _ e he <;>
      simp [FutureImpl.set_events, FutureImpl.set_assigned_events,
        FutureImpl.set_assigned_as_events, FutureImpl.set_assigned_cb_events] at he
  | succ n ih =>
    obtain ⟨ih1, ih2, ih3, ih4⟩ := ih
    refine ⟨?_, ?_, ?_, ?_⟩
    · intro x w ha e he c
      rw [FutureImpl.set_events] at he
      split at he
      · rcases List.mem_cons.mp he with e1 | he
        · rw [e1]; simp
        · rcases List.mem_append.mp he with he | he
          · refine ih2 x _ (assigned_setFut _ a x _ ?_ ?_) e he c
            · exact ha
            · intro e1; subst e1; exact ha
          · rw [List.mem_singleton.mp he]; simp
      · rcases List.mem_cons.mp he with e1 | he
        · rw [e1]; simp
        · rcases List.mem_append.mp he with he | he
          · refine ih2 x _ (assigned_setFut _ a x _ ?_ ?_) e he c
            · exact ha
            · intro e1; subst e1; exact ha
          · rw [List.mem_singleton.mp he]; simp
    · intro x w ha e he c
      rw [FutureImpl.set_assigned_events] at he
      split at he
      · simp at he
      · rename_i hx
        have hxa : x ≠ a := fun e1 => hx (by rw [e1]; exact ha)
        rcases List.mem_append.mp he with he | he
        · exact ih3 x _ (assigned_setFut _ a x _ ha (fun e1 => absurd e1 hxa)) e he c
        · split at he
          · exact ih4 x _ hxa e he c
          · simp at he
    · intro x w ha e he c
      rw [FutureImpl.set_assigned_as_events] at he
      split at he
      · simp at he
      · split at he
        · simp at he
        · rename_i y _
          rcases List.mem_append.mp he with he | he
          · exact ih1 y w ha e he c
          · have hst := (assigned_stable v a n).1 y w ha
            rcases hrun : FutureImpl.set n y v w with ⟨o, w1⟩
            rw [hrun] at he hst
            cases o
            · simp only at he hst
              split at he
              · simp at he
              · refine ih3 x _ (assigned_setFut _ a x _ hst ?_) e he c
                intro e1; subst e1; exact hst
            all_goals simp at he
    · intro x w hxa e he c
      rw [FutureImpl.set_assigned_cb_events] at he
      split at he
      · simp at he
      · rename_i c1 _ _
        rcases List.mem_cons.mp he with e1 | he
        · rw [e1]
          intro e2
          simp only [LockEvent.notify.injEq, Option.some.injEq, LockId.fut.injEq] at e2
          exact hxa e2.1
        · rcases List.mem_append.mp he with he | he
          · exact (of_tracker_not_future ((notify_events_of_tracker n).1 c1 w e he) a).1 c
          · split at he
            · exact ih4 x _ hxa e he c
            · simp at he

/-- While the future at `a` is assigned, a call of `set` that returns normally neither
takes nor releases the lock of `a`. -/
theorem assigned_future_lock_untouched (v : T) (a : Addr) (n : Nat) :
    (∀ (x : Addr) (w w1 : World T), FutureImpl.set n x v w = (.ok, w1) →
      (w.futs a).assigned = true →
      ∀ e ∈ FutureImpl.set_events n x v w,
        e ≠ LockEvent.acquire (.fut a) ∧ e ≠ LockEvent.release (.fut a)) ∧
    (∀ (x : Addr) (w w1 : World T), FutureImpl.set_assigned n x v w = (.ok, w1) →
      (w.futs a).assigned = true →
      ∀ e ∈ FutureImpl.set_assigned_events n x v w,
        e ≠ LockEvent.acquire (.fut a) ∧ e ≠ LockEvent.release (.fut a)) ∧
    (∀ (x : Addr) (w w1 : World T), FutureImpl.set_assigned_as n x v w = (.ok, w1) →
      (w.futs a).assigned = true →
      ∀ e ∈ FutureImpl.set_assigned_as_events n x v w,
        e ≠ LockEvent.acquire (.fut a) ∧ e ≠ LockEvent.release (.fut a)) ∧
    (∀ (x : Addr) (w : World T),
      ∀ e ∈ FutureImpl.set_assigned_cb_events n x w,
        e ≠ LockEvent.acquire (.fut a) ∧ e ≠ LockEvent.release (.fut a)) := by
  induction n with
  | zero =>
    refine ⟨?_, ?_, ?_, ?_⟩
    · intro x w w1 h; simp [FutureImpl.set] at h
    · intro x w w1 h; simp [FutureImpl.set_assigned] at h
    · intro x w w1 h; simp [FutureImpl.set_assigned_as] at h
    · intro x w e he; simp [FutureImpl.set_assigned_cb_events] at he
  | succ n ih =>
    obtain ⟨ih1, ih2, ih3, ih4⟩ := ih
    refine ⟨?_, ?_, ?_, ?_⟩
    · intro x w w1 h ha e he
      rw [FutureImpl.set] at h
      rw [FutureImpl.set_events] at he
      have hxa : x ≠ a := by
        intro e1
        subst e1
        split at h
        · have := ((ok_footprint v n).2.1 x _ w1 h).1
          rw [setFut_futs_same] at this
          rw [ha] at this
          cases this
        · have := ((ok_footprint v n).2.1 x _ w1 h).1
          rw [setFut_futs_same] at this
          rw [ha] at this
          cases this
      have hne : LockEvent.acquire (.fut x) ≠ LockEvent.acquire (.fut a) ∧
          LockEvent.acquire (.fut x) ≠ LockEvent.release (.fut a) :=
        ⟨(fun e1 => hxa (by simpa using e1)), (fun e1 => by cases e1)⟩
      have hne1 : LockEvent.release (.fut x) ≠ LockEvent.acquire (.fut a) ∧
          LockEvent.release (.fut x) ≠ LockEvent.release (.fut a) :=
        ⟨(fun e1 => by cases e1), (fun e1 => hxa (by simpa using e1))⟩
      split at h
      · rename_i ref href
        rw [href] at he
        simp only at he
        rcases List.mem_cons.mp he with e1 | he
        · rw [e1]; exact hne
        · rcases List.mem_append.mp he with he | he
          · refine ih2 x _ w1 h (assigned_setFut _ a x _ ?_ ?_) e he
            · exact ha
            · intro e1; exact absurd e1 hxa
          · rw [List.mem_singleton.mp he]; exact hne1
      · rename_i href
        rw [href] at he
        simp only at he
        rcases List.mem_cons.mp he with e1 | he
        · rw [e1]; exact hne
        · rcases List.mem_append.mp he with he | he
          · refine ih2 x _ w1 h (assigned_setFut _ a x _ ?_ ?_) e he
            · exact ha
            · intro e1; exact absurd e1 hxa
          · rw [List.mem_singleton.mp he]; exact hne1
    · intro x w w1 h ha e he
      rw [FutureImpl.set_assigned] at h
      rw [FutureImpl.set_assigned_events] at he
      split at h
      · simp at h
      · rename_i hx
        rw [if_neg hx] at he
        have hxa : x ≠ a := fun e1 => hx (by rw [e1]; exact ha)
        rcases hrun : FutureImpl.set_assigned_as n x v
            (w.setFut x { w.futs x with assigned := true }) with ⟨o, w3⟩
        rw [hrun] at h he
        cases o
        · simp only at h he
          rcases List.mem_append.mp he with he | he
          · exact ih3 x _ w3 hrun (assigned_setFut _ a x _ ha (fun e1 => absurd e1 hxa)) e he
          · exact ih4 x w3 e he
        all_goals simp at h
    · intro x w w1 h ha e he
      rw [FutureImpl.set_assigned_as] at h
      rw [FutureImpl.set_assigned_as_events] at he
      split at h
      · rename_i hem
        rw [if_pos hem] at he
        simp at he
      · rename_i hem
        rw [if_neg hem] at he
        split at h
        · simp at h
        · rename_i y htop
          rw [htop] at he
          simp only at he
          rcases hrun : FutureImpl.set n y v w with ⟨o, w2⟩
          rw [hrun] at h he
          have hst := (assigned_stable v a n).1 y w ha
          rw [hrun] at hst
          cases o
          · simp only at h he hst
            rcases List.mem_append.mp he with he | he
            · exact ih1 y w w2 hrun ha e he
            · split at h
              · simp at h
              · rename_i rest hpop
                rw [hpop] at he
                simp only at he
                refine ih3 x _ w1 h (assigned_setFut _ a x _ hst ?_) e he
                intro e1; subst e1; exact hst
          all_goals simp at h
    · intro x w e he
      rw [FutureImpl.set_assigned_cb_events] at he
      split at he
      · simp at he
      · rename_i c1 _ _
        rcases List.mem_cons.mp he with e1 | he
        · rw [e1]
          exact ⟨(fun e2 => by cases e2), (fun e2 => by cases e2)⟩
        · rcases List.mem_append.mp he with he | he
          · exact (of_tracker_not_future ((notify_events_of_tracker n).1 c1 w e he) a).2
          · split at he
            · exact ih4 x _ e he
            · simp at he

/-- What `set_assigned` does, entered with the lock of its future held: every call of
`notify()` the future makes happens with the lock held. -/
theorem set_assigned_events_locked (v : T) (n : Nat) (a : Addr) (w : World T) :
    ∀ b ∈ LockEvent.heldAtNotify (.fut a) true (FutureImpl.set_assigned_events n a v w),
      b = true := by
  cases n with
  | zero => simp [FutureImpl.set_assigned_events, LockEvent.heldAtNotify]
  | succ n =>
    rw [FutureImpl.set_assigned_events]
    split
    · simp [LockEvent.heldAtNotify]
    · have ha2 : ((w.setFut a { w.futs a with assigned := true }).futs a).assigned = true := by
        rw [setFut_futs_same]
      intro b hb
      rw [heldAtNotify_append,
        heldAtNotify_of_silent a _ ((assigned_future_silent v a n).2.2.1 a _ ha2) true,
        List.nil_append] at hb
      rcases hrun : FutureImpl.set_assigned_as n a v
          (w.setFut a { w.futs a with assigned := true }) with ⟨o, w3⟩
      rw [hrun] at hb
      cases o
      · simp only at hb
        rw [heldAfter_of_untouched a _
          ((assigned_future_lock_untouched v a n).2.2.1 a _ w3 hrun ha2) true] at hb
        exact (set_assigned_cb_events_locked a n w3).1 b hb
      all_goals simp [LockEvent.heldAtNotify] at hb

/-- What `set` does with locks and callbacks: the lock is taken first and released last. -/
theorem set_events_unfold (n : Nat) (a : Addr) (v : T) (w : World T) :
    ∃ w1 : World T, (w1.futs a).assignments = (w.futs a).assignments ∧
      (w1.futs a).callbacks = (w.futs a).callbacks ∧
      (w1.futs a).assigned = (w.futs a).assigned ∧
      FutureImpl.set_events (n + 1) a v w
        = .acquire (.fut a) ::
            (FutureImpl.set_assigned_events n a v w1 ++ [.release (.fut a)]) := by
  rw [FutureImpl.set_events]
  split
  · exact ⟨_, by rw [setFut_futs_same], by rw [setFut_futs_same], by rw [setFut_futs_same],
      rfl⟩
  · exact ⟨_, by rw [setFut_futs_same], by rw [setFut_futs_same], by rw [setFut_futs_same],
      rfl⟩
theorem heldAtNotify_users (o : LockId) (held : Bool) (ids : List Nat) (es : List LockEvent) :
    LockEvent.heldAtNotify o held
        (ids.map (fun id => LockEvent.notify (some o) (.user id)) ++ es)
      = List.replicate ids.length held ++ LockEvent.heldAtNotify o held es := by
  induction ids with
  | nil => rfl
  | cons id rest ih =>
    rw [List.map_cons, List.cons_append, LockEvent.heldAtNotify, if_pos rfl, ih]
    rfl

/-- C29: in `dec()` and in `register_callback()` of every tracker, whatever its state and
whatever its callbacks do (they may notify other trackers, or this one again), every call
of `notify()` the tracker makes happens with its own lock released, and the lock is
released when the call returns: the lock is taken and released (the scope in which the
callbacks are copied and the member list is emptied) before `do_callbacks` runs.  On a
tracker with one dependency left and client callbacks queued, `dec()` notifies each of
them, each with the lock released. -/
theorem tracker_notifies_with_lock_released (fuel : Nat) (d : Addr) (callback : Callback)
    (w : World T) :
    (∀ b ∈ LockEvent.heldAtNotify (.dep d) false (DependencyInterface.dec_events fuel d w),
      b = false) ∧
    LockEvent.heldAfter (.dep d) false (DependencyInterface.dec_events fuel d w) = false ∧
    (∀ b ∈ LockEvent.heldAtNotify (.dep d) false
        (DependencyInterface.register_callback_events fuel d callback w), b = false) ∧
    LockEvent.heldAfter (.dep d) false
      (DependencyInterface.register_callback_events fuel d callback w) = false ∧
    (∀ ids : List Nat, (w.deps d).ndepend = 1 → (w.deps d).callbacks = ⟨ids.map Callback.user⟩ →
      ids.length + 1 < fuel →
      DependencyInterface.dec_events fuel d w
        = .acquire (.dep d) :: .release (.dep d) ::
            ids.map (fun id => LockEvent.notify (some (.dep d)) (.user id)) ∧
      LockEvent.heldAtNotify (.dep d) false (DependencyInterface.dec_events fuel d w)
        = List.replicate ids.length false) := by
  have hstep : ∀ es : List LockEvent,
      LockEvent.heldAtNotify (.dep d) false (.acquire (.dep d) :: .release (.dep d) :: es)
        = LockEvent.heldAtNotify (.dep d) false es ∧
      LockEvent.heldAfter (.dep d) false (.acquire (.dep d) :: .release (.dep d) :: es)
        = LockEvent.heldAfter (.dep d) false es := by
    intro es
    simp [LockEvent.heldAtNotify, LockEvent.heldAfter]
  have hreg : (∀ b ∈ LockEvent.heldAtNotify (.dep d) false
        (DependencyInterface.register_callback_events fuel d callback w), b = false) ∧
      LockEvent.heldAfter (.dep d) false
        (DependencyInterface.register_callback_events fuel d callback w) = false := by
    rw [DependencyInterface.register_callback_events]
    split
    · simp [LockEvent.heldAtNotify, LockEvent.heldAfter]
    · dsimp only
      rw [(hstep _).1, (hstep _).2]
      split
      · exact (notify_events_unlocked d fuel).2.1 d _ _
      · exact (notify_events_unlocked d fuel).2.1 d _ _
  refine ⟨((notify_events_unlocked d fuel).2.2 d w).1, ((notify_events_unlocked d fuel).2.2 d w).2,
    hreg.1, hreg.2, ?_⟩
  intro ids hnd hcb hfuel
  obtain ⟨m, rfl⟩ : ∃ m, fuel = m + 1 := ⟨fuel - 1, by omega⟩
  have hev : DependencyInterface.dec_events (m + 1) d w
      = .acquire (.dep d) :: .release (.dep d) ::
          ids.map (fun id => LockEvent.notify (some (.dep d)) (.user id)) := by
    rw [DependencyInterface.dec_events]
    simp only [hnd, sub_self, if_true, hcb]
    rw [do_callbacks_events_users d ids m _ (by omega)]
  refine ⟨hev, ?_⟩
  rw [hev, (hstep _).1]
  have := heldAtNotify_users (.dep d) false ids []
  simpa [LockEvent.heldAtNotify] using this

/-- Witness for C29: a tracker with one dependency left and two client callbacks; `dec()`
notifies both with the lock released. -/
theorem tracker_notifies_with_lock_released_witness :
    LockEvent.heldAtNotify (.dep 0) false
      (DependencyInterface.dec_events 4 0
        ((DependencyInterface.ctor 0 1 (World.init (0 : Nat))).setDep 0
          ⟨1, ⟨[.user 1, .user 2]⟩⟩)) = [false, false] :=
  ((tracker_notifies_with_lock_released 4 0 (.user 3)
    ((DependencyInterface.ctor 0 1 (World.init (0 : Nat))).setDep 0
      ⟨1, ⟨[.user 1, .user 2]⟩⟩)).2.2.2.2 [1, 2] rfl rfl (by decide)).2

/-- C28 fails on the code: `FutureImpl::set` opens with `ScopedMutex<Spinlock> fred(this)`
and calls `set_assigned`, which runs the callbacks, inside that scope.  On a new
`Future<int>` with one callback registered, `set(42)` takes the lock of the future,
calls `notify()` on the callback and then releases the lock: the one call of `notify()`
happens with the lock held. -/
theorem future_notifies_with_lock_held_counterexample :
    (Future.register_callback 1 ⟨some 0, none⟩ (.user 1)
      (FutureImpl.ctor 0 0 (World.init (0 : Int)))).1 = .ok ∧
    (Future.set 4 ⟨some 0, none⟩ 42
      (Future.register_callback 1 ⟨some 0, none⟩ (.user 1)
        (FutureImpl.ctor 0 0 (World.init (0 : Int)))).2).1 = .ok ∧
    LockEvent.heldAtNotify (.fut 0) false
      (Future.set_events 4 ⟨some 0, none⟩ 42
        (Future.register_callback 1 ⟨some 0, none⟩ (.user 1)
          (FutureImpl.ctor 0 0 (World.init (0 : Int)))).2) = [true] := by
  decide

/-- C28, amended: a `FutureImpl` calls `notify()` on its callbacks with its own lock held.
In `set(v)` the lock is taken first and released last, with `set_assigned` in between, so
for every future, whatever is chained to it or registered on it, every call of `notify()`
the future makes during `set(v)` happens with its lock held, and so does the call in
`FutureImpl::register_callback` on an assigned future.  Only `Future::register_callback`
on a handle whose `probe()` is already true calls `notify()` without taking the lock.  On
an unassigned future with client callbacks queued and no chained future, `set(v)` notifies
each of them, each with the lock held. -/
theorem future_notifies_while_locked (fuel : Nat) (a : Addr) (v : T) (value : Option T)
    (callback : Callback) (w : World T) :
    (∀ b ∈ LockEvent.heldAtNotify (.fut a) false (Future.set_events fuel ⟨some a, value⟩ v w),
      b = true) ∧
    (∀ b ∈ LockEvent.heldAtNotify (.fut a) false
        (FutureImpl.register_callback_events fuel a callback w), b = true) ∧
    ((w.futs a).assigned = true →
      LockEvent.heldAtNotify (.fut a) false
        (FutureImpl.register_callback_events fuel a callback w) = [true] ∧
      LockEvent.heldAtNotify (.fut a) false
        (Future.register_callback_events fuel ⟨some a, value⟩ callback w) = [false]) ∧
    (∀ ids : List Nat, (w.futs a).assigned = false → (w.futs a).assignments = Stack.mk0 →
      (w.futs a).callbacks = ids.map Callback.user → ids.length + 2 < fuel →
      LockEvent.heldAtNotify (.fut a) false (Future.set_events fuel ⟨some a, value⟩ v w)
        = List.replicate ids.length true) := by
  have hskip := tracker_events_skip a _ ((notify_events_of_tracker fuel).1 callback w)
  refine ⟨?_, ?_, ?_, ?_⟩
  · intro b hb
    cases fuel with
    | zero => simp [Future.set_events, FutureImpl.set_events, LockEvent.heldAtNotify] at hb
    | succ n =>
      obtain ⟨w1, _, _, _, hev⟩ := set_events_unfold n a v w
      rw [Future.set_events] at hb
      simp only at hb
      rw [hev, LockEvent.heldAtNotify, if_pos rfl, heldAtNotify_append] at hb
      rcases List.mem_append.mp hb with hb | hb
      · exact set_assigned_events_locked v n a w1 b hb
      · simp [LockEvent.heldAtNotify] at hb
  · intro b hb
    rw [FutureImpl.register_callback_events, LockEvent.heldAtNotify, if_pos rfl,
      heldAtNotify_append] at hb
    rcases List.mem_append.mp hb with hb | hb
    · split at hb
      · rw [LockEvent.heldAtNotify, if_pos rfl, (hskip true).1] at hb
        simpa using hb
      · simp [LockEvent.heldAtNotify] at hb
    · simp [LockEvent.heldAtNotify] at hb
  · intro hass
    refine ⟨?_, ?_⟩
    · rw [FutureImpl.register_callback_events, if_pos hass, LockEvent.heldAtNotify, if_pos rfl,
        List.cons_append, LockEvent.heldAtNotify, if_pos rfl, heldAtNotify_append,
        (hskip true).1]
      simp [LockEvent.heldAtNotify]
    · have hp : Future.probe w ⟨some a, value⟩ = true := by
        simpa [Future.probe, FutureImpl.probe] using hass
      rw [Future.register_callback_events, if_pos hp]
      simp only [Option.map_some']
      rw [LockEvent.heldAtNotify, if_pos rfl, (hskip false).1]
  · intro ids hun has hcb hfuel
    obtain ⟨k, rfl⟩ : ∃ k, fuel = k + 3 := ⟨fuel - 3, by omega⟩
    obtain ⟨w1, h1, h2, h3, hev⟩ := set_events_unfold (k + 2) a v w
    rw [Future.set_events]
    simp only
    rw [hev, FutureImpl.set_assigned_events, if_neg (by rw [h3, hun]; simp),
      set_assigned_as_events_no_chain v (k + 1) a _
        (by rw [setFut_futs_same]; exact h1.trans has), List.nil_append]
    have hloop : FutureImpl.set_assigned_as (k + 1) a v
        (w1.setFut a { w1.futs a with assigned := true })
        = (.ok, w1.setFut a { w1.futs a with assigned := true }) := by
      rw [FutureImpl.set_assigned_as, setFut_futs_same]
      simp [h1, has]
    rw [hloop]
    simp only
    rw [set_assigned_cb_events_users a ids (k + 1) _
      (by rw [setFut_futs_same]; exact h2.trans hcb) (by omega),
      LockEvent.heldAtNotify, if_pos rfl, heldAtNotify_users]
    simp [LockEvent.heldAtNotify]

/-- Witness for C28, amended: a new future with two callbacks registered, then set. -/
theorem future_notifies_while_locked_witness :
    LockEvent.heldAtNotify (.fut 0) false
      (Future.set_events 5 ⟨some 0, none⟩ 42
        ((FutureImpl.ctor 0 0 (World.init (0 : Nat))).setFut 0
          ⟨[.user 2, .user 1], Stack.mk0, false, none, 0⟩)) = [true, true] :=
  (future_notifies_while_locked 5 0 42 none (.user 3)
    ((FutureImpl.ctor 0 0 (World.init (0 : Nat))).setFut 0
      ⟨[.user 2, .user 1], Stack.mk0, false, none, 0⟩)).2.2.2 [2, 1] rfl rfl rfl (by decide)

/-! ### Claims about `dec_and_test` and about the bound on chained futures -/

/-- C35: for every 32-bit integer `x` held by an `AtomicInt`, `dec_and_test()` stores
`x - 1` modulo `2^32` (as a 32-bit `int`) and returns true exactly when that new value is
zero, that is exactly when `x` is 1. -/
theorem dec_and_test_iff_one (x : Int) (hlo : -2 ^ 31 ≤ x) (hhi : x < 2 ^ 31) :
    (AtomicInt.dec_and_test ⟨x⟩).2.value = wrap32 (x - 1) ∧
    ((AtomicInt.dec_and_test ⟨x⟩).2.value - (x - 1)) % 2 ^ 32 = 0 ∧
    ((AtomicInt.dec_and_test ⟨x⟩).1 = true ↔ (AtomicInt.dec_and_test ⟨x⟩).2.value = 0) ∧
    ((AtomicInt.dec_and_test ⟨x⟩).1 = true ↔ x = 1) := by
  have hv : (AtomicInt.dec_and_test ⟨x⟩).2.value = wrap32 (x - 1) := rfl
  have hr : (AtomicInt.dec_and_test ⟨x⟩).1 = (x == 1) := rfl
  rw [hv, hr, beq_iff_eq]
  unfold wrap32
  refine ⟨rfl, ?_, ?_, Iff.rfl⟩
  · omega
  · constructor <;> intro h <;> omega

/-- Witness for C35: the counters 1, 0 and the smallest `int`. -/
theorem dec_and_test_iff_one_witness :
    (AtomicInt.dec_and_test ⟨1⟩).1 = true ∧ (AtomicInt.dec_and_test ⟨1⟩).2.value = 0 ∧
    (AtomicInt.dec_and_test ⟨0⟩).1 = false ∧
    (AtomicInt.dec_and_test ⟨-2 ^ 31⟩).2.value = wrap32 (-2 ^ 31 - 1) :=
  ⟨(dec_and_test_iff_one 1 (by decide) (by decide)).2.2.2.mpr rfl,
   (dec_and_test_iff_one 1 (by decide) (by decide)).1,
   by decide,
   (dec_and_test_iff_one (-2 ^ 31) (by decide) (by decide)).1⟩

/-- Linking the unassigned future at `x` to the unassigned future at `b` pushes `x` on the
futures chained to `b`, and fails the assertion of `push` when the stack is full. -/
theorem link_pushes (fuel : Nat) (x b : Addr) (w : World T) (hxb : x ≠ b)
    (hx : (w.futs x).assigned = false) (hb : (w.futs b).assigned = false) :
    Future.set_future fuel ⟨some x, none⟩ ⟨some b, none⟩ w
      = if (w.futs b).assignments.size < FutureImpl.MAXCALLBACKS then
          (.ok, w.setFut b
            { w.futs b with assignments := ⟨x :: (w.futs b).assignments.elems⟩ })
        else (.violation, w) := by
  by_cases hsz : (w.futs b).assignments.size < FutureImpl.MAXCALLBACKS
  · simp [Future.set_future, Future.probe, FutureImpl.probe, hx, hb,
      FutureImpl.add_to_assignments, Stack.push, hxb, hsz]
  · simp [Future.set_future, Future.probe, FutureImpl.probe, hx, hb,
      FutureImpl.add_to_assignments, Stack.push, hxb, hsz]

/-- Linking futures to `b` one after the other while the stack has room. -/
theorem link_all_pushes (fuel : Nat) (b : Addr) (xs : List Addr) :
    ∀ (w : World T) (es : List Addr), (w.futs b).assignments = ⟨es⟩ →
      es.length + xs.length ≤ FutureImpl.MAXCALLBACKS →
      (w.futs b).assigned = false →
      (∀ x ∈ xs, x ≠ b ∧ (w.futs x).assigned = false) →
      Future.link_all fuel ⟨some b, none⟩ (xs.map (fun x => ⟨some x, none⟩)) w
        = (.ok, w.setFut b { w.futs b with assignments := ⟨xs.reverse ++ es⟩ }) := by
  induction xs with
  | nil =>
    intro w es hes _ _ _
    simp only [List.map_nil, Future.link_all, List.reverse_nil, List.nil_append, ← hes]
    congr 1
    simp [World.setFut]
  | cons x rest ih =>
    intro w es hes hlen hb hxs
    obtain ⟨hxb, hx⟩ := hxs x (List.mem_cons_self _ _)
    rw [List.map_cons, Future.link_all, link_pushes fuel x b w hxb hx hb]
    have hsz : (w.futs b).assignments.size < FutureImpl.MAXCALLBACKS := by
      simp only [hes, Stack.size]
      simp only [List.length_cons] at hlen
      omega
    rw [if_pos hsz]
    simp only
    rw [ih _ (x :: es) (by rw [setFut_futs_same, hes]) (by simp at hlen ⊢; omega)
      (by rw [setFut_futs_same]; exact hb)
      (fun y hy => ⟨(hxs y (List.mem_cons_of_mem _ hy)).1, by
        rw [setFut_futs_other _ _ _ _ (hxs y (List.mem_cons_of_mem _ hy)).1]
        exact (hxs y (List.mem_cons_of_mem _ hy)).2⟩)]
    rw [setFut_setFut, setFut_futs_same]
    simp

/-- C36: at most 4 futures can be chained to one unassigned future.  For every unassigned
future `b` with nothing chained to it, linking 4 unassigned futures other than `b` to it
returns normally each time and leaves them chained, the last one on top; linking a fifth
then fails the assertion of `Stack::push` and changes nothing: the 4 chained entries are
as they were.  In general a link to `b` succeeds exactly when fewer than 4 futures are
chained to it. -/
theorem fifth_chained_future_raises (fuel : Nat) (b : Addr) (xs : List Addr) (x5 : Addr)
    (w : World T) (hb : (w.futs b).assigned = false)
    (has : (w.futs b).assignments = Stack.mk0) (hlen : xs.length = 4)
    (hxs : ∀ x ∈ xs, x ≠ b ∧ (w.futs x).assigned = false)
    (h5 : x5 ≠ b ∧ (w.futs x5).assigned = false) :
    Future.link_all fuel ⟨some b, none⟩ (xs.map (fun x => ⟨some x, none⟩)) w
      = (.ok, w.setFut b { w.futs b with assignments := ⟨xs.reverse⟩ }) ∧
    Future.set_future fuel ⟨some x5, none⟩ ⟨some b, none⟩
        (Future.link_all fuel ⟨some b, none⟩ (xs.map (fun x => ⟨some x, none⟩)) w).2
      = (.violation,
          (Future.link_all fuel ⟨some b, none⟩ (xs.map (fun x => ⟨some x, none⟩)) w).2) ∧
    (∀ (x : Addr) (u : World T), x ≠ b → (u.futs x).assigned = false →
      (u.futs b).assigned = false →
      ((Future.set_future fuel ⟨some x, none⟩ ⟨some b, none⟩ u).1 = .ok ↔
        (u.futs b).assignments.size < 4)) := by
  have hall := link_all_pushes fuel b xs w [] has (by simp [hlen, FutureImpl.MAXCALLBACKS]) hb hxs
  rw [List.append_nil] at hall
  refine ⟨hall, ?_, ?_⟩
  · rw [hall]
    simp only
    rw [link_pushes fuel x5 b _ h5.1
      (by rw [setFut_futs_other _ _ _ _ h5.1]; exact h5.2)
      (by rw [setFut_futs_same]; exact hb)]
    rw [if_neg]
    rw [setFut_futs_same]
    simp [Stack.size, hlen, FutureImpl.MAXCALLBACKS]
  · intro x u hxb hx hbu
    rw [link_pushes fuel x b u hxb hx hbu]
    simp only [FutureImpl.MAXCALLBACKS]
    split <;> simp [*]

/-- Witness for C36: the futures at 1, 2, 3, 4 are linked to the new future at 0; the link
of the future at 5 raises the violation. -/
theorem fifth_chained_future_raises_witness :
    ((Future.link_all 1 ⟨some 0, none⟩ ([1, 2, 3, 4].map (fun x => ⟨some x, none⟩))
      (World.init (0 : Nat))).2.futs 0).assignments = ⟨[4, 3, 2, 1]⟩ ∧
    (Future.set_future 1 ⟨some 5, none⟩ ⟨some 0, none⟩
      (Future.link_all 1 ⟨some 0, none⟩ ([1, 2, 3, 4].map (fun x => ⟨some x, none⟩))
        (World.init (0 : Nat))).2).1 = .violation :=
  have key := fifth_chained_future_raises 1 0 [1, 2, 3, 4] 5 (World.init (0 : Nat)) rfl rfl rfl
    (fun x hx => ⟨by simp at hx; rcases hx with rfl | rfl | rfl | rfl <;> decide, rfl⟩)
    ⟨by decide, rfl⟩
  ⟨by rw [key.1]; rfl, by rw [key.2.1]⟩

/-! ### Claims about the single transition of a future and about copies -/

/-- After `set` on an assigned future has failed its assertion. -/
theorem set_raises_when_assigned (m : Nat) (a : Addr) (v : T) (w : World T)
    (ha : (w.futs a).assigned = true) :
    (FutureImpl.set (m + 2) a v w).1 = .violation := by
  rw [FutureImpl.set]
  split <;> rw [FutureImpl.set_assigned] <;> simp [World.setFut, World.am_send, ha]

/-- Every call on a future leaves every assigned future assigned, as long as no new
implementation object is allocated on top of it. -/
theorem call_keeps_assigned (fuel : Nat) (t0 : T) (x : Addr) (op : FutureOp T) (w : World T)
    (hx : (w.futs x).assigned = true)
    (hfresh : ∀ h b, op = FutureOp.copy h b → h.is_default_initialized = true → b ≠ x) :
    ((Future.call fuel t0 op w).2.futs x).assigned = true := by
  cases op with
  | set h v =>
    simp only [Future.call, Future.set]
    split
    · exact hx
    · exact (assigned_stable v x fuel).1 _ w hx
  | set_future h other =>
    simp only [Future.call, Future.set_future]
    split
    · exact hx
    · split
      · split
        · exact hx
        · split
          · split
            · simp only [Future.set]
              split
              · exact hx
              · exact (assigned_stable _ x fuel).1 _ w hx
            · exact hx
            · exact hx
          · split
            · exact hx
            · simp only [FutureImpl.add_to_assignments]
              split
              · exact (assigned_stable _ x fuel).1 _ w hx
              · split
                · exact hx
                · exact assigned_setFut _ x _ _ hx (fun e => by subst e; exact hx)
      · exact hx
  | register_callback h c =>
    simp only [Future.call, Future.register_callback]
    split
    · rw [(notify_futs fuel).1 c w]; exact hx
    · split
      · exact hx
      · simp only [FutureImpl.register_callback]
        split
        · rw [(notify_futs fuel).1 c w]; exact hx
        · exact assigned_setFut _ x _ _ hx (fun e => by subst e; exact hx)
  | get h =>
    simp only [Future.call]
    split <;> exact hx
  | copy h b =>
    simp only [Future.call, Future.copy]
    split
    · rename_i hd
      have hbx := hfresh h b rfl hd
      simp only [FutureImpl.ctor]
      rw [setFut_futs_other _ _ _ _ (fun e => hbx e.symm)]
      exact hx
    · exact hx

/-- Registering a callback, reading and copying leave the state of every future as it
was. -/
theorem call_keeps_state (fuel : Nat) (t0 : T) (x : Addr) (op : FutureOp T) (w : World T)
    (hset : ∀ h v, op ≠ FutureOp.set h v) (hlink : ∀ h other, op ≠ FutureOp.set_future h other)
    (hfresh : ∀ h b, op = FutureOp.copy h b → h.is_default_initialized = true → b ≠ x) :
    ((Future.call fuel t0 op w).2.futs x).assigned = (w.futs x).assigned := by
  cases op with
  | set h v => exact absurd rfl (hset h v)
  | set_future h other => exact absurd rfl (hlink h other)
  | register_callback h c =>
    simp only [Future.call, Future.register_callback]
    split
    · rw [(notify_futs fuel).1 c w]
    · split
      · rfl
      · simp only [FutureImpl.register_callback]
        split
        · rw [(notify_futs fuel).1 c w]
        · rename_i a _ _
          by_cases e : x = a
          · subst e
            rw [setFut_futs_same]
          · rw [setFut_futs_other _ _ _ _ e]
  | get h =>
    simp only [Future.call]
    split <;> rfl
  | copy h b =>
    simp only [Future.call, Future.copy]
    split
    · rename_i hd
      have hbx := hfresh h b rfl hd
      simp only [FutureImpl.ctor]
      rw [setFut_futs_other _ _ _ _ (fun e => hbx e.symm)]
    · rfl

theorem exec_append (fuel : Nat) (t0 : T) (ops1 ops2 : List (FutureOp T)) :
    ∀ w : World T, Future.exec fuel t0 (ops1 ++ ops2) w
      = Future.exec fuel t0 ops2 (Future.exec fuel t0 ops1 w) := by
  induction ops1 with
  | nil => intro w; rfl
  | cons op rest ih => intro w; exact ih _

/-- A sequence of calls on futures leaves every assigned future assigned. -/
theorem exec_keeps_assigned (fuel : Nat) (t0 : T) (x : Addr) (ops : List (FutureOp T)) :
    ∀ w : World T, (w.futs x).assigned = true →
      (∀ h b, FutureOp.copy h b ∈ ops → h.is_default_initialized = true → b ≠ x) →
      ((Future.exec fuel t0 ops w).futs x).assigned = true := by
  induction ops with
  | nil => intro w hx _; exact hx
  | cons op rest ih =>
    intro w hx hfresh
    exact ih _ (call_keeps_assigned fuel t0 x op w hx
        (fun h b e => hfresh h b (by rw [e]; exact List.mem_cons_self _ _)))
      (fun h b hm => hfresh h b (List.mem_cons_of_mem _ hm))

/-- C31: for every future handle `g` and every sequence of calls on futures (`set`, links,
`register_callback`, `get`, copies; on `g`, on its copies or on any other future; calls
that fail an assertion included): once `probe()` of `g` is true after some calls, it is
true after every further call, so the state goes from unassigned to assigned at most once
and never back.  The calls other than `set` and the link leave `probe()` of `g` as it was.
The copy constructor of a default-initialized future allocates a new implementation
object; `new` does not return the address of the implementation object of `g`. -/
theorem probe_true_stays_true (fuel : Nat) (t0 : T) (g : Future T)
    (ops1 ops2 : List (FutureOp T)) (w : World T)
    (hfresh : ∀ h b, FutureOp.copy h b ∈ ops2 → h.is_default_initialized = true →
      g.f ≠ some b)
    (hp : Future.probe (Future.exec fuel t0 ops1 w) g = true) :
    Future.probe (Future.exec fuel t0 (ops1 ++ ops2) w) g = true ∧
    (∀ (op : FutureOp T) (u : World T), (∀ h v, op ≠ FutureOp.set h v) →
      (∀ h other, op ≠ FutureOp.set_future h other) →
      (∀ h b, op = FutureOp.copy h b → h.is_default_initialized = true → g.f ≠ some b) →
      Future.probe (Future.call fuel t0 op u).2 g = Future.probe u g) := by
  refine ⟨?_, ?_⟩
  · rw [exec_append]
    rcases hf : g.f with _ | x
    · simpa [Future.probe, hf] using hp
    · have hx : ((Future.exec fuel t0 ops1 w).futs x).assigned = true := by
        simpa [Future.probe, hf, FutureImpl.probe] using hp
      have := exec_keeps_assigned fuel t0 x ops2 _ hx
        (fun h b hm hd e => hfresh h b hm hd (by rw [hf, e]))
      simpa [Future.probe, hf, FutureImpl.probe] using this
  · intro op u hset hlink hfr
    rcases hf : g.f with _ | x
    · simp [Future.probe, hf]
    · have := call_keeps_state fuel t0 x op u hset hlink
        (fun h b e hd e1 => hfr h b e hd (by rw [hf, e1]))
      simpa [Future.probe, hf, FutureImpl.probe] using this

/-- Witness for C31: a new future is set to 5; a second `set` (which fails), a
`register_callback`, a `get` and a copy follow, and `probe()` is still true. -/
theorem probe_true_stays_true_witness :
    Future.probe (Future.exec 3 0
      ([FutureOp.set ⟨some 0, none⟩ 5] ++
        [.set ⟨some 0, none⟩ 6, .register_callback ⟨some 0, none⟩ (.user 1),
         .get ⟨some 0, none⟩, .copy ⟨some 0, none⟩ 7])
      (FutureImpl.ctor 0 0 (World.init (0 : Nat)))) ⟨some 0, none⟩ = true :=
  (probe_true_stays_true 3 0 ⟨some 0, none⟩ [FutureOp.set ⟨some 0, none⟩ 5]
    [.set ⟨some 0, none⟩ 6, .register_callback ⟨some 0, none⟩ (.user 1),
     .get ⟨some 0, none⟩, .copy ⟨some 0, none⟩ 7]
    (FutureImpl.ctor 0 0 (World.init (0 : Nat)))
    (fun h b hm hd => by
      simp at hm
      obtain ⟨rfl, rfl⟩ := hm
      simp [Future.is_default_initialized] at hd)
    (by decide)).1

/-- C32: copying a future made by the default constructor is shallow.  For every unassigned
local future `f` (implementation object at `a`) and every value `v`: the copy `g` has the
same implementation pointer and nothing is allocated; after `g.set(v)`, however that call
ends, `f.probe()` is true and `f.get()` returns `v`; and a further `set` on `f` or on any
copy of `f` fails the single-assignment assertion.  With nothing registered on the future
`g.set(v)` returns normally. -/
theorem copy_shares_the_value (fuel : Nat) (hfuel : 2 ≤ fuel) (a b0 : Addr) (t0 v : T)
    (w : World T) (hun : (w.futs a).assigned = false)
    (hloc : (w.futs a).remote_ref = none) :
    (∀ b u, Future.copy (⟨some a, none⟩ : Future T) b t0 u = (⟨some a, none⟩, u)) ∧
    Future.probe (Future.set fuel (Future.copy ⟨some a, none⟩ b0 t0 w).1 v w).2
      ⟨some a, none⟩ = true ∧
    (Future.get ⟨some a, none⟩
      (Future.set fuel (Future.copy ⟨some a, none⟩ b0 t0 w).1 v w).2).1 = .value v ∧
    (∀ v2, (Future.set fuel ⟨some a, none⟩ v2
      (Future.set fuel (Future.copy ⟨some a, none⟩ b0 t0 w).1 v w).2).1 = .violation) ∧
    (∀ b v2, (Future.set fuel
      (Future.copy ⟨some a, none⟩ b t0
        (Future.set fuel (Future.copy ⟨some a, none⟩ b0 t0 w).1 v w).2).1 v2
      (Future.set fuel (Future.copy ⟨some a, none⟩ b0 t0 w).1 v w).2).1 = .violation) ∧
    ((w.futs a).callbacks = [] → (w.futs a).assignments = Stack.mk0 → 3 ≤ fuel →
      (Future.set fuel (Future.copy ⟨some a, none⟩ b0 t0 w).1 v w).1 = .ok) := by
  obtain ⟨m, rfl⟩ : ∃ m, fuel = m + 2 := ⟨fuel - 2, by omega⟩
  have hcopy : ∀ b u, Future.copy (⟨some a, none⟩ : Future T) b t0 u = (⟨some a, none⟩, u) := by
    intro b u
    simp [Future.copy, Future.is_default_initialized]
  have hres := set_resolves m a v w hun hloc
  simp only [hcopy, Future.set]
  refine ⟨fun _ _ => trivial, ?_, ?_, ?_, ?_, ?_⟩
  · simp [Future.probe, FutureImpl.probe, hres.1]
  · simp [Future.get, FutureImpl.get, FutureImpl.probe, hres.1, hres.2.1, hres.2.2]
  · intro v2
    exact set_raises_when_assigned m a v2 _ hres.1
  · intro _ v2
    exact set_raises_when_assigned m a v2 _ hres.1
  · intro hcb has h3
    obtain ⟨k, rfl⟩ : ∃ k, m = k + 1 := ⟨m - 1, by omega⟩
    rw [set_fresh_ok k a v w hun hloc hcb has]

/-- Witness for C32: a new future, a copy of it set to 42, and a second `set` through the
original. -/
theorem copy_shares_the_value_witness :
    (Future.get ⟨some 0, none⟩
      (Future.set 3 (Future.copy ⟨some 0, none⟩ 0 0
        (FutureImpl.ctor 0 0 (World.init (0 : Nat)))).1 42
        (FutureImpl.ctor 0 0 (World.init (0 : Nat)))).2).1 = .value 42 ∧
    (Future.set 3 ⟨some 0, none⟩ 43
      (Future.set 3 (Future.copy ⟨some 0, none⟩ 0 0
        (FutureImpl.ctor 0 0 (World.init (0 : Nat)))).1 42
        (FutureImpl.ctor 0 0 (World.init (0 : Nat)))).2).1 = .violation :=
  have key := copy_shares_the_value 3 (by decide) 0 0 0 42
    (FutureImpl.ctor 0 0 (World.init (0 : Nat))) rfl rfl
  ⟨key.2.2.1, key.2.2.2.1 43⟩

/-- What `future_vector_factory` returns: one handle per address, each on a new
implementation object, and nothing else is touched. -/
theorem future_vector_factory_spec (t0 : T) (addrs : List Addr) :
    ∀ w : World T,
      (future_vector_factory t0 addrs w).1 = addrs.map (fun b => ⟨some b, none⟩) ∧
      (∀ b ∈ addrs, (future_vector_factory t0 addrs w).2.futs b
        = ⟨[], Stack.mk0, false, none, t0⟩) ∧
      (∀ x, x ∉ addrs → (future_vector_factory t0 addrs w).2.futs x = w.futs x) := by
  induction addrs with
  | nil => intro w; exact ⟨rfl, fun b hb => by simp at hb, fun _ _ => rfl⟩
  | cons b rest ih =>
    intro w
    have hc : Future.copy (Future.default_initializer : Future T) b t0 w
        = (⟨some b, none⟩, FutureImpl.ctor b t0 w) := by
      simp [Future.copy, Future.is_default_initialized, Future.default_initializer]
    rw [future_vector_factory, hc]
    obtain ⟨i1, i2, i3⟩ := ih (FutureImpl.ctor b t0 w)
    refine ⟨by rw [i1]; rfl, ?_, ?_⟩
    · intro x hx
      by_cases hxr : x ∈ rest
      · exact i2 x hxr
      · have hxb : x = b := by
          rcases List.mem_cons.mp hx with e | e
          · exact e
          · exact absurd e hxr
        simp only
        rw [i3 x hxr, hxb, FutureImpl.ctor, setFut_futs_same]
    · intro x hx
      simp only
      rw [i3 x (fun h => hx (List.mem_cons_of_mem _ h)), FutureImpl.ctor,
        setFut_futs_other _ _ _ _ (fun e => hx (by rw [e]; exact List.mem_cons_self _ _))]

/-- C33: for every `n`, with `new` returning `n` distinct addresses:
`future_vector_factory(n)` returns `n` futures, all unassigned; for every `i`, `set` on
element `i` returns normally and makes its `probe()` true, and for every `j ≠ i` the
`probe()` of element `j` is after that `set` what it was before. -/
theorem factory_futures_are_independent (fuel : Nat) (hfuel : 3 ≤ fuel) (t0 : T)
    (addrs : List Addr) (hnd : addrs.Nodup) (w : World T) :
    (future_vector_factory t0 addrs w).1.length = addrs.length ∧
    (∀ h ∈ (future_vector_factory t0 addrs w).1,
      Future.probe (future_vector_factory t0 addrs w).2 h = false) ∧
    (∀ (i : Nat) (hi : i < (future_vector_factory t0 addrs w).1.length) (v : T),
      (Future.set fuel ((future_vector_factory t0 addrs w).1.get ⟨i, hi⟩) v
        (future_vector_factory t0 addrs w).2).1 = .ok ∧
      Future.probe (Future.set fuel ((future_vector_factory t0 addrs w).1.get ⟨i, hi⟩) v
        (future_vector_factory t0 addrs w).2).2
        ((future_vector_factory t0 addrs w).1.get ⟨i, hi⟩) = true ∧
      ∀ (j : Nat) (hj : j < (future_vector_factory t0 addrs w).1.length), j ≠ i →
        Future.probe (Future.set fuel ((future_vector_factory t0 addrs w).1.get ⟨i, hi⟩) v
          (future_vector_factory t0 addrs w).2).2
          ((future_vector_factory t0 addrs w).1.get ⟨j, hj⟩)
        = Future.probe (future_vector_factory t0 addrs w).2
          ((future_vector_factory t0 addrs w).1.get ⟨j, hj⟩)) := by
  obtain ⟨m, rfl⟩ : ∃ m, fuel = m + 3 := ⟨fuel - 3, by omega⟩
  obtain ⟨h1, h2, _⟩ := future_vector_factory_spec t0 addrs w
  obtain ⟨W, hW⟩ : ∃ W, W = (future_vector_factory t0 addrs w).2 := ⟨_, rfl⟩
  rw [← hW] at h2 ⊢
  refine ⟨by rw [h1, List.length_map], ?_, ?_⟩
  · intro h hh
    rw [h1] at hh
    obtain ⟨b, hb, rfl⟩ := List.mem_map.mp hh
    simp [Future.probe, FutureImpl.probe, h2 b hb]
  · intro i hi v
    have hi' : i < addrs.length := by rw [h1, List.length_map] at hi; exact hi
    have hget : (future_vector_factory t0 addrs w).1.get ⟨i, hi⟩
        = ⟨some (addrs.get ⟨i, hi'⟩), none⟩ := by
      simp [h1]
    have hbi := h2 _ (List.get_mem addrs i hi')
    have hset := set_fresh_ok m (addrs.get ⟨i, hi'⟩) v W (by rw [hbi]) (by rw [hbi])
      (by rw [hbi]) (by rw [hbi])
    rw [hget]
    simp only [Future.set]
    rw [hset]
    refine ⟨rfl, by simp [Future.probe, FutureImpl.probe, World.setFut], ?_⟩
    intro j hj hji
    have hj' : j < addrs.length := by rw [h1, List.length_map] at hj; exact hj
    have hgetj : (future_vector_factory t0 addrs w).1.get ⟨j, hj⟩
        = ⟨some (addrs.get ⟨j, hj'⟩), none⟩ := by
      simp [h1]
    have hne : addrs.get ⟨j, hj'⟩ ≠ addrs.get ⟨i, hi'⟩ := by
      intro e
      have := (List.Nodup.get_inj_iff hnd).mp e
      exact hji (by simpa using this)
    rw [hgetj]
    simp only [Future.probe, FutureImpl.probe]
    rw [setFut_futs_other _ _ _ _ hne]

/-- Witness for C33: three futures at the addresses 4, 5 and 6; the second one is set. -/
theorem factory_futures_are_independent_witness :
    (future_vector_factory 0 [4, 5, 6] (World.init (0 : Nat))).1.length = 3 ∧
    (Future.set 3 ⟨some 5, none⟩ 42
      (future_vector_factory 0 [4, 5, 6] (World.init (0 : Nat))).2).1 = .ok ∧
    Future.probe (Future.set 3 ⟨some 5, none⟩ 42
      (future_vector_factory 0 [4, 5, 6] (World.init (0 : Nat))).2).2 ⟨some 4, none⟩
      = false :=
  have key := factory_futures_are_independent 3 (by decide) 0 [4, 5, 6] (by decide)
    (World.init (0 : Nat))
  ⟨key.1, (key.2.2 1 (by decide) 42).1,
    ((key.2.2 1 (by decide) 42).2.2 0 (by decide) (by decide)).trans (by decide)⟩

/-- C34 fails on the code, against its own documentation ("Assignment future = future
makes a shallow copy just like copy constructor").  With `*this` default-initialized (no
implementation object, no value; `probe()` is false) and `other` a future holding the
value `v`, the test `f && other.value` is false and the branch `f = other.f` copies a
null pointer: the call returns normally and `*this` is still default-initialized, so its
`probe()` is false and its `get()` fails the assertion, while `other.probe()` is true and
a copy-constructed copy of `other` is assigned and returns `v`.  When `*this` has an
unassigned local implementation object the assignment does what the claim says: after it
the two `probe()` agree, and so do the two `get()` if `other` is assigned. -/
theorem assign_leaves_default_initialized (fuel : Nat) (v : T) (w : World T) :
    Future.probe w (Future.default_initializer : Future T) = false ∧
    Future.assign fuel false Future.default_initializer (Future.ctor_value v) w
      = (.ok, Future.default_initializer, w) ∧
    Future.probe (Future.assign fuel false Future.default_initializer (Future.ctor_value v) w).2.2
      (Future.ctor_value v) = true ∧
    Future.probe (Future.assign fuel false Future.default_initializer (Future.ctor_value v) w).2.2
      (Future.assign fuel false Future.default_initializer (Future.ctor_value v) w).2.1
      = false ∧
    (Future.get
      (Future.assign fuel false Future.default_initializer (Future.ctor_value v) w).2.1
      (Future.assign fuel false Future.default_initializer (Future.ctor_value v) w).2.2).1
      = .violation ∧
    (∀ b t0, Future.probe (Future.copy (Future.ctor_value v) b t0 w).2
        (Future.copy (Future.ctor_value v) b t0 w).1 = true ∧
      (Future.get (Future.copy (Future.ctor_value v) b t0 w).1
        (Future.copy (Future.ctor_value v) b t0 w).2).1 = .value v) ∧
    (∀ (x : Addr) (other : Future T), 2 ≤ fuel → (w.futs x).assigned = false →
      (w.futs x).remote_ref = none → (other.f = none ∨ other.value = none) →
      Future.probe (Future.assign fuel false ⟨some x, none⟩ other w).2.2
          (Future.assign fuel false ⟨some x, none⟩ other w).2.1
        = Future.probe (Future.assign fuel false ⟨some x, none⟩ other w).2.2 other ∧
      (Future.probe (Future.assign fuel false ⟨some x, none⟩ other w).2.2 other = true →
        (Future.get (Future.assign fuel false ⟨some x, none⟩ other w).2.1
            (Future.assign fuel false ⟨some x, none⟩ other w).2.2).1
          = (Future.get other (Future.assign fuel false ⟨some x, none⟩ other w).2.2).1)) := by
  have hrun : Future.assign fuel false Future.default_initializer (Future.ctor_value v) w
      = (.ok, Future.default_initializer, w) := by
    simp [Future.assign, Future.default_initializer, Future.ctor_value, Future.probe]
  rw [hrun]
  refine ⟨rfl, rfl, rfl, rfl, rfl, ?_, ?_⟩
  · intro b t0
    simp [Future.copy, Future.is_default_initialized, Future.ctor_value, Future.probe,
      Future.get]
  · intro x other hfuel hun hloc hwf
    obtain ⟨m, rfl⟩ : ∃ m, fuel = m + 2 := ⟨fuel - 2, by omega⟩
    rcases other with ⟨of, ov⟩
    cases ov with
    | none =>
      have hrun2 : Future.assign (m + 2) false ⟨some x, none⟩ ⟨of, none⟩ w
          = (.ok, ⟨of, none⟩, w) := by
        simp [Future.assign, Future.probe, FutureImpl.probe, hun]
      rw [hrun2]
      exact ⟨rfl, fun _ => rfl⟩
    | some vb =>
      have hof : of = none := by
        rcases hwf with h | h
        · exact h
        · cases h
      subst hof
      have hres := set_resolves m x vb w hun hloc
      have hrun2 : Future.assign (m + 2) false ⟨some x, none⟩ ⟨none, some vb⟩ w
          = ((FutureImpl.set (m + 2) x vb w).1, ⟨some x, none⟩,
              (FutureImpl.set (m + 2) x vb w).2) := by
        simp [Future.assign, Future.probe, FutureImpl.probe, hun, Future.set_future,
          Future.get, Future.set]
      rw [hrun2]
      simp [Future.probe, FutureImpl.probe, Future.get, FutureImpl.get, hres.1, hres.2.1,
        hres.2.2]

/-- Witness for C34: the default initializer assigned from the future made from 5, and a
new future assigned from the same. -/
theorem assign_leaves_default_initialized_witness :
    Future.probe (World.init (0 : Nat))
      (Future.assign 2 false Future.default_initializer (Future.ctor_value 5)
        (World.init (0 : Nat))).2.1 = false ∧
    Future.probe (World.init (0 : Nat)) (Future.ctor_value 5) = true ∧
    (Future.get (Future.assign 2 false ⟨some 0, none⟩ (Future.ctor_value 5)
        (World.init (0 : Nat))).2.1
      (Future.assign 2 false ⟨some 0, none⟩ (Future.ctor_value 5)
        (World.init (0 : Nat))).2.2).1 = .value 5 :=
  have key := assign_leaves_default_initialized 2 5 (World.init (0 : Nat))
  ⟨key.2.2.2.1, key.2.2.1,
    ((key.2.2.2.2.2.2 0 (Future.ctor_value 5) (by decide) rfl rfl (Or.inl rfl)).2
      (by decide)).trans rfl⟩

/-! ### Claims about trackers whose count reaches zero -/

theorem notQueued_of_deps {d : Addr} {w w1 : World T} (h : DependencyInterface.NotQueued d w)
    (e : w1.deps = w.deps) : DependencyInterface.NotQueued d w1 := by
  intro x c hc
  rw [e] at hc
  exact h x c hc

theorem notQueued_setDep {d : Addr} {w : World T} (h : DependencyInterface.NotQueued d w)
    (e : Addr) (o : DependencyInterface) (ho : ∀ c ∈ o.callbacks.elems, c ≠ Callback.dep d) :
    DependencyInterface.NotQueued d (w.setDep e o) := by
  intro x c hc
  by_cases hx : x = e
  · subst hx
    rw [setDep_deps_same] at hc
    exact ho c hc
  · simp only [World.setDep, Function.update_noteq hx] at hc
    exact h x c hc

/-- Notifications that do not start at the tracker `d` leave it alone, as long as no
tracker has `d` queued. -/
theorem notify_leaves_tracker (d : Addr) (n : Nat) :
    (∀ (c : Callback) (w : World T), c ≠ Callback.dep d → DependencyInterface.NotQueued d w →
      (CallbackInterface.notify n c w).2.deps d = w.deps d ∧
      DependencyInterface.NotQueued d (CallbackInterface.notify n c w).2) ∧
    (∀ (cb : Stack Callback DependencyInterface.MAXCALLBACKS) (w : World T),
      (∀ c ∈ cb.elems, c ≠ Callback.dep d) → DependencyInterface.NotQueued d w →
      (DependencyInterface.do_callbacks n cb w).2.deps d = w.deps d ∧
      DependencyInterface.NotQueued d (DependencyInterface.do_callbacks n cb w).2) ∧
    (∀ (e : Addr) (w : World T), e ≠ d → DependencyInterface.NotQueued d w →
      (DependencyInterface.dec n e w).2.deps d = w.deps d ∧
      DependencyInterface.NotQueued d (DependencyInterface.dec n e w).2) := by
  induction n with
  | zero =>
    refine ⟨?_, ?_, ?_⟩ <;> intro _ w _ hq <;>
      simp [CallbackInterface.notify, DependencyInterface.do_callbacks,
        DependencyInterface.dec, hq]
  | succ n ih =>
    obtain ⟨ih1, ih2, ih3⟩ := ih
    refine ⟨?_, ?_, ?_⟩
    · intro c w hc hq
      cases c with
      | user id => exact ⟨rfl, notQueued_of_deps hq rfl⟩
      | dep e =>
        simp only [CallbackInterface.notify]
        exact ih3 e w (fun h => hc (by rw [h])) hq
      | submit t => exact ⟨rfl, notQueued_of_deps hq rfl⟩
      | taskq => exact ⟨rfl, notQueued_of_deps hq rfl⟩
    · intro cb w hcb hq
      rcases cb with ⟨_ | ⟨c, rest⟩⟩
      · rw [do_callbacks_nil]
        exact ⟨rfl, hq⟩
      · rw [do_callbacks_cons]
        obtain ⟨a1, a2⟩ := ih1 c w (hcb c (by simp)) hq
        rcases hrun : CallbackInterface.notify n c w with ⟨o, w1⟩
        rw [hrun] at a1 a2
        cases o
        · simp only
          obtain ⟨b1, b2⟩ := ih2 ⟨rest⟩ w1
            (fun c1 hc1 => hcb c1 (by simp at hc1 ⊢; exact Or.inr hc1)) a2
          exact ⟨b1.trans a1, b2⟩
        all_goals exact ⟨a1, a2⟩
    · intro e w hed hq
      have hde : d ≠ e := fun h => hed h.symm
      rw [DependencyInterface.dec]
      split
      · obtain ⟨b1, b2⟩ := ih2 (w.deps e).callbacks
          (w.setDep e { ndepend := (w.deps e).ndepend - 1,
                        callbacks := (w.deps e).callbacks.clear })
          (hq e) (notQueued_setDep hq e _ (by simp))
        refine ⟨b1.trans ?_, b2⟩
        simp [World.setDep, Function.update_noteq hde]
      · obtain ⟨b1, b2⟩ := ih2 Stack.mk0
          (w.setDep e { ndepend := (w.deps e).ndepend - 1,
                        callbacks := (w.deps e).callbacks })
          (by simp [Stack.mk0]) (notQueued_setDep hq e _ (hq e))
        refine ⟨b1.trans ?_, b2⟩
        simp [World.setDep, Function.update_noteq hde]

/-- What `dec()` leaves in the tracker it is called on. -/
theorem dec_self (d : Addr) (n : Nat) (w : World T) (hq : DependencyInterface.NotQueued d w) :
    (DependencyInterface.dec (n + 1) d w).2.deps d
      = { ndepend := (w.deps d).ndepend - 1,
          callbacks := if (w.deps d).ndepend - 1 = 0 then ⟨[]⟩ else (w.deps d).callbacks } ∧
    DependencyInterface.NotQueued d (DependencyInterface.dec (n + 1) d w).2 := by
  rw [DependencyInterface.dec]
  split
  · rename_i h0
    obtain ⟨b1, b2⟩ := (notify_leaves_tracker d n).2.1 (w.deps d).callbacks
      (w.setDep d { ndepend := (w.deps d).ndepend - 1,
                    callbacks := (w.deps d).callbacks.clear })
      (hq d) (notQueued_setDep hq d _ (by simp))
    refine ⟨?_, b2⟩
    rw [b1, setDep_deps_same]
    rfl
  · rename_i h0
    obtain ⟨b1, b2⟩ := (notify_leaves_tracker d n).2.1 Stack.mk0
      (w.setDep d { ndepend := (w.deps d).ndepend - 1, callbacks := (w.deps d).callbacks })
      (by simp [Stack.mk0]) (notQueued_setDep hq d _ (hq d))
    refine ⟨?_, b2⟩
    rw [b1, setDep_deps_same]

/-- One guarded call keeps the count non-negative and the queue of a satisfied tracker
empty. -/
theorem call_keeps_drained (fuel : Nat) (d : Addr) (op : DepOp) (w : World T)
    (h0 : 0 ≤ (w.deps d).ndepend)
    (hdr : (w.deps d).ndepend = 0 → (w.deps d).callbacks.elems = [])
    (hq : DependencyInterface.NotQueued d w)
    (hdec : op = DepOp.dec → 0 < (w.deps d).ndepend)
    (hinc : op = DepOp.inc → (w.deps d).ndepend < 2 ^ 31 - 1)
    (hreg : op ≠ DepOp.register_callback (Callback.dep d)) :
    0 ≤ ((DependencyInterface.call fuel d op w).2.deps d).ndepend ∧
    (((DependencyInterface.call fuel d op w).2.deps d).ndepend = 0 →
      ((DependencyInterface.call fuel d op w).2.deps d).callbacks.elems = []) ∧
    DependencyInterface.NotQueued d (DependencyInterface.call fuel d op w).2 := by
  cases op with
  | inc =>
    have hroom := hinc rfl
    simp only [DependencyInterface.call, DependencyInterface.inc, setDep_deps_same]
    rw [wrap32_of_fits _ (by omega) (by omega)]
    exact ⟨by omega, fun h => by omega, notQueued_setDep hq d _ (hq d)⟩
  | dec =>
    have hpos := hdec rfl
    cases fuel with
    | zero =>
      simp only [DependencyInterface.call, DependencyInterface.dec]
      exact ⟨h0, hdr, hq⟩
    | succ n =>
      simp only [DependencyInterface.call]
      obtain ⟨e1, e2⟩ := dec_self d n w hq
      rw [e1]
      refine ⟨by simp only; omega, ?_, e2⟩
      intro h
      simp only at h
      simp [h]
  | register_callback c =>
    have hc : c ≠ Callback.dep d := fun h => hreg (by rw [h])
    simp only [DependencyInterface.call, DependencyInterface.register_callback]
    rcases hpush : (w.deps d).callbacks.push c with _ | pushed
    · exact ⟨h0, hdr, hq⟩
    · have hel : pushed.elems = c :: (w.deps d).callbacks.elems := by
        simp only [Stack.push] at hpush
        split at hpush
        · cases hpush; rfl
        · cases hpush
      have hp2 : ∀ c1 ∈ pushed.elems, c1 ≠ Callback.dep d := by
        intro c1 hc1
        rw [hel] at hc1
        rcases List.mem_cons.mp hc1 with rfl | h1
        · exact hc
        · exact hq d c1 h1
      simp only
      split
      · rename_i hp
        have hz : (w.deps d).ndepend = 0 := by
          simpa [DependencyInterface.probe, DependencyInterface.ndep, World.setDep] using hp
        obtain ⟨b1, b2⟩ := (notify_leaves_tracker d fuel).2.1 pushed
          ((w.setDep d { w.deps d with callbacks := pushed }).setDep d
            { (w.setDep d { w.deps d with callbacks := pushed }).deps d with
              callbacks := pushed.clear })
          hp2 (notQueued_setDep (notQueued_setDep hq d _ hp2) d _ (by simp))
        refine ⟨?_, ?_, b2⟩
        · rw [b1]
          simp only [setDep_deps_same]
          exact h0
        · intro _
          rw [b1]
          simp only [setDep_deps_same, Stack.clear_eq]
      · rename_i hp
        have hz : (w.deps d).ndepend ≠ 0 := by
          simpa [DependencyInterface.probe, DependencyInterface.ndep, World.setDep] using hp
        obtain ⟨b1, b2⟩ := (notify_leaves_tracker d fuel).2.1 Stack.mk0
          (w.setDep d { w.deps d with callbacks := pushed })
          (by simp [Stack.mk0]) (notQueued_setDep hq d _ hp2)
        refine ⟨?_, ?_, b2⟩
        · rw [b1]
          simp only [setDep_deps_same]
          exact h0
        · intro h
          rw [b1] at h
          simp only [setDep_deps_same] at h
          exact absurd h hz

/-- A guarded sequence of calls keeps the queue of a satisfied tracker empty. -/
theorem run_keeps_drained (fuel : Nat) (d : Addr) (ops : List DepOp) :
    ∀ (w : World T), 0 ≤ (w.deps d).ndepend →
      ((w.deps d).ndepend = 0 → (w.deps d).callbacks.elems = []) →
      DependencyInterface.NotQueued d w →
      DependencyInterface.DecGuarded fuel d ops w →
      ∀ u ∈ DependencyInterface.run fuel d ops w,
        0 ≤ (u.deps d).ndepend ∧
        ((u.deps d).ndepend = 0 → (u.deps d).callbacks.elems = []) := by
  induction ops with
  | nil => intro w _ _ _ _ u hu; simp [DependencyInterface.run] at hu
  | cons op rest ih =>
    intro w h0 hdr hq hg u hu
    obtain ⟨hdec, hinc, hreg, hrest⟩ := hg
    obtain ⟨k0, kdr, kq⟩ := call_keeps_drained fuel d op w h0 hdr hq hdec hinc hreg
    simp only [DependencyInterface.run, List.mem_cons] at hu
    rcases hu with rfl | hu
    · exact ⟨k0, kdr⟩
    · exact ih _ k0 kdr kq hrest u hu

/-- After `n > 0` calls of `inc()` the count is the old count plus `n`, as a 32-bit `int`,
and the queue is as it was. -/
theorem run_incs (fuel : Nat) (d : Addr) :
    ∀ (n : Nat) (w : World T), 0 < n →
      ∃ u ∈ DependencyInterface.run fuel d (List.replicate n DepOp.inc) w,
        (u.deps d).ndepend = wrap32 ((w.deps d).ndepend + (n : Int)) ∧
        (u.deps d).callbacks = (w.deps d).callbacks := by
  intro n
  induction n with
  | zero => intro w h; exact absurd h (by decide)
  | succ n ih =>
    intro w _
    rw [List.replicate_succ, DependencyInterface.run]
    have h1 : ((DependencyInterface.call fuel d DepOp.inc w).2.deps d)
        = { w.deps d with ndepend := wrap32 ((w.deps d).ndepend + 1) } := by
      simp [DependencyInterface.call, DependencyInterface.inc, setDep_deps_same]
    by_cases hn : n = 0
    · subst hn
      refine ⟨_, List.mem_cons_self _ _, ?_, ?_⟩
      · rw [h1]
        simp
      · rw [h1]
    · obtain ⟨u, hu, e1, e2⟩ := ih (DependencyInterface.call fuel d DepOp.inc w).2 (by omega)
      refine ⟨u, List.mem_cons_of_mem _ hu, ?_, ?_⟩
      · rw [e1, h1]
        simp only
        rw [wrap32_wrap32_add]
        push_cast
        congr 1
        omega
      · rw [e2, h1]

/-- C38 as stated fails: on a tracker created with count 1, `register_callback(1)` queues
the callback, and after `2^32 - 1` calls of `inc()`, with no `dec()` at all, the 32-bit
count has wrapped to 0 while the callback is still queued. -/
theorem satisfied_by_overflow_counterexample :
    ∃ u ∈ DependencyInterface.run 1 0
        (DepOp.register_callback (.user 1) :: List.replicate 4294967295 DepOp.inc)
        (DependencyInterface.ctor 0 1 (World.init (0 : Nat))),
      DependencyInterface.ndep u 0 = 0 ∧ (u.deps 0).callbacks.empty = false := by
  rw [DependencyInterface.run]
  have h1 : ((DependencyInterface.call 1 0 (DepOp.register_callback (.user 1))
      (DependencyInterface.ctor 0 1 (World.init (0 : Nat)))).2.deps 0)
      = ⟨1, ⟨[Callback.user 1]⟩⟩ := by
    decide
  obtain ⟨u, hu, e1, e2⟩ := run_incs 1 0 4294967295
    (DependencyInterface.call 1 0 (DepOp.register_callback (.user 1))
      (DependencyInterface.ctor 0 1 (World.init (0 : Nat)))).2 (by decide)
  refine ⟨u, List.mem_cons_of_mem _ hu, ?_, ?_⟩
  · rw [DependencyInterface.ndep, e1, h1]
    decide
  · rw [e2, h1]
    decide

/-- C38, amended: for every tracker created with an initial count `≥ 0` and every sequence
of `inc()`, `dec()` and `register_callback()` calls on it in which `dec()` is only called
while the count is positive and `inc()` only while the count is below `INT_MAX` (the
calls that notifications make included: no tracker has this one queued, and it is not
registered on itself): after every call, a count of 0 means that the queue of the
tracker is empty, `callbacks.empty()` is true. -/
theorem satisfied_tracker_holds_no_callback (N : Int) (hN : 0 ≤ N) (fuel : Nat) (d : Addr)
    (ops : List DepOp) (w : World T) (hnd : (w.deps d).ndepend = N)
    (hcb : (w.deps d).callbacks = Stack.mk0) (hq : DependencyInterface.NotQueued d w)
    (hg : DependencyInterface.DecGuarded fuel d ops w) :
    ∀ u ∈ DependencyInterface.run fuel d ops w,
      DependencyInterface.ndep u d = 0 → (u.deps d).callbacks.empty = true := by
  intro u hu h0
  have key := (run_keeps_drained fuel d ops w (by rw [hnd]; exact hN)
    (fun _ => by rw [hcb]; rfl) hq hg u hu).2 h0
  simp [Stack.empty, Stack.size, key]

/-- Witness for the amended C38: created with count 1; `register_callback(1)` queues the callback,
`dec()` reaches 0 and empties the queue, `register_callback(2)` notifies at once. -/
theorem satisfied_tracker_holds_no_callback_witness :
    ((DependencyInterface.call 3 0 (DepOp.register_callback (.user 2))
      (DependencyInterface.call 3 0 DepOp.dec
        (DependencyInterface.call 3 0 (DepOp.register_callback (.user 1))
          (DependencyInterface.ctor 0 1 (World.init (0 : Nat)))).2).2).2.deps 0).callbacks.empty
      = true :=
  satisfied_tracker_holds_no_callback 1 (by decide) 3 0
    [DepOp.register_callback (.user 1), DepOp.dec, DepOp.register_callback (.user 2)]
    (DependencyInterface.ctor 0 1 (World.init (0 : Nat))) rfl rfl
    (fun e c hc => by
      by_cases he : e = 0
      · subst he; simp [DependencyInterface.ctor, World.setDep, Stack.mk0] at hc
      · simp [DependencyInterface.ctor, World.setDep, Function.update_noteq he, World.init,
          Stack.mk0] at hc)
    ⟨(fun h => by cases h), (fun h => by cases h), (fun h => by cases h),
     (fun _ => by decide), (fun h => by cases h), (fun h => by cases h),
     (fun h => by cases h), (fun h => by cases h), (fun h => by cases h), trivial⟩
    _ (List.Mem.tail _ (List.Mem.tail _ (List.Mem.head _))) (by decide)

/-! ### Claims about a future of a vector of futures -/

/-- Adding a task with no dependency hands it to the pool and touches no tracker. -/
theorem add_ready (fuel : Nat) (t : Addr) (w : World T) (h : (w.deps t).ndepend = 0) :
    WorldTaskQueue.add fuel t w
      = (.ok, ThreadPool.add t { w with nregistered := w.nregistered.post_inc.2 }) := by
  simp [WorldTaskQueue.add, DependencyInterface.ndep, h]

/-- The constructor of a `ForEachTask` followed by its `add`: one more task to wait for,
and the new task in the ready queue. -/
theorem create_task_tracked {α : Type} (fuel : Nat) (root t : Addr) (htr : t ≠ root)
    (range : Range α) (added : Bool) (s : ForEachState α T)
    (hnd : (s.w.deps root).ndepend = (s.live.length : Int))
    (hroom : s.live.length + 1 < 2 ^ 31)
    (hcb : s.w.ready.count root = 0 ∧
      ((s.w.deps root).callbacks = ⟨[]⟩ ∨
        (added = true ∧ (s.w.deps root).callbacks = ⟨[Callback.submit root]⟩))) :
    (ForEachState.add fuel t (ForEachTask.ctor root t range s)).1 = .ok ∧
    (ForEachState.add fuel t (ForEachTask.ctor root t range s)).2.live
      = s.live ++ [(t, range)] ∧
    ((ForEachState.add fuel t (ForEachTask.ctor root t range s)).2.w.deps root).ndepend
      = (s.live.length : Int) + 1 ∧
    ((ForEachState.add fuel t (ForEachTask.ctor root t range s)).2.w.deps root).callbacks
      = (s.w.deps root).callbacks ∧
    (ForEachState.add fuel t (ForEachTask.ctor root t range s)).2.w.ready.count root = 0 := by
  have hrt : root ≠ t := fun e => htr e.symm
  have hdep : ((DependencyInterface.inc root (DependencyInterface.ctor t 0 s.w)).2.deps t).ndepend
      = 0 := by
    simp [DependencyInterface.inc, DependencyInterface.ctor, World.setDep,
      Function.update_noteq htr]
  simp only [ForEachState.add, ForEachTask.ctor]
  rw [add_ready fuel t _ hdep]
  have hw : wrap32 ((s.live.length : Int) + 1) = (s.live.length : Int) + 1 :=
    wrap32_of_fits _ (by omega) (by exact_mod_cast hroom)
  refine ⟨rfl, trivial, ?_, ?_, ?_⟩
  · simp [ThreadPool.add, DependencyInterface.inc, DependencyInterface.ctor, World.setDep,
      Function.update_noteq hrt, hnd, hw]
  · simp [ThreadPool.add, DependencyInterface.inc, DependencyInterface.ctor, World.setDep,
      Function.update_noteq hrt]
  · simp only [ThreadPool.add, DependencyInterface.inc, DependencyInterface.ctor,
      World.setDep, List.count_append, hcb.1]
    simp [List.count_cons, htr]

/-- The constructor of the root task leaves one task to wait for. -/
theorem construct_tracked {α : Type} (fuel : Nat) (root first : Addr) (hfr : first ≠ root)
    (range : Range α) (w : World T) (hready : root ∉ w.ready) :
    (ForEachRootTask.construct fuel root first range w).1 = .ok ∧
    ForEachState.Tracked root false (ForEachRootTask.construct fuel root first range w).2 ∧
    (ForEachRootTask.construct fuel root first range w).2.live = [(first, range)] := by
  obtain ⟨c1, c2, c3, c4, c5⟩ := create_task_tracked fuel root first hfr range false
    (⟨DependencyInterface.ctor root 0 w, ForEachRootTask.ctor range, []⟩ : ForEachState α T)
    (by simp [DependencyInterface.ctor, setDep_deps_same]) (by simp)
    ⟨by simpa [DependencyInterface.ctor, World.setDep] using List.count_eq_zero_of_not_mem hready,
      Or.inl (by simp [DependencyInterface.ctor, setDep_deps_same, Stack.mk0])⟩
  rw [ForEachRootTask.construct]
  refine ⟨c1, ⟨?_, ?_, ?_, ?_⟩, by rw [c2]; rfl⟩
  · rw [c3, c2]; simp
  · intro _
    refine ⟨c5, ?_⟩
    rw [c4]
    simp [DependencyInterface.ctor, setDep_deps_same, Stack.mk0]
  · intro h; cases h
  · intro h; cases h

/-- One step of a task creates at most one task. -/
theorem step_live_length {α : Type} (fuel : Nat) (root : Addr) (cut : Nat → Nat)
    (op : α → Bool) (i : Nat) (leaf : Addr) (s : ForEachState α T) :
    (ForEachTask.step fuel root cut op i leaf s).2.live.length ≤ s.live.length + 1 := by
  rw [ForEachTask.step]
  rcases hget : s.live.get? i with _ | ⟨t, range⟩
  · simp
  · simp only
    split
    · simp [ForEachState.add, ForEachTask.ctor]
    · simp only [ForEachState.complete, List.length_eraseIdx]
      split <;> omega

/-- One step of a task keeps the tracker of the root task right, while the number of
tasks fits the 32-bit count. -/
theorem step_tracked {α : Type} (fuel : Nat) (hfuel : 3 ≤ fuel) (root : Addr)
    (cut : Nat → Nat) (op : α → Bool) (i : Nat) (leaf : Addr) (hleaf : leaf ≠ root)
    (added : Bool) (s : ForEachState α T) (h : ForEachState.Tracked root added s)
    (hroom : s.live.length + 1 < 2 ^ 31) :
    (ForEachTask.step fuel root cut op i leaf s).1 = .ok ∧
    ForEachState.Tracked root added (ForEachTask.step fuel root cut op i leaf s).2 := by
  obtain ⟨k, rfl⟩ : ∃ k, fuel = k + 3 := ⟨fuel - 3, by omega⟩
  obtain ⟨hnd, hno, hwait, hdone⟩ := h
  rw [ForEachTask.step]
  rcases hget : s.live.get? i with _ | ⟨t, range⟩
  · exact ⟨rfl, hnd, hno, hwait, hdone⟩
  · have hi : i < s.live.length := by
      rcases List.get?_eq_some.mp hget with ⟨hi, _⟩
      exact hi
    have hne : s.live ≠ [] := by
      intro e
      rw [e] at hi
      simp at hi
    have hcb : s.w.ready.count root = 0 ∧
        ((s.w.deps root).callbacks = ⟨[]⟩ ∨
          (added = true ∧ (s.w.deps root).callbacks = ⟨[Callback.submit root]⟩)) := by
      cases added with
      | false => exact ⟨(hno rfl).1, Or.inl (hno rfl).2⟩
      | true => exact ⟨(hwait rfl hne).1, Or.inr ⟨rfl, (hwait rfl hne).2⟩⟩
    simp only
    split
    · -- the task splits its range
      obtain ⟨c1, c2, c3, c4, c5⟩ := create_task_tracked (k + 3) root leaf hleaf
        (range.split cut).2 added
        ({ s with live := s.live.set i (t, (range.split cut).1) } : ForEachState α T)
        (by simp [hnd]) (by simpa using hroom) hcb
      refine ⟨c1, ?_, ?_, ?_, ?_⟩
      · rw [c3, c2]
        simp
      · intro ha
        exact ⟨c5, by rw [c4]; exact (hno ha).2⟩
      · intro ha _
        exact ⟨c5, by rw [c4]; exact (hwait ha hne).2⟩
      · intro _ he
        rw [c2] at he
        simp at he
    · -- the task completes
      simp only [ForEachState.complete]
      have hlen : ((s.live.eraseIdx i).length : Int) = (s.live.length : Int) - 1 := by
        rw [List.length_eraseIdx, if_pos hi]
        omega
      by_cases hone : (s.w.deps root).ndepend = 1
      · have hl1 : s.live.length = 1 := by
          rw [hnd] at hone
          exact_mod_cast hone
        have hemp : s.live.eraseIdx i = [] := by
          apply List.eq_nil_of_length_eq_zero
          rw [List.length_eraseIdx, if_pos hi, hl1]
        rw [dec_last (k + 2) root s.w hone]
        rcases hcb.2 with hc | ⟨ha, hc⟩
        · rw [hc, do_callbacks_nil]
          refine ⟨rfl, ?_, ?_, ?_, ?_⟩
          · simp [setDep_deps_same, hemp]
          · intro _
            exact ⟨hcb.1, by simp [setDep_deps_same]⟩
          · intro _ he
            exact absurd hemp he
          · intro ha _
            cases added with
            | false => cases ha
            | true =>
              have := (hwait rfl hne).2
              rw [hc] at this
              simp at this
        · rw [hc, do_callbacks_cons, notify_submit]
          simp only
          rw [do_callbacks_nil]
          refine ⟨rfl, ?_, ?_, ?_, ?_⟩
          · simp [ThreadPool.add, setDep_deps_same, hemp, World.setDep]
          · intro hf
            rw [ha] at hf
            cases hf
          · intro _ he
            exact absurd hemp he
          · intro _ _
            refine ⟨?_, by simp [ThreadPool.add, World.setDep]⟩
            simp only [ThreadPool.add, World.setDep, List.count_append, hcb.1]
            simp
      · have hl : s.live.length ≠ 1 := by
          intro e
          apply hone
          rw [hnd, e]
          rfl
        have hne2 : s.live.eraseIdx i ≠ [] := by
          intro e
          have := congrArg List.length e
          rw [List.length_eraseIdx, if_pos hi] at this
          simp at this
          omega
        rw [dec_not_last (k + 1) root s.w hone]
        refine ⟨rfl, ?_, ?_, ?_, ?_⟩
        · simp only [setDep_deps_same]
          rw [hlen, hnd]
        · intro ha
          exact ⟨(hno ha).1, by simp only [setDep_deps_same]; exact (hno ha).2⟩
        · intro ha _
          exact ⟨(hwait ha hne).1, by simp only [setDep_deps_same]; exact (hwait ha hne).2⟩
        · intro _ he
          exact absurd he hne2


/-- The call `add(for_each_root)` queues the submit callback of the root task if a task
has not completed, and hands the root task to the pool otherwise. -/
theorem add_root_tracked {α : Type} (fuel : Nat) (hfuel : 1 ≤ fuel) (root : Addr)
    (s : ForEachState α T) (h : ForEachState.Tracked root false s) :
    (ForEachState.add fuel root s).1 = .ok ∧
    ForEachState.Tracked root true (ForEachState.add fuel root s).2 := by
  obtain ⟨k, rfl⟩ : ∃ k, fuel = k + 1 := ⟨fuel - 1, by omega⟩
  obtain ⟨hnd, hno, _, _⟩ := h
  obtain ⟨hr, hc⟩ := hno rfl
  rw [ForEachState.add]
  by_cases hz : (s.w.deps root).ndepend = 0
  · have hl : s.live = [] := by
      apply List.eq_nil_of_length_eq_zero
      rw [hnd] at hz
      exact_mod_cast hz
    rw [add_ready (k + 1) root s.w hz]
    refine ⟨rfl, ?_, ?_, ?_, ?_⟩
    · simpa [ThreadPool.add] using hnd
    · intro hf; cases hf
    · intro _ he
      exact absurd hl he
    · intro _ _
      refine ⟨?_, by simpa [ThreadPool.add] using hc⟩
      simp only [ThreadPool.add, List.count_append, hr]
      simp
  · have hl : s.live ≠ [] := by
      intro e
      apply hz
      rw [hnd, e]
      rfl
    have hrun : WorldTaskQueue.add (k + 1) root s.w
        = (.ok, ({ s.w with nregistered := s.w.nregistered.post_inc.2 } : World T).setDep root
            { s.w.deps root with callbacks := ⟨[Callback.submit root]⟩ }) := by
      simp [WorldTaskQueue.add, DependencyInterface.ndep, hz,
        TaskInterface.register_submit_callback, DependencyInterface.register_callback, hc,
        Stack.push, Stack.size, DependencyInterface.MAXCALLBACKS, DependencyInterface.probe,
        World.setDep, Stack.mk0, do_callbacks_nil]
    rw [hrun]
    refine ⟨rfl, ?_, ?_, ?_, ?_⟩
    · simpa [setDep_deps_same] using hnd
    · intro hf; cases hf
    · intro _ _
      exact ⟨by simpa [World.setDep] using hr, by simp [setDep_deps_same]⟩
    · intro _ he
      exact absurd he hl
/-- A sequence of steps with at most one `add(for_each_root)` keeps the tracker of the
root task right. -/
theorem exec_tracked {α : Type} (fuel : Nat) (hfuel : 3 ≤ fuel) (root : Addr)
    (cut : Nat → Nat) (op : α → Bool) (steps : List ForEachStep)
    (hleaf : ∀ i leaf, ForEachStep.run i leaf ∈ steps → leaf ≠ root)
    (added : Bool) (s : ForEachState α T) (h : ForEachState.Tracked root added s)
    (hcount : (if added = true then 1 else 0) + steps.count ForEachStep.add_root ≤ 1)
    (hroom : s.live.length + steps.length < 2 ^ 31) :
    ForEachState.Tracked root (added || decide (ForEachStep.add_root ∈ steps))
      (ForEachState.exec fuel root cut op steps s) := by
  induction steps generalizing added s with
  | nil => simpa [ForEachState.exec] using h
  | cons st rest ih =>
    rw [ForEachState.exec]
    rw [List.length_cons] at hroom
    cases st with
    | run i leaf =>
      have h1 := (step_tracked fuel hfuel root cut op i leaf
        (hleaf i leaf (List.mem_cons_self _ _)) added s h (by omega)).2
      have hlen := step_live_length fuel root cut op i leaf s
      have h2 := ih (fun j l hm => hleaf j l (List.mem_cons_of_mem _ hm)) added _ h1
        (by simpa using hcount) (by omega)
      simpa [ForEachState.call] using h2
    | add_root =>
      have hf : added = false := by
        cases added with
        | false => rfl
        | true => simp at hcount
      subst hf
      have h1 := (add_root_tracked fuel (by omega) root s h).2
      have h2 := ih (fun j l hm => hleaf j l (List.mem_cons_of_mem _ hm)) true _ h1
        (by simpa using hcount)
        (by show s.live.length + rest.length < 2 ^ 31; omega)
      simpa [ForEachState.call] using h2

/-- In a tracked state every step returns normally. -/
theorem call_tracked_ok {α : Type} (fuel : Nat) (hfuel : 3 ≤ fuel) (root : Addr)
    (cut : Nat → Nat) (op : α → Bool) (st : ForEachStep)
    (hleaf : ∀ i leaf, st = ForEachStep.run i leaf → leaf ≠ root)
    (added : Bool) (hadd : st = ForEachStep.add_root → added = false)
    (s : ForEachState α T) (h : ForEachState.Tracked root added s)
    (hroom : s.live.length + 1 < 2 ^ 31) :
    (ForEachState.call fuel root cut op st s).1 = .ok := by
  cases st with
  | run i leaf =>
    exact (step_tracked fuel hfuel root cut op i leaf (hleaf i leaf rfl) added s h hroom).1
  | add_root =>
    have hf := hadd rfl
    subst hf
    exact (add_root_tracked fuel (by omega) root s h).1

theorem exec_append_steps {α : Type} (fuel : Nat) (root : Addr) (cut : Nat → Nat)
    (op : α → Bool) (xs ys : List ForEachStep) (s : ForEachState α T) :
    ForEachState.exec fuel root cut op (xs ++ ys) s
      = ForEachState.exec fuel root cut op ys (ForEachState.exec fuel root cut op xs s) := by
  induction xs generalizing s with
  | nil => rfl
  | cons x xs ih =>
    simp only [List.cons_append, ForEachState.exec]
    exact ih _

/-- A sequence of steps creates at most one task per step. -/
theorem exec_live_length {α : Type} (fuel : Nat) (root : Addr) (cut : Nat → Nat)
    (op : α → Bool) (steps : List ForEachStep) (s : ForEachState α T) :
    (ForEachState.exec fuel root cut op steps s).live.length
      ≤ s.live.length + steps.length := by
  induction steps generalizing s with
  | nil => simp [ForEachState.exec]
  | cons st rest ih =>
    rw [ForEachState.exec, List.length_cons]
    have h1 := ih (ForEachState.call fuel root cut op st s).2
    have h2 : (ForEachState.call fuel root cut op st s).2.live.length
        ≤ s.live.length + 1 := by
      cases st with
      | run i leaf => exact step_live_length fuel root cut op i leaf s
      | add_root => exact Nat.le_succ _
    omega

/-- Claim C40: after the root task of `for_each` is constructed, and after any sequence
of fewer than `2^31 - 1` steps (the count of the root task is a 32-bit `int`), each a
task run (which either splits its range and adds a new task, or applies the
operation and calls `complete`), with at most one call `add(for_each_root)` somewhere in
it, every step has returned normally, the dependency count of the root task is the
number of tasks created and not yet completed, the root task is not in the ready queue
while a task is outstanding, and it is in the ready queue exactly once if
`add(for_each_root)` was called and no task is outstanding, and not at all otherwise. -/
theorem root_task_runnable_once {α : Type} (fuel : Nat) (hfuel : 3 ≤ fuel)
    (root first : Addr) (hfr : first ≠ root) (range : Range α) (w : World T)
    (hready : root ∉ w.ready) (cut : Nat → Nat) (op : α → Bool)
    (steps : List ForEachStep)
    (hleaf : ∀ i leaf, ForEachStep.run i leaf ∈ steps → leaf ≠ root)
    (hcount : steps.count ForEachStep.add_root ≤ 1)
    (hsteps : steps.length + 1 < 2 ^ 31) :
    (ForEachRootTask.construct fuel root first range w).1 = .ok ∧
    (ForEachRootTask.construct fuel root first range w).2.live = [(first, range)] ∧
    (∀ pre st post, steps = pre ++ st :: post →
      (ForEachState.call fuel root cut op st
        (ForEachState.exec fuel root cut op pre
          (ForEachRootTask.construct fuel root first range w).2)).1 = .ok ∧
      DependencyInterface.ndep
        (ForEachState.exec fuel root cut op pre
          (ForEachRootTask.construct fuel root first range w).2).w root
        = ((ForEachState.exec fuel root cut op pre
          (ForEachRootTask.construct fuel root first range w).2).live.length : Int)) ∧
    DependencyInterface.ndep
        (ForEachState.exec fuel root cut op steps
          (ForEachRootTask.construct fuel root first range w).2).w root
      = ((ForEachState.exec fuel root cut op steps
          (ForEachRootTask.construct fuel root first range w).2).live.length : Int) ∧
    ((ForEachState.exec fuel root cut op steps
        (ForEachRootTask.construct fuel root first range w).2).live ≠ [] →
      DependencyInterface.ndep
        (ForEachState.exec fuel root cut op steps
          (ForEachRootTask.construct fuel root first range w).2).w root ≠ 0 ∧
      (ForEachState.exec fuel root cut op steps
        (ForEachRootTask.construct fuel root first range w).2).w.ready.count root = 0) ∧
    (ForEachState.exec fuel root cut op steps
        (ForEachRootTask.construct fuel root first range w).2).w.ready.count root ≤ 1 ∧
    ((ForEachState.exec fuel root cut op steps
        (ForEachRootTask.construct fuel root first range w).2).w.ready.count root = 1 ↔
      (ForEachStep.add_root ∈ steps ∧
        (ForEachState.exec fuel root cut op steps
          (ForEachRootTask.construct fuel root first range w).2).live = [])) := by
  obtain ⟨c1, c2, c3⟩ := construct_tracked fuel root first hfr range w hready
  have hall := exec_tracked fuel hfuel root cut op steps hleaf false _ c2
    (by simpa using hcount) (by rw [c3, List.length_singleton]; omega)
  simp only [Bool.false_or] at hall
  obtain ⟨hnd, hno, hwait, hdone⟩ := hall
  refine ⟨c1, c3, ?_, hnd, ?_, ?_, ?_⟩
  · intro pre st post hsplit
    have hpre := exec_tracked fuel hfuel root cut op pre
      (fun i l hm => hleaf i l (by rw [hsplit]; exact List.mem_append_left _ hm)) false _ c2
      (by
        rw [hsplit] at hcount
        simp only [List.count_append] at hcount
        simp only [Bool.false_eq_true, if_false]
        omega)
      (by
        rw [c3, List.length_singleton]
        rw [hsplit, List.length_append, List.length_cons] at hsteps
        omega)
    simp only [Bool.false_or] at hpre
    have hlen := exec_live_length fuel root cut op pre
      (ForEachRootTask.construct fuel root first range w).2
    rw [c3, List.length_singleton] at hlen
    refine ⟨call_tracked_ok fuel hfuel root cut op st
      (fun i l hst => hleaf i l (by rw [hsplit, hst]; simp)) _ ?_ _ hpre
      (by
        rw [hsplit, List.length_append, List.length_cons] at hsteps
        omega), hpre.1⟩
    intro hst
    rw [hsplit, hst] at hcount
    simp only [List.count_append, List.count_cons_self] at hcount
    have hz : pre.count ForEachStep.add_root = 0 := by omega
    simpa using List.count_eq_zero.mp hz
  · intro hlive
    refine ⟨?_, ?_⟩
    · intro hz
      apply hlive
      apply List.eq_nil_of_length_eq_zero
      have hlen := hnd.symm.trans hz
      exact_mod_cast hlen
    · by_cases hmem : ForEachStep.add_root ∈ steps
      · exact (hwait (by simpa using hmem) hlive).1
      · exact (hno (by simpa using hmem)).1
  · by_cases hmem : ForEachStep.add_root ∈ steps
    · by_cases hlive : (ForEachState.exec fuel root cut op steps
          (ForEachRootTask.construct fuel root first range w).2).live = []
      · rw [(hdone (by simpa using hmem) hlive).1]
      · rw [(hwait (by simpa using hmem) hlive).1]
        omega
    · rw [(hno (by simpa using hmem)).1]
      omega
  · constructor
    · intro hone
      by_cases hmem : ForEachStep.add_root ∈ steps
      · refine ⟨hmem, ?_⟩
        by_contra hlive
        rw [(hwait (by simpa using hmem) hlive).1] at hone
        omega
      · rw [(hno (by simpa using hmem)).1] at hone
        omega
    · rintro ⟨hmem, hlive⟩
      exact (hdone (by simpa using hmem) hlive).1

theorem root_task_runnable_once_witness :
    (ForEachState.exec 3 0 (fun m => (m + 1) / 2) (fun x : Nat => x % 2 == 0)
        [ForEachStep.run 0 2, ForEachStep.add_root, ForEachStep.run 0 3, ForEachStep.run 0 4]
        (ForEachRootTask.construct 3 0 1 ⟨[2, 4], 1⟩ (World.init (0 : Nat))).2).w.ready.count 0
      = 1 ∧
    (ForEachState.exec 3 0 (fun m => (m + 1) / 2) (fun x : Nat => x % 2 == 0)
        [ForEachStep.run 0 2, ForEachStep.add_root, ForEachStep.run 0 3]
        (ForEachRootTask.construct 3 0 1 ⟨[2, 4], 1⟩ (World.init (0 : Nat))).2).w.ready.count 0
      = 0 :=
  ⟨(root_task_runnable_once 3 (by decide) 0 1 (by decide) ⟨[2, 4], 1⟩ (World.init (0 : Nat))
      (by simp [World.init]) (fun m => (m + 1) / 2) (fun x : Nat => x % 2 == 0)
      [ForEachStep.run 0 2, ForEachStep.add_root, ForEachStep.run 0 3, ForEachStep.run 0 4]
      (by
        intro i leaf hm
        simp at hm
        rcases hm with ⟨_, rfl⟩ | ⟨_, rfl⟩ | ⟨_, rfl⟩ <;> decide)
      (by decide) (by decide)).2.2.2.2.2.2.mpr ⟨by decide, rfl⟩,
   ((root_task_runnable_once 3 (by decide) 0 1 (by decide) ⟨[2, 4], 1⟩ (World.init (0 : Nat))
      (by simp [World.init]) (fun m => (m + 1) / 2) (fun x : Nat => x % 2 == 0)
      [ForEachStep.run 0 2, ForEachStep.add_root, ForEachStep.run 0 3]
      (by
        intro i leaf hm
        simp at hm
        rcases hm with ⟨_, rfl⟩ | ⟨_, rfl⟩ <;> decide)
      (by decide) (by decide)).2.2.2.2.1
      (by
        intro h
        have := congrArg List.length h
        revert this
        decide)).2⟩

/-! ### Claims about `LBTree::verify_partition` -/

end madness
